import Mathlib

/-!
# the_journey: dependency partitioning of a minimal spreadsheet

A shallow embedding of `workload.go` and `operations.go`.

* Go strings are Lean `String`s; offsets are counted in characters.  Every
  pattern the program uses is built from ASCII classes only, so the pieces it
  cuts out are the same whether offsets are counted in bytes or characters.
* Go `int` coordinates are `Int`; board accesses outside the board are Go
  runtime panics.
* `os.Exit` and runtime panics are results of type `Fault`.  The only loop of
  the program that may fail to terminate, the traversal of
  `getDependencyTree`, takes a fuel argument and reports `Fault.outOfFuel`
  when it is exhausted.
-/

namespace Journey

/-! ## Results of running the program -/

/-- The ways a run stops without returning. -/
inductive Fault where
  /-- The call `os.Exit(code)`. -/
  | exit (code : Nat)
  /-- A Go runtime error: index or slice bounds out of range. -/
  | panic
  /-- The fuel of the model ran out; not a behaviour of the program. -/
  | outOfFuel
deriving DecidableEq, Repr

/-- Error code `INVALID_CELL_REFERENCE_ERROR` of `main.go`. -/
def INVALID_CELL_REFERENCE_ERROR : Nat := 5

/-- Error code `INVALID_EXPRESSION_ERROR` of `main.go`. -/
def INVALID_EXPRESSION_ERROR : Nat := 6

/-- Status Board value of a cell that already has its value. -/
def PROCESSED : Int := -1

/-- Status Board value of a coordinate that was never added to the workload. -/
def MISSING : Int := -2

/-! ## Regular expressions of `operations.go`

The program compiles seven fixed patterns.  None of them matches the empty
string, and in each of them every greedy repetition is followed by a character
outside the repeated class, so the leftmost-first match at a position, when
there is one, takes the longest run of each repetition.
-/

/-- The regular expressions that occur in `operations.go`. -/
inductive Pattern where
  /-- The pattern `[A-Z]+\d+`. -/
  | cellRef
  /-- The pattern `[A-Z]+(\d+)`. -/
  | cellRefNum
  /-- The pattern `incFrom\((\d+)\)`. -/
  | incFrom
  /-- The pattern `E\^`. -/
  | above
  /-- The pattern `E\^v`. -/
  | aboveBelow
  /-- The pattern `@\w+<\d+>`. -/
  | label
  /-- The pattern `\w+`. -/
  | word
deriving DecidableEq, Repr

/-- Class `[A-Z]`. -/
def isUpperAZ (c : Char) : Bool := decide (65 ≤ c.toNat) && decide (c.toNat ≤ 90)

/-- Class `\d`, the ASCII digits. -/
def isDigit09 (c : Char) : Bool := decide (48 ≤ c.toNat) && decide (c.toNat ≤ 57)

/-- Class `\w`, that is `[0-9A-Za-z_]`. -/
def isWordChar (c : Char) : Bool :=
  isDigit09 c || isUpperAZ c || (decide (97 ≤ c.toNat) && decide (c.toNat ≤ 122)) || c == '_'

/-- Strip the literal `lit` from the front of `s`. -/
def stripLit : List Char → List Char → Option (List Char)
  | [], s => some s
  | _ :: _, [] => none
  | l :: ls, c :: cs => if l = c then stripLit ls cs else none

/-- Match of `p` anchored at the front of `s`: the offsets, from the front of
`s`, of the start of the counted group, its end, and the end of the match.
For a pattern without a group the group is the whole match. -/
def Pattern.matchAt (p : Pattern) (s : List Char) : Option (Nat × Nat × Nat) :=
  match p with
  | .cellRef =>
    let ls := s.takeWhile isUpperAZ
    let ds := (s.dropWhile isUpperAZ).takeWhile isDigit09
    if ls.length = 0 ∨ ds.length = 0 then none
    else some (0, ls.length + ds.length, ls.length + ds.length)
  | .cellRefNum =>
    let ls := s.takeWhile isUpperAZ
    let ds := (s.dropWhile isUpperAZ).takeWhile isDigit09
    if ls.length = 0 ∨ ds.length = 0 then none
    else some (ls.length, ls.length + ds.length, ls.length + ds.length)
  | .incFrom =>
    match stripLit ['i', 'n', 'c', 'F', 'r', 'o', 'm', '('] s with
    | none => none
    | some r =>
      let ds := r.takeWhile isDigit09
      match r.dropWhile isDigit09 with
      | ')' :: _ => if ds.length = 0 then none else some (8, 8 + ds.length, 8 + ds.length + 1)
      | _ => none
  | .above =>
    match s with
    | 'E' :: '^' :: _ => some (0, 2, 2)
    | _ => none
  | .aboveBelow =>
    match s with
    | 'E' :: '^' :: 'v' :: _ => some (0, 3, 3)
    | _ => none
  | .label =>
    match s with
    | '@' :: r =>
      let ws := r.takeWhile isWordChar
      match r.dropWhile isWordChar with
      | '<' :: r2 =>
        let ds := r2.takeWhile isDigit09
        match r2.dropWhile isDigit09 with
        | '>' :: _ =>
          if ws.length = 0 ∨ ds.length = 0 then none
          else some (0, 1 + ws.length + 1 + ds.length + 1, 1 + ws.length + 1 + ds.length + 1)
        | _ => none
      | _ => none
    | _ => none
  | .word =>
    let ws := s.takeWhile isWordChar
    if ws.length = 0 then none else some (0, ws.length, ws.length)

/-- All successive non-overlapping matches of `p` in the remaining text `s`,
which starts at offset `pos`; `skip` counts the characters still covered by the
previous match.  Each match is `(start, groupStart, groupEnd, end)` in offsets
of the whole text. -/
def Pattern.scan (p : Pattern) : List Char → Nat → Nat → List (Nat × Nat × Nat × Nat)
  | [], _, _ => []
  | _ :: cs, pos, skip + 1 => p.scan cs (pos + 1) skip
  | c :: cs, pos, 0 =>
    match p.matchAt (c :: cs) with
    | some (g0, g1, n + 1) => (pos, pos + g0, pos + g1, pos + n + 1) :: p.scan cs (pos + 1) n
    | _ => p.scan cs (pos + 1) 0

/-- Go `FindAllStringSubmatchIndex(expr, -1)`, for a pattern with at most one
group. -/
def Pattern.findAllIndex (p : Pattern) (expr : String) : List (Nat × Nat × Nat × Nat) :=
  p.scan expr.toList 0 0

/-- The Go slice expression `s[a:b]` on a string. -/
def slice (s : String) (a b : Nat) : Except Fault String :=
  if a ≤ b ∧ b ≤ s.length then .ok (String.mk ((s.toList.drop a).take (b - a)))
  else .error .panic

/-- Go `s[a:b]` where the bounds are known to be those of a match. -/
def sliceMatch (s : String) (a b : Nat) : String :=
  String.mk ((s.toList.drop a).take (b - a))

/-- Characters that may form a `$name` reference in a replacement template:
ASCII letters, digits and the underscore.  (Go also admits letters and digits
outside ASCII; such templates are outside this model.) -/
def isNameChar (c : Char) : Bool := isWordChar c

/-- Go `extract` of `regexp`: the name that follows a `$` in a template, with
the number of characters that the reference takes. -/
def extractName (str : List Char) : Option (List Char × Nat) :=
  match str with
  | '{' :: body =>
    let name := body.takeWhile isNameChar
    match body.dropWhile isNameChar with
    | '}' :: _ => if name.length = 0 then none else some (name, name.length + 2)
    | _ => none
  | _ =>
    let name := str.takeWhile isNameChar
    if name.length = 0 then none else some (name, name.length)

/-- Go `Regexp.expand` for a pattern without groups: `$$` is a dollar sign,
`$0` and `${0}` are the matched text, every other well-formed reference is
empty, and a dollar sign that starts no reference stands for itself.  Names
are read with `isNameChar`, so the expansion is that of Go on templates in
which no `$` or `${` is followed by a letter or digit outside ASCII. -/
def expandTemplate (matched : List Char) : List Char → Nat → List Char
  | [], _ => []
  | _ :: cs, skip + 1 => expandTemplate matched cs skip
  | c :: cs, 0 =>
    if c = '$' then
      match cs with
      | '$' :: _ => '$' :: expandTemplate matched cs 1
      | _ =>
        match extractName cs with
        | none => '$' :: expandTemplate matched cs 0
        | some (name, n) =>
          (if name = ['0'] then matched else []) ++ expandTemplate matched cs n
    else c :: expandTemplate matched cs 0

/-- Go `ReplaceAllString` on the remaining text, for a pattern without
groups. -/
def Pattern.replaceScan (p : Pattern) (template : List Char) : List Char → Nat → List Char
  | [], _ => []
  | _ :: cs, skip + 1 => p.replaceScan template cs skip
  | c :: cs, 0 =>
    match p.matchAt (c :: cs) with
    | some (_, _, n + 1) =>
      expandTemplate ((c :: cs).take (n + 1)) template 0 ++ p.replaceScan template cs n
    | _ => c :: p.replaceScan template cs 0

/-- Value of a run of decimal digits. -/
def digitsValue (ds : List Char) : Nat :=
  ds.foldl (fun acc d => 10 * acc + (d.toNat - 48)) 0

/-- Largest value of a Go `int` on a 64-bit platform. -/
def maxInt64 : Int := 9223372036854775807

/-- Two's complement wrap-around of 64-bit `int` arithmetic. -/
def wrapInt64 (x : Int) : Int := (x + 9223372036854775808) % 18446744073709551616 - 9223372036854775808

/-- Go `strconv.Itoa`. -/
def itoa (n : Int) : String :=
  match n with
  | .ofNat m => Nat.repr m
  | .negSucc m => "-" ++ Nat.repr (m + 1)

/-- Go `string(r)` for an integer `r`: the character with that code point, or
U+FFFD when `r` is not a valid code point. -/
def runeToString (r : Int) : String :=
  if 0 ≤ r ∧ r.toNat.isValidChar then String.singleton (Char.ofNat r.toNat)
  else String.singleton (Char.ofNat 65533)

/-- The white space that `fmt` skips before a number (`isSpace` of `fmt/scan.go`),
the line feed excepted. -/
def isScanSpace (c : Char) : Bool :=
  let n := c.toNat
  decide (n = 9) || decide (11 ≤ n ∧ n ≤ 13) || decide (n = 32) || decide (n = 133) ||
  decide (n = 160) || decide (n = 5760) || decide (8192 ≤ n ∧ n ≤ 8202) ||
  decide (8232 ≤ n ∧ n ≤ 8233) || decide (n = 8239) || decide (n = 8287) || decide (n = 12288)

/-! ## Data model of `workload.go` -/

/-- A cell reference. -/
structure CellRef where
  row : Int
  col : Int
deriving DecidableEq, Repr

/-- A unit of work yet to be processed. -/
structure Cell where
  row : Int
  col : Int
  expr : String
  dependencies : List CellRef
deriving DecidableEq, Repr

/-- A group of cells to be processed in sequence. -/
abbrev Bucket := List Cell

/-- The values computed so far (the Value Board). -/
abbrev ResultBoard := List (List String)

/-- The status of each coordinate (the Status Board). -/
abbrev RefBoard := List (List Int)

/-- All the work yet to be processed and the results computed so far. -/
structure Workload where
  buckets : List Bucket
  result : ResultBoard
  ref : RefBoard
deriving DecidableEq, Repr

deriving instance DecidableEq for Except

/-- Go `newCellRef`. -/
def newCellRef (row col : Int) : CellRef := ⟨row, col⟩

/-- Go `newCellRefFromString`: `fmt.Sscanf(s, "%c%d", &col, &row)`.  The verb
`%c` takes one character; `%d` skips white space, takes an optional sign and
then a non-empty run of decimal digits, which `strconv.ParseInt` must accept as
a 64-bit decimal; what follows the digits is not read.  Any failure ends the
run with `INVALID_EXPRESSION_ERROR`. -/
def newCellRefFromString (s : String) : Except Fault CellRef :=
  match s.toList with
  | [] => .error (.exit INVALID_EXPRESSION_ERROR)
  | col :: rest =>
    let rest := rest.dropWhile isScanSpace
    let neg : Bool := match rest with
      | '-' :: _ => true
      | _ => false
    let rest := match rest with
      | '-' :: r => r
      | '+' :: r => r
      | r => r
    let tok := rest.takeWhile isDigit09
    if tok.length = 0 then .error (.exit INVALID_EXPRESSION_ERROR)
    else
      let row : Int := if neg then - (digitsValue tok : Int) else (digitsValue tok : Int)
      if row < - maxInt64 - 1 ∨ maxInt64 < row then .error (.exit INVALID_EXPRESSION_ERROR)
      else .ok ⟨wrapInt64 (row - 1), (col.toNat : Int) - 65⟩

/-- Go `CellRef.String`: `fmt.Sprintf("%s%d", string('A'+ref.col), ref.row+1)`. -/
def CellRef.toGoString (ref : CellRef) : String :=
  runeToString (65 + ref.col) ++ itoa (wrapInt64 (ref.row + 1))

/-- Go `Cell.addDependency`. -/
def Cell.addDependency (cell : Cell) (newRef : CellRef) : Cell :=
  if cell.dependencies.any (fun ref => newRef == ref) then cell
  else { cell with dependencies := cell.dependencies ++ [newRef] }

/-! ## String operations of `operations.go` -/

/-- Go `findExprMatches`. -/
def findExprMatches (expr : String) (p : Pattern) : List String :=
  (p.findAllIndex expr).map (fun m => sliceMatch expr m.1 m.2.2.2)

/-- Go loop body of `findExprMatchesNotFollowedBy`, over the matches left. -/
def findNotFollowedByLoop (expr followedBy : String) :
    List (Nat × Nat × Nat × Nat) → List String → Except Fault (List String)
  | [], result => .ok result
  | m :: ms, result =>
    match slice expr m.2.2.2 (m.2.2.2 + followedBy.length) with
    | .error e => .error e
    | .ok next =>
      if next ≠ followedBy then
        findNotFollowedByLoop expr followedBy ms (result ++ [sliceMatch expr m.1 m.2.2.2])
      else findNotFollowedByLoop expr followedBy ms result

/-- Go `findExprMatchesNotFollowedBy`; the third argument is the Go parameter
`suffix`. -/
def findExprMatchesNotFollowedBy (expr : String) (p : Pattern) (followedBy : String) :
    Except Fault (List String) :=
  findNotFollowedByLoop expr followedBy (p.findAllIndex expr) []

/-- Go `replaceExprMatches`. -/
def replaceExprMatches (expr : String) (p : Pattern) (value : String) : String :=
  String.mk (p.replaceScan value.toList expr.toList 0)

/-- Go loop of `replaceExprMatchesNotFollowedBy`: the state is `(i, result)`. -/
def replaceNotFollowedByLoop (expr followedBy value : String) :
    List (Nat × Nat × Nat × Nat) → Nat → String → Except Fault (Nat × String)
  | [], i, result => .ok (i, result)
  | m :: ms, i, result =>
    match slice expr m.2.2.2 (m.2.2.2 + followedBy.length) with
    | .error e => .error e
    | .ok next =>
      if next ≠ followedBy then
        match slice expr i m.1 with
        | .error e => .error e
        | .ok piece =>
          replaceNotFollowedByLoop expr followedBy value ms m.2.2.2 (result ++ piece ++ value)
      else replaceNotFollowedByLoop expr followedBy value ms i result

/-- Go `replaceExprMatchesNotFollowedBy`. -/
def replaceExprMatchesNotFollowedBy (expr : String) (p : Pattern) (followedBy value : String) :
    Except Fault String :=
  match replaceNotFollowedByLoop expr followedBy value (p.findAllIndex expr) 0 "" with
  | .error e => .error e
  | .ok (i, result) =>
    match slice expr i expr.length with
    | .error e => .error e
    | .ok piece => .ok (result ++ piece)

/-- Go loop of `incExprNumber`: the state is `(i, newExpr)`. -/
def incExprNumberLoop (expr : String) :
    List (Nat × Nat × Nat × Nat) → Nat → String → Except Fault (Nat × String)
  | [], i, newExpr => .ok (i, newExpr)
  | m :: ms, i, newExpr =>
    match slice expr i m.2.1 with
    | .error e => .error e
    | .ok piece =>
      let num : Int := digitsValue (sliceMatch expr m.2.1 m.2.2.1).toList
      if maxInt64 < num then .error (.exit INVALID_EXPRESSION_ERROR)
      else incExprNumberLoop expr ms m.2.2.1 (newExpr ++ piece ++ itoa (wrapInt64 (num + 1)))

/-- Go `incExprNumber`. -/
def incExprNumber (expr : String) (p : Pattern) : Except Fault String :=
  match p.findAllIndex expr with
  | [] => .ok expr
  | m :: ms =>
    match incExprNumberLoop expr (m :: ms) 0 "" with
    | .error e => .error e
    | .ok (i, newExpr) =>
      match slice expr i expr.length with
      | .error e => .error e
      | .ok piece => .ok (newExpr ++ piece)

/-! ## Boards -/

/-- Go read of `board[row][col]`; outside the board it is a runtime panic. -/
def boardGet {α : Type} (board : List (List α)) (row col : Int) : Except Fault α :=
  if row < 0 ∨ col < 0 then .error .panic
  else
    match board[row.toNat]? with
    | none => .error .panic
    | some cells =>
      match cells[col.toNat]? with
      | none => .error .panic
      | some v => .ok v

/-- Go assignment `board[row][col] = v`; outside the board it is a runtime
panic. -/
def boardSet {α : Type} (board : List (List α)) (row col : Int) (v : α) :
    Except Fault (List (List α)) :=
  if row < 0 ∨ col < 0 then .error .panic
  else
    match board[row.toNat]? with
    | none => .error .panic
    | some cells =>
      if col.toNat < cells.length then .ok (board.set row.toNat (cells.set col.toNat v))
      else .error .panic

/-- Go `newResultBoard`. -/
def newResultBoard (rows cols : Nat) : ResultBoard :=
  List.replicate rows (List.replicate cols "")

/-- Go `newRefBoard`. -/
def newRefBoard (rows cols : Nat) : RefBoard :=
  List.replicate rows (List.replicate cols MISSING)

/-- Go `calcBoardDimensions`. -/
def calcBoardDimensions (tokens : List (List String)) : Nat × Nat :=
  (tokens.length, tokens.foldl (fun maxLen line => if line.length > maxLen then line.length else maxLen) 0)

/-! ## Lookups of `workload.go` -/

/-- Go `Workload.assertWithinBounds`.  The last disjunct reads
`wl.result[0]`, which exists whenever the first three disjuncts are false. -/
def Workload.assertWithinBounds (wl : Workload) (row col : Int) : Except Fault Unit :=
  if row < 0 ∨ col < 0 ∨ row ≥ wl.result.length then .error (.exit INVALID_CELL_REFERENCE_ERROR)
  else
    match wl.result[0]? with
    | none => .error .panic
    | some line0 =>
      if col ≥ line0.length then .error (.exit INVALID_CELL_REFERENCE_ERROR) else .ok ()

/-- Go `Workload.getCell`; `none` is the nil pointer. -/
def Workload.getCell (wl : Workload) (ref : CellRef) : Except Fault (Option Cell) := do
  wl.assertWithinBounds ref.row ref.col
  let idx ← boardGet wl.ref ref.row ref.col
  if 0 ≤ idx then
    match wl.buckets[idx.toNat]? with
    | none => .error .panic
    | some bucket => .ok (bucket.find? (fun cell => cell.row == ref.row && cell.col == ref.col))
  else if idx = PROCESSED then .ok none
  else .error (.exit INVALID_CELL_REFERENCE_ERROR)

/-- Go `Workload.getCellExpr`. -/
def Workload.getCellExpr (wl : Workload) (row col : Int) : Except Fault String := do
  wl.assertWithinBounds row col
  let idx ← boardGet wl.ref row col
  if 0 ≤ idx then
    match wl.buckets[idx.toNat]? with
    | none => .error .panic
    | some bucket =>
      match bucket.find? (fun cell => cell.row == row && cell.col == col) with
      | some cell => .ok cell.expr
      | none => .ok ""
  else if idx = PROCESSED then boardGet wl.result row col
  else .error (.exit INVALID_CELL_REFERENCE_ERROR)

/-- Go `Workload.getCellValue`. -/
def Workload.getCellValue (wl : Workload) (row col : Int) : Except Fault String := do
  wl.assertWithinBounds row col
  let idx ← boardGet wl.ref row col
  if 0 ≤ idx then .ok ((newCellRef row col).toGoString ++ "_val")
  else if idx = PROCESSED then boardGet wl.result row col
  else .error (.exit INVALID_CELL_REFERENCE_ERROR)

/-! ## Dependencies and evaluation (`operations.go`) -/

/-- First block of Go `computeDependencies`: a cell whose expression is exactly
`=^^` takes the expression of the cell above, with the numbers of `incFrom(n)`
and of the cell references incremented. -/
def propagateFromAbove (cell : Cell) (wl : Workload) : Except Fault Cell :=
  if cell.expr = "=^^" then do
    let e ← wl.getCellExpr (cell.row - 1) cell.col
    let e ← incExprNumber e .incFrom
    let e ← incExprNumber e .cellRefNum
    pure { cell with expr := e }
  else pure cell

/-- Go `computeDependencies`.  The loops over `E\^v` and `@\w+<\d+>` have empty
bodies and are left out. -/
def computeDependencies (cell : Cell) (wl : Workload) : Except Fault Cell := do
  let cell ← propagateFromAbove cell wl
  let cell ← (findExprMatches cell.expr .cellRef).foldlM
    (fun (c : Cell) m => do
      let ref ← newCellRefFromString m
      pure (c.addDependency ref)) cell
  let ms ← findExprMatchesNotFollowedBy cell.expr .above "v"
  pure (ms.foldl (fun (c : Cell) _ => c.addDependency (newCellRef (c.row - 1) c.col)) cell)

/-- Go `newCell`. -/
def newCell (row col : Int) (expr : String) (wl : Workload) : Except Fault Cell :=
  computeDependencies ⟨row, col, expr, []⟩ wl

/-- Go `evaluateCell`: the returned cell is the cell behind the pointer after
the call. -/
def evaluateCell (cell : Cell) (wl : Workload) : Except Fault (Bool × Cell) := do
  let cell ← (findExprMatches cell.expr .cellRef).foldlM
    (fun (c : Cell) m => do
      let ref ← newCellRefFromString m
      let value ← wl.getCellValue ref.row ref.col
      pure { c with expr := replaceExprMatches c.expr .cellRef value }) cell
  let ms ← findExprMatchesNotFollowedBy cell.expr .above "v"
  let cell ← ms.foldlM
    (fun (c : Cell) _ => do
      let value ← wl.getCellValue (c.row - 1) c.col
      let e ← replaceExprMatchesNotFollowedBy c.expr .above "v" value
      pure { c with expr := e }) cell
  if (findExprMatches cell.expr .aboveBelow).length ≠ 0 then pure (false, cell)
  else if (findExprMatches cell.expr .label).length ≠ 0 then pure (false, cell)
  else if (findExprMatches cell.expr .word).length ≠ 0 then pure (false, cell)
  else pure (true, cell)

/-! ## Building the workload -/

/-- Inner loop of Go `getDependencyTree`: the pending cells among `refs` are
appended to `result`. -/
def Workload.appendPending (wl : Workload) : List CellRef → List Cell → Except Fault (List Cell)
  | [], result => .ok result
  | ref :: refs, result => do
    match ← wl.getCell ref with
    | some c => wl.appendPending refs (result ++ [c])
    | none => wl.appendPending refs result

/-- Outer loop of Go `getDependencyTree`, `for i := 0; i < len(result); i++`,
from index `i`; one unit of fuel per iteration. -/
def Workload.treeLoop (wl : Workload) : Nat → Nat → List Cell → Except Fault (List Cell)
  | 0, i, result => if i < result.length then .error .outOfFuel else .ok result
  | fuel + 1, i, result =>
    match result[i]? with
    | none => .ok result
    | some c => do
      let result ← wl.appendPending c.dependencies result
      wl.treeLoop fuel (i + 1) result

/-- Go `Workload.getDependencyTree`. -/
def Workload.getDependencyTree (wl : Workload) (cell : Cell) (fuel : Nat) : Except Fault (List Cell) :=
  wl.treeLoop fuel 0 [cell]

/-- List of the deprecated buckets, built by the sweep from the cells of
`wl.buckets[i][1:]`. -/
def collectOldBuckets (ref : RefBoard) : List Cell → List Int → Except Fault (List Int)
  | [], oldBuckets => .ok oldBuckets
  | cell :: cells, oldBuckets => do
    let j ← boardGet ref cell.row cell.col
    if oldBuckets.any (fun k => k == j) then collectOldBuckets ref cells oldBuckets
    else collectOldBuckets ref cells (oldBuckets ++ [j])

/-- Status Board after `wl.ref[oldCell.row][oldCell.col] = i` for every cell of
a deprecated bucket. -/
def markMoved (i : Int) : List Cell → RefBoard → Except Fault RefBoard
  | [], ref => .ok ref
  | oldCell :: cells, ref => do
    let ref ← boardSet ref oldCell.row oldCell.col i
    markMoved i cells ref

/-- Clearing of the deprecated buckets and update of the Status Board. -/
def Workload.clearOldBuckets (i : Nat) : List Int → Workload → Except Fault Workload
  | [], wl => .ok wl
  | j :: js, wl =>
    if j < 0 then .error .panic
    else
      match wl.buckets[j.toNat]? with
      | none => .error .panic
      | some bucket => do
        let ref ← markMoved i bucket wl.ref
        Workload.clearOldBuckets i js { wl with ref := ref, buckets := wl.buckets.set j.toNat [] }

/-- Body of the merge sweep of Go `createWorkloadBuckets` for bucket `i`. -/
def Workload.mergeBucket (fuel : Nat) (wl : Workload) (i : Nat) : Except Fault Workload :=
  match wl.buckets[i]? with
  | none => .error .panic
  | some [] => .ok wl
  | some (seed :: _) => do
    let tree ← wl.getDependencyTree seed fuel
    match tree with
    | [] => .error .panic
    | _ :: children =>
      let wl := { wl with buckets := wl.buckets.set i tree }
      let oldBuckets ← collectOldBuckets wl.ref children []
      Workload.clearOldBuckets i oldBuckets wl

/-- Treatment of one token by the first loop of Go `createWorkloadBuckets`. -/
def Workload.scanToken (wl : Workload) (row col : Nat) (expr : String) : Except Fault Workload :=
  match expr.toList with
  | '=' :: _ => do
    let cell ← newCell row col expr wl
    let buckets := wl.buckets ++ [[cell]]
    let ref ← boardSet wl.ref row col ((buckets.length : Int) - 1)
    pure { wl with buckets := buckets, ref := ref }
  | _ => do
    let result ← boardSet wl.result row col expr
    let ref ← boardSet wl.ref row col PROCESSED
    pure { wl with result := result, ref := ref }

/-- First loop of Go `createWorkloadBuckets` over the tokens of one line, from
column `col`. -/
def Workload.scanLine (row : Nat) : List String → Nat → Workload → Except Fault Workload
  | [], _, wl => .ok wl
  | expr :: rest, col, wl => do
    let wl ← wl.scanToken row col expr
    Workload.scanLine row rest (col + 1) wl

/-- First loop of Go `createWorkloadBuckets` over the lines, from row `row`. -/
def Workload.scanLines : List (List String) → Nat → Workload → Except Fault Workload
  | [], _, wl => .ok wl
  | line :: rest, row, wl => do
    let wl ← Workload.scanLine row line 0 wl
    Workload.scanLines rest (row + 1) wl

/-- The merge sweep of Go `createWorkloadBuckets`, over the bucket indices. -/
def Workload.mergeSweep (fuel : Nat) (wl : Workload) : Except Fault Workload :=
  (List.range wl.buckets.length).foldlM (Workload.mergeBucket fuel) wl

/-- Last loop of Go `createWorkloadBuckets`: every bucket is reversed. -/
def Workload.invertBuckets (wl : Workload) : Workload :=
  { wl with buckets := wl.buckets.map List.reverse }

/-- Go `Workload.createWorkloadBuckets`. -/
def Workload.createWorkloadBuckets (wl : Workload) (tokens : List (List String)) (fuel : Nat) :
    Except Fault Workload := do
  let wl ← Workload.scanLines tokens 0 wl
  let wl ← wl.mergeSweep fuel
  pure wl.invertBuckets

/-- Go `newWorkload`. -/
def newWorkload (tokens : List (List String)) (fuel : Nat) : Except Fault Workload :=
  let dims := calcBoardDimensions tokens
  Workload.createWorkloadBuckets ⟨[], newResultBoard dims.1 dims.2, newRefBoard dims.1 dims.2⟩ tokens fuel

/-! ## Processing the workload -/

/-- One iteration of the first loop of Go `processBucket`, for position `j` of
bucket `i`, with the value returned by `evaluateCell`.  The loop variable
`cell` is the copy of the bucket element taken before `evaluateCell` ran. -/
def Workload.evaluateAt (i : Nat) (wl : Workload) (j : Nat) : Except Fault (Workload × Bool) :=
  match wl.buckets[i]? with
  | none => .error .panic
  | some bucket =>
    match bucket[j]? with
    | none => .error .panic
    | some cell => do
      let r ← evaluateCell cell wl
      let wl := { wl with buckets := wl.buckets.set i (bucket.set j r.2) }
      if r.1 then do
        let result ← boardSet wl.result cell.row cell.col cell.expr
        let ref ← boardSet wl.ref cell.row cell.col PROCESSED
        pure ({ wl with result := result, ref := ref }, true)
      else pure (wl, false)

/-- First loop of Go `processBucket` over the positions `js`; the list of
booleans records what `evaluateCell` returned at each position. -/
def Workload.evaluateLoop (i : Nat) : List Nat → Workload → List Bool → Except Fault (Workload × List Bool)
  | [], wl, flags => .ok (wl, flags)
  | j :: js, wl, flags => do
    let r ← Workload.evaluateAt i wl j
    Workload.evaluateLoop i js r.1 (flags ++ [r.2])

/-- Second loop of Go `processBucket`, over the cells of the bucket. -/
def Workload.fallbackLoop : List Cell → Workload → Except Fault Workload
  | [], wl => .ok wl
  | cell :: cells, wl => do
    let idx ← boardGet wl.ref cell.row cell.col
    if 0 ≤ idx then do
      let result ← boardSet wl.result cell.row cell.col cell.expr
      let ref ← boardSet wl.ref cell.row cell.col PROCESSED
      Workload.fallbackLoop cells { wl with result := result, ref := ref }
    else Workload.fallbackLoop cells wl

/-- Go `processBucket`, with the record of the values `evaluateCell`
returned. -/
def Workload.processBucketTraced (wl : Workload) (i : Nat) : Except Fault (Workload × List Bool) :=
  match wl.buckets[i]? with
  | none => .error .panic
  | some bucket => do
    let r ← Workload.evaluateLoop i (List.range bucket.length) wl []
    match r.1.buckets[i]? with
    | none => .error .panic
    | some bucket2 => do
      let wl2 ← Workload.fallbackLoop bucket2 r.1
      pure (wl2, r.2)

/-- Go `Workload.processBucket`. -/
def Workload.processBucket (wl : Workload) (i : Nat) : Except Fault Workload := do
  let r ← wl.processBucketTraced i
  pure r.1

/-- Buckets processed one whole bucket at a time, in the given order. -/
def Workload.processInOrder (wl : Workload) (order : List Nat) : Except Fault Workload :=
  order.foldlM Workload.processBucket wl

/-- Go `Workload.runSequencially`. -/
def Workload.runSequencially (wl : Workload) : Except Fault Workload :=
  wl.processInOrder (List.range wl.buckets.length)

/-- Indices of the non-empty buckets, for which Go `parallelize` starts a
goroutine. -/
def Workload.launched (wl : Workload) : List Nat :=
  (List.range wl.buckets.length).filter (fun i => decide ((wl.buckets.getD i []).length > 0))

/-! ## Vocabulary of the properties -/

/-- The formula marker: the text of a dynamic cell begins with `=`. -/
def isDynamic (expr : String) : Bool :=
  match expr.toList with
  | '=' :: _ => true
  | _ => false

/-- The token of the grid at a coordinate, if the grid has one there. -/
def tokenAt (tokens : List (List String)) (row col : Int) : Option String :=
  if row < 0 ∨ col < 0 then none
  else
    match tokens[row.toNat]? with
    | none => none
    | some cells => cells[col.toNat]?

/-- The coordinate of a cell. -/
def Cell.coord (cell : Cell) : Int × Int := (cell.row, cell.col)

/-- The coordinates listed in each bucket, in order. -/
def Workload.coordinates (wl : Workload) : List (List (Int × Int)) :=
  wl.buckets.map (fun b => b.map Cell.coord)

/-- The coordinate is listed in some bucket. -/
def Workload.listed (wl : Workload) (row col : Int) : Prop :=
  ∃ b ∈ wl.buckets, ∃ c ∈ b, c.row = row ∧ c.col = col

/-- The Status Board agrees with the buckets: every cell listed in bucket `i`
has the entry `i` at its coordinate. -/
def Workload.Agrees (wl : Workload) : Prop :=
  ∀ (i : Nat) (b : Bucket), wl.buckets[i]? = some b →
    ∀ c ∈ b, boardGet wl.ref c.row c.col = .ok (i : Int)

/-- Every listed cell lies on a dynamic token of the grid. -/
def Workload.ListsDynamic (tokens : List (List String)) (wl : Workload) : Prop :=
  ∀ b ∈ wl.buckets, ∀ c ∈ b, ∃ e, tokenAt tokens c.row c.col = some e ∧ isDynamic e = true

/-- The coordinate `(r, c)` comes before `(row, col)` in row-major order. -/
def scannedBefore (r c row col : Int) : Prop := r < row ∨ (r = row ∧ c < col)

/-- State of the first loop of `createWorkloadBuckets` when it reaches the
coordinate `(row, col)`, having started from `wl0`. -/
structure ScanInv (tokens : List (List String)) (wl0 wl : Workload) (row col : Int) : Prop where
  agrees : wl.Agrees
  dynamic : wl.ListsDynamic tokens
  scanned : ∀ b ∈ wl.buckets, ∀ c ∈ b, scannedBefore c.row c.col row col
  untouched : ∀ r c, tokenAt tokens r c = none →
    boardGet wl.ref r c = boardGet wl0.ref r c ∧ boardGet wl.result r c = boardGet wl0.result r c
  statics : ∀ r c e, scannedBefore r c row col → tokenAt tokens r c = some e →
    isDynamic e = false → boardGet wl.result r c = .ok e

/-- State of the merge sweep of `createWorkloadBuckets`, which started from
`wl0`, between two iterations. -/
structure SweepInv (tokens : List (List String)) (wl0 wl : Workload) : Prop where
  agrees : wl.Agrees
  dynamic : wl.ListsDynamic tokens
  result_eq : wl.result = wl0.result
  untouched : ∀ r c, tokenAt tokens r c = none → boardGet wl.ref r c = boardGet wl0.ref r c

/-- State of the workload while buckets are processed; `allowed` lists the
buckets that may have been processed already. -/
structure RunInv (tokens : List (List String)) (allowed : List Nat) (wl : Workload) : Prop where
  dynamic : wl.ListsDynamic tokens
  status : ∀ (k : Nat) (b : Bucket), wl.buckets[k]? = some b → ∀ c ∈ b,
    boardGet wl.ref c.row c.col = .ok (k : Int) ∨
    (k ∈ allowed ∧ boardGet wl.ref c.row c.col = .ok PROCESSED)
  statics : ∀ r c e, tokenAt tokens r c = some e → isDynamic e = false →
    boardGet wl.result r c = .ok e

/-- Grid of the worked examples: `1 | =A1 | =E^v` over a short row `x`. -/
def exampleGrid : List (List String) := [["1", "=A1", "=E^v"], ["x"]]

/-- The workload `newWorkload` builds from `exampleGrid`. -/
def exampleWorkload : Workload :=
  ⟨[[⟨0, 1, "=A1", [⟨0, 0⟩]⟩], [⟨0, 2, "=E^v", []⟩]],
    [["1", "", ""], ["x", "", ""]], [[-1, 0, 1], [-1, -2, -2]]⟩

/-- The workload of `exampleGrid` after bucket 1 was processed. -/
def exampleWorkloadAfter1 : Workload :=
  ⟨[[⟨0, 1, "=A1", [⟨0, 0⟩]⟩], [⟨0, 2, "=E^v", []⟩]],
    [["1", "", "=E^v"], ["x", "", ""]], [[-1, 0, -1], [-1, -2, -2]]⟩

/-- The workload of `exampleGrid` after bucket 1 and then bucket 0 were
processed. -/
def exampleWorkloadAfter10 : Workload :=
  ⟨[[⟨0, 1, "=1", [⟨0, 0⟩]⟩], [⟨0, 2, "=E^v", []⟩]],
    [["1", "=1", "=E^v"], ["x", "", ""]], [[-1, -1, -1], [-1, -2, -2]]⟩

/-- A sequence of references with every occurrence after the first of each
coordinate removed. -/
def keepFirstOccurrences : List CellRef → List CellRef
  | [] => []
  | r :: rs => r :: (keepFirstOccurrences rs).filter (fun x => x != r)

/-- The workload of Go `newWorkload` before `createWorkloadBuckets` runs: no
bucket, an empty Value Board and a Status Board of `MISSING` entries. -/
def emptyWorkload (tokens : List (List String)) : Workload :=
  ⟨[], newResultBoard (calcBoardDimensions tokens).1 (calcBoardDimensions tokens).2,
    newRefBoard (calcBoardDimensions tokens).1 (calcBoardDimensions tokens).2⟩

/-- Grid of the worked merge: `=B1 | =1 | =`. -/
def mergeGrid : List (List String) := [["=B1", "=1", "="]]

/-- The workload of `mergeGrid` after the first loop of
`createWorkloadBuckets`. -/
def mergeScanned : Workload :=
  ⟨[[⟨0, 0, "=B1", [⟨0, 1⟩]⟩], [⟨0, 1, "=1", []⟩], [⟨0, 2, "=", []⟩]],
    [["", "", ""]], [[0, 1, 2]]⟩

/-- The workload of `mergeGrid` after the iteration of the merge sweep for
bucket 0. -/
def mergeSwept : Workload :=
  ⟨[[⟨0, 0, "=B1", [⟨0, 1⟩]⟩, ⟨0, 1, "=1", []⟩], [], [⟨0, 2, "=", []⟩]],
    [["", "", ""]], [[0, 0, 2]]⟩

/-- The workload `newWorkload` builds from `mergeGrid`. -/
def mergeWorkload : Workload :=
  ⟨[[⟨0, 1, "=1", []⟩, ⟨0, 0, "=B1", [⟨0, 1⟩]⟩], [], [⟨0, 2, "=", []⟩]],
    [["", "", ""]], [[0, 0, 2]]⟩

/-- The coordinate carries a static token of the grid. -/
def isStaticAt (tokens : List (List String)) (row col : Int) : Bool :=
  match tokenAt tokens row col with
  | some e => !isDynamic e
  | none => false

/-- Coordinates of the dynamic tokens of one line, from column `col`, in
order. -/
def dynamicInLine (row : Nat) : List String → Nat → List (Int × Int)
  | [], _ => []
  | e :: rest, col =>
    if isDynamic e = true then ((row : Int), (col : Int)) :: dynamicInLine row rest (col + 1)
    else dynamicInLine row rest (col + 1)

/-- Coordinates of the dynamic tokens of the lines, from row `row`, in
row-major order. -/
def dynamicFrom : List (List String) → Nat → List (Int × Int)
  | [], _ => []
  | cells :: rest, row => dynamicInLine row cells 0 ++ dynamicFrom rest (row + 1)

/-- Coordinates of the dynamic cells of a grid in row-major order. -/
def dynamicCoords (tokens : List (List String)) : List (Int × Int) :=
  dynamicFrom tokens 0

/-- The cell `d` is the pending cell that a dependency of `c` resolves to:
`getCell` returns it for one of the dependency coordinates of `c`. -/
def Workload.Child (wl : Workload) (c d : Cell) : Prop :=
  ∃ ref ∈ c.dependencies, wl.getCell ref = .ok (some d)

/-- Reachability along dependency edges that pass only through pending
cells. -/
def Workload.Reach (wl : Workload) (c d : Cell) : Prop :=
  Relation.ReflTransGen wl.Child c d

/-- A dependency cycle through pending cells is reachable from `c`. -/
def Workload.ReachesCycle (wl : Workload) (c : Cell) : Prop :=
  ∃ d, wl.Reach c d ∧ Relation.TransGen wl.Child d d

/-- Every dependency coordinate, of the seed and of the listed cells, is in
bounds and not `MISSING`: `getCell` returns for it. -/
def Workload.Resolves (wl : Workload) (seed : Cell) : Prop :=
  ∀ c ∈ seed :: wl.buckets.flatten, ∀ ref ∈ c.dependencies, (wl.getCell ref).toBool = true

/-- The pending cells among the coordinates `refs`, in order: what the inner
loop of `getDependencyTree` appends. -/
def Workload.pendingOf (wl : Workload) (refs : List CellRef) : List Cell :=
  refs.filterMap (fun ref =>
    match wl.getCell ref with
    | .ok (some d) => some d
    | _ => none)

/-- Number of iterations the traversal needs to work off a queue of cells: one
for each cell, plus those for the cells it appends. -/
inductive Workload.ForestSize (wl : Workload) : List Cell → Nat → Prop where
  | nil : Workload.ForestSize wl [] 0
  | cons (c : Cell) (cs : List Cell) (n m : Nat) :
    Workload.ForestSize wl (wl.pendingOf c.dependencies) n → Workload.ForestSize wl cs m →
    Workload.ForestSize wl (c :: cs) (1 + n + m)

/-- The text Go `incExprNumber` writes for the digit run `ds`: `strconv.Atoi`
fails above 2^63 - 1, and `num + 1` wraps like a 64-bit `int`. -/
def bumpRun (ds : List Char) : Except Fault (List Char) :=
  if maxInt64 < (digitsValue ds : Int) then .error (.exit INVALID_EXPRESSION_ERROR)
  else .ok (itoa (wrapInt64 ((digitsValue ds : Int) + 1))).toList

/-- The rewrite of Go `incExprNumber` as one pass over the remaining text: at
each match found by `matchAt` the counted group is replaced by `bumpRun` of it
and the other characters are copied; `skip` counts the characters still
covered by the previous match. -/
def incrementScan (matchAt : List Char → Option (Nat × Nat × Nat)) :
    List Char → Nat → Except Fault (List Char)
  | [], _ => .ok []
  | _ :: cs, skip + 1 => incrementScan matchAt cs skip
  | c :: cs, 0 =>
    match matchAt (c :: cs) with
    | some (g0, g1, n + 1) =>
      match bumpRun (((c :: cs).drop g0).take (g1 - g0)) with
      | .error e => .error e
      | .ok num =>
        match incrementScan matchAt cs n with
        | .error e => .error e
        | .ok rest =>
          .ok ((c :: cs).take g0 ++ num ++ ((c :: cs).drop g1).take (n + 1 - g1) ++ rest)
    | _ =>
      match incrementScan matchAt cs 0 with
      | .error e => .error e
      | .ok rest => .ok (c :: rest)

/-- An `incFrom(n)` construct or, failing that, an uppercase-letters-then-digits
reference at the front of `s`, with the offsets of its digit run. -/
def counterOrReference (s : List Char) : Option (Nat × Nat × Nat) :=
  match Pattern.incFrom.matchAt s with
  | some m => some m
  | none => Pattern.cellRefNum.matchAt s

/-- Decimal rendering of the value of a digit run plus one. -/
def renderSucc (ds : List Char) : List Char :=
  (Nat.repr (digitsValue ds + 1)).toList

/-- The remaining text in which the digit run `n` of every `incFrom(n)` and the
trailing digit run `n` of every uppercase-letters-then-digits reference is
replaced by the decimal rendering of `n + 1`, every other character being
unchanged and in the same order. -/
def incrementedScan : List Char → Nat → List Char
  | [], _ => []
  | _ :: cs, skip + 1 => incrementedScan cs skip
  | c :: cs, 0 =>
    match counterOrReference (c :: cs) with
    | some (g0, g1, n + 1) =>
      (c :: cs).take g0 ++ renderSucc (((c :: cs).drop g0).take (g1 - g0)) ++
        ((c :: cs).drop g1).take (n + 1 - g1) ++ incrementedScan cs n
    | _ => c :: incrementedScan cs 0

/-- The expression `e` with the numbers of its `incFrom(n)` constructs and of
its references incremented. -/
def incrementedCopy (e : String) : String :=
  String.mk (incrementedScan e.toList 0)

/-- Every digit run that `incrementedScan` replaces has a value below
2^63 - 1. -/
def runsIncrementable : List Char → Nat → Bool
  | [], _ => true
  | _ :: cs, skip + 1 => runsIncrementable cs skip
  | c :: cs, 0 =>
    match counterOrReference (c :: cs) with
    | some (g0, g1, n + 1) =>
      decide ((digitsValue (((c :: cs).drop g0).take (g1 - g0)) : Int) < maxInt64) &&
        runsIncrementable cs n
    | _ => runsIncrementable cs 0

/-- The two final loops of Go `computeDependencies`: the direct references and
the `E^` markers of the expression become dependencies. -/
def extractDependencies (cell : Cell) : Except Fault Cell := do
  let cell ← (findExprMatches cell.expr .cellRef).foldlM
    (fun (c : Cell) m => do
      let ref ← newCellRefFromString m
      pure (c.addDependency ref)) cell
  let ms ← findExprMatchesNotFollowedBy cell.expr .above "v"
  pure (ms.foldl (fun (c : Cell) _ => c.addDependency (newCellRef (c.row - 1) c.col)) cell)

/-- Weak order of a bucket as it is visited: every dependency coordinate of the
cell at position `k` that is listed anywhere in the bucket is listed at a
position before `k`. -/
def weakOrder (b : Bucket) : Prop :=
  ∀ k < b.length, ∀ c ∈ b[k]?, ∀ d ∈ c.dependencies,
    (∃ c2 ∈ b, c2.row = d.row ∧ c2.col = d.col) →
    ∃ c2 ∈ b.take k, c2.row = d.row ∧ c2.col = d.col

instance weakOrder.decidable (b : Bucket) : Decidable (weakOrder b) := by
  unfold weakOrder
  infer_instance

/-- Grid of the worked diamond: A1 needs B1 and C1, which both need D1. -/
def diamondGrid : List (List String) := [["=B1+C1", "=D1", "=D1", "=1"]]

/-- The workload of `diamondGrid` after the first loop of
`createWorkloadBuckets`. -/
def diamondScanned : Workload :=
  ⟨[[⟨0, 0, "=B1+C1", [⟨0, 1⟩, ⟨0, 2⟩]⟩], [⟨0, 1, "=D1", [⟨0, 3⟩]⟩],
      [⟨0, 2, "=D1", [⟨0, 3⟩]⟩], [⟨0, 3, "=1", []⟩]],
    [["", "", "", ""]], [[0, 1, 2, 3]]⟩

/-- The workload `newWorkload` builds from `diamondGrid`: D1 is listed twice,
before C1, B1 and A1. -/
def diamondWorkload : Workload :=
  ⟨[[⟨0, 3, "=1", []⟩, ⟨0, 3, "=1", []⟩, ⟨0, 2, "=D1", [⟨0, 3⟩]⟩, ⟨0, 1, "=D1", [⟨0, 3⟩]⟩,
      ⟨0, 0, "=B1+C1", [⟨0, 1⟩, ⟨0, 2⟩]⟩], [], [], []],
    [["", "", "", ""]], [[0, 0, 0, 0]]⟩

/-- Order of the list the traversal builds: every dependency coordinate of the
cell at position `p` that is listed anywhere is listed at a position after
`p`. -/
def listedAfter (tree : List Cell) : Prop :=
  ∀ (p : Nat) (c : Cell), tree[p]? = some c → ∀ d ∈ c.dependencies,
    (∃ c2 ∈ tree, c2.row = d.row ∧ c2.col = d.col) →
    ∃ (q : Nat) (c2 : Cell), p < q ∧ tree[q]? = some c2 ∧ c2.row = d.row ∧ c2.col = d.col

/-- State of the merge sweep relative to the workload `scanned` that the first
loop left: the listed cells are cells of `scanned`, no bucket was added, a
Status Board entry either is the one of `scanned` or both are bucket indices,
and every entry is below the number of buckets. -/
structure SweepState (scanned wl : Workload) : Prop where
  original : ∀ b ∈ wl.buckets, ∀ c ∈ b, c ∈ scanned.buckets.flatten
  length_eq : wl.buckets.length = scanned.buckets.length
  status : ∀ r c, boardGet wl.ref r c = boardGet scanned.ref r c ∨
    ∃ i j : Int, 0 ≤ i ∧ 0 ≤ j ∧ boardGet wl.ref r c = .ok i ∧ boardGet scanned.ref r c = .ok j
  range : ∀ (r c i : Int), boardGet wl.ref r c = .ok i → i < (wl.buckets.length : Int)

/-- Some digit run that `incrementedScan` replaces has a value above
2^63 - 1. -/
def someRunAboveRange : List Char → Nat → Bool
  | [], _ => false
  | _ :: cs, skip + 1 => someRunAboveRange cs skip
  | c :: cs, 0 =>
    match counterOrReference (c :: cs) with
    | some (g0, g1, n + 1) =>
      decide (maxInt64 < (digitsValue (((c :: cs).drop g0).take (g1 - g0)) : Int)) ||
        someRunAboveRange cs n
    | _ => someRunAboveRange cs 0

/-! ## The partition on concrete grids -/

/-- C1, coverage: on the one-row grid `=C1 | =C1 | =1` the partition ends with
C1 and B1 in bucket 1 and every other bucket empty, so the dynamic cell A1 is
listed in no bucket. -/
theorem coverage_loses_cell :
    isDynamic "=C1" = true ∧
    (newWorkload [["=C1", "=C1", "=1"]] 8).map Workload.coordinates
      = .ok [[], [(0, 2), (0, 1)], []] := by
  decide

/-- C2, cross-bucket independence: on the grid `=C1 | =C1 | =1 | =A1` bucket 3
holds D1 alone, D1 depends on A1, and the Status Board entry of A1 is the
bucket index 1. -/
theorem cross_bucket_dependency :
    (newWorkload [["=C1", "=C1", "=1", "=A1"]] 8).map
        (fun wl => (wl.coordinates, (wl.buckets.getD 3 []).map Cell.dependencies,
          boardGet wl.ref 0 0))
      = .ok ([[], [(0, 2), (0, 1)], [], [(0, 3)]], [[⟨0, 0⟩]], .ok 1) := by
  decide

/-- C3, order validity: on the grid `=B1+C1 | =1 | =B1` bucket 0 is
B1, C1, B1, A1 after the reversal; C1 at position 1 depends on B1, which is
listed again at position 2. -/
theorem dependency_listed_after_dependent :
    (newWorkload [["=B1+C1", "=1", "=B1"]] 8).map
        (fun wl => (wl.buckets.getD 0 []).map (fun c => (c.coord, c.dependencies)))
      = .ok [((0, 1), []), ((0, 2), [⟨0, 1⟩]), ((0, 1), []), ((0, 0), [⟨0, 1⟩, ⟨0, 2⟩])] := by
  decide

/-- C5, Status Board invariant: on the grid `=C1 | =C1 | =1` the Status Board
ends with entry 1 at every coordinate, A1 included, while bucket 1 lists only
C1 and B1. -/
theorem status_entry_without_cell :
    (newWorkload [["=C1", "=C1", "=1"]] 8).map
        (fun wl => (wl.ref, (wl.buckets.getD 1 []).map Cell.coord))
      = .ok ([[1, 1, 1]], [(0, 2), (0, 1)]) := by
  decide

/-- C6, schedule independence: on the grid with rows `E^ | =` and `x | =A1`
`parallelize` starts a goroutine for bucket 0 and one for bucket 1; processing
the buckets in index order, as `runSequencially` does, leaves `=A1` at B2,
while the goroutine of bucket 1 running before that of bucket 0 leaves
`=B1_val ` there. -/
theorem schedule_changes_value_board :
    (newWorkload [["E^ ", "="], ["x", "=A1"]] 8).map Workload.launched = .ok [0, 1] ∧
    ((newWorkload [["E^ ", "="], ["x", "=A1"]] 8 >>= Workload.runSequencially).map
        Workload.result = .ok [["E^ ", "="], ["x", "=A1"]]) ∧
    ((newWorkload [["E^ ", "="], ["x", "=A1"]] 8 >>= fun wl => wl.processInOrder [1, 0]).map
        Workload.result = .ok [["E^ ", "="], ["x", "=B1_val "]]) := by
  decide

/-- C8, success writes the literal: on the grid `"" | =A1` the cell B1 is
evaluated with success and its expression becomes `=`, but the Value Board
receives the text `=A1` the cell had before the evaluation. -/
theorem success_writes_unevaluated_text :
    (newWorkload [["", "=A1"]] 8 >>= fun wl => wl.processBucketTraced 0).map
        (fun r => (r.2, r.1.result, r.1.buckets.map (fun b => b.map Cell.expr)))
      = .ok ([true], [["", "=A1"]], [["="]]) := by
  decide

/-! ## General lemmas -/

theorem bind_ok_iff {α β : Type} (x : Except Fault α) (f : α → Except Fault β) (b : β) :
    (x >>= f) = .ok b ↔ ∃ a, x = .ok a ∧ f a = .ok b := by
  cases x with
  | error e => simp [bind, Except.bind]
  | ok a => simp [bind, Except.bind]

theorem pure_ok_iff {α : Type} (a b : α) : (pure a : Except Fault α) = .ok b ↔ a = b := by
  simp [pure, Except.pure]

theorem foldlM_preserves {α β : Type} (P : β → Prop) (f : β → α → Except Fault β)
    (hf : ∀ b a b2, P b → f b a = .ok b2 → P b2) :
    ∀ (l : List α) (b b2 : β), P b → l.foldlM f b = .ok b2 → P b2 := by
  intro l
  induction l with
  | nil =>
    intro b b2 hb h
    simp [List.foldlM, pure, Except.pure] at h
    subst h
    exact hb
  | cons a l ih =>
    intro b b2 hb h
    rw [List.foldlM_cons, bind_ok_iff] at h
    obtain ⟨b1, h1, h2⟩ := h
    exact ih b1 b2 (hf b a b1 hb h1) h2

theorem addDependency_coord (cell : Cell) (ref : CellRef) :
    (cell.addDependency ref).row = cell.row ∧ (cell.addDependency ref).col = cell.col := by
  unfold Cell.addDependency
  split <;> simp

theorem computeDependencies_coord {cell cell2 : Cell} {wl : Workload}
    (h : computeDependencies cell wl = .ok cell2) : cell2.row = cell.row ∧ cell2.col = cell.col := by
  unfold computeDependencies at h
  rw [bind_ok_iff] at h
  obtain ⟨c1, h1, h⟩ := h
  rw [bind_ok_iff] at h
  obtain ⟨c2, h2, h⟩ := h
  rw [bind_ok_iff] at h
  obtain ⟨ms, _, h⟩ := h
  rw [pure_ok_iff] at h
  have e1 : c1.row = cell.row ∧ c1.col = cell.col := by
    unfold propagateFromAbove at h1
    split at h1
    · rw [bind_ok_iff] at h1
      obtain ⟨_, _, h1⟩ := h1
      rw [bind_ok_iff] at h1
      obtain ⟨_, _, h1⟩ := h1
      rw [bind_ok_iff] at h1
      obtain ⟨_, _, h1⟩ := h1
      rw [pure_ok_iff] at h1
      subst h1
      simp
    · rw [pure_ok_iff] at h1
      subst h1
      simp
  have e2 : c2.row = cell.row ∧ c2.col = cell.col := by
    refine foldlM_preserves (fun c => c.row = cell.row ∧ c.col = cell.col) _ ?_ _ c1 c2 e1 h2
    intro b a b2 hb hf
    rw [bind_ok_iff] at hf
    obtain ⟨r, _, hf⟩ := hf
    rw [pure_ok_iff] at hf
    subst hf
    have := addDependency_coord b r
    exact ⟨this.1.trans hb.1, this.2.trans hb.2⟩
  subst h
  have key : ∀ (l : List String) (c : Cell), c.row = cell.row ∧ c.col = cell.col →
      (l.foldl (fun (c : Cell) _ => c.addDependency (newCellRef (c.row - 1) c.col)) c).row = cell.row ∧
      (l.foldl (fun (c : Cell) _ => c.addDependency (newCellRef (c.row - 1) c.col)) c).col = cell.col := by
    intro l
    induction l with
    | nil => intro c hc; simpa using hc
    | cons a l ih =>
      intro c hc
      rw [List.foldl_cons]
      apply ih
      have := addDependency_coord c (newCellRef (c.row - 1) c.col)
      exact ⟨this.1.trans hc.1, this.2.trans hc.2⟩
  exact key ms c2 e2

theorem evaluateCell_coord {cell : Cell} {wl : Workload} {r : Bool × Cell}
    (h : evaluateCell cell wl = .ok r) : r.2.row = cell.row ∧ r.2.col = cell.col := by
  unfold evaluateCell at h
  rw [bind_ok_iff] at h
  obtain ⟨c1, h1, h⟩ := h
  rw [bind_ok_iff] at h
  obtain ⟨ms, _, h⟩ := h
  rw [bind_ok_iff] at h
  obtain ⟨c2, h2, h⟩ := h
  have e1 : c1.row = cell.row ∧ c1.col = cell.col := by
    refine foldlM_preserves (fun c => c.row = cell.row ∧ c.col = cell.col) _ ?_ _ cell c1 ⟨rfl, rfl⟩ h1
    intro b a b2 hb hf
    rw [bind_ok_iff] at hf
    obtain ⟨_, _, hf⟩ := hf
    rw [bind_ok_iff] at hf
    obtain ⟨_, _, hf⟩ := hf
    rw [pure_ok_iff] at hf
    subst hf
    exact hb
  have e2 : c2.row = cell.row ∧ c2.col = cell.col := by
    refine foldlM_preserves (fun c => c.row = cell.row ∧ c.col = cell.col) _ ?_ _ c1 c2 e1 h2
    intro b a b2 hb hf
    rw [bind_ok_iff] at hf
    obtain ⟨_, _, hf⟩ := hf
    rw [bind_ok_iff] at hf
    obtain ⟨_, _, hf⟩ := hf
    rw [pure_ok_iff] at hf
    subst hf
    exact hb
  split at h
  · rw [pure_ok_iff] at h; subst h; exact e2
  · split at h
    · rw [pure_ok_iff] at h; subst h; exact e2
    · split at h
      · rw [pure_ok_iff] at h; subst h; exact e2
      · rw [pure_ok_iff] at h; subst h; exact e2

theorem boardSet_get_same {α : Type} {board board2 : List (List α)} {row col : Int} {v : α}
    (h : boardSet board row col v = .ok board2) : boardGet board2 row col = .ok v := by
  unfold boardSet at h
  unfold boardGet
  split at h
  · cases h
  · rename_i hneg
    rw [if_neg hneg]
    split at h
    · cases h
    · rename_i cells hcells
      split at h
      · rename_i hlt
        cases h
        have hr : row.toNat < board.length := by
          rcases List.getElem?_eq_some.mp hcells with ⟨hr, _⟩
          exact hr
        simp [List.getElem?_set, hr, hlt]
      · cases h

theorem boardSet_get_other {α : Type} {board board2 : List (List α)} {row col : Int} {v : α}
    (h : boardSet board row col v = .ok board2) (r c : Int) (hne : ¬ (r = row ∧ c = col)) :
    boardGet board2 r c = boardGet board r c := by
  unfold boardSet at h
  unfold boardGet
  split at h
  · cases h
  · rename_i hneg
    split at h
    · cases h
    · rename_i cells hcells
      split at h
      · rename_i hlt
        cases h
        by_cases hrc : r < 0 ∨ c < 0
        · simp [hrc]
        · rw [if_neg hrc, if_neg hrc]
          push_neg at hrc hneg
          by_cases hrow : r = row
          · subst hrow
            have hc : c.toNat ≠ col.toNat := by
              intro hcc
              apply hne
              refine ⟨rfl, ?_⟩
              omega
            have hr : r.toNat < board.length := by
              rcases List.getElem?_eq_some.mp hcells with ⟨hr, _⟩
              exact hr
            simp [List.getElem?_set, hr, hcells, Ne.symm hc]
          · have hr : row.toNat ≠ r.toNat := by omega
            simp [List.getElem?_set, hr]
      · cases h

/-! ## The first loop of `createWorkloadBuckets` -/

theorem mem_of_getElem? {α : Type} {l : List α} {i : Nat} {a : α} (h : l[i]? = some a) :
    a ∈ l := by
  rcases List.getElem?_eq_some.mp h with ⟨hi, heq⟩
  rw [← heq]
  exact List.getElem_mem hi

theorem tokenAt_of_getElem {tokens : List (List String)} {row col : Nat} {cells : List String}
    {expr : String} (hrow : tokens[row]? = some cells) (hcol : cells[col]? = some expr) :
    tokenAt tokens row col = some expr := by
  unfold tokenAt
  have h : ¬ ((row : Int) < 0 ∨ (col : Int) < 0) := by omega
  rw [if_neg h]
  simp [hrow, hcol]

theorem scanToken_inv {tokens : List (List String)} {wl0 wl wl2 : Workload} {row col : Nat}
    {expr : String} (hinv : ScanInv tokens wl0 wl row col)
    (htok : tokenAt tokens row col = some expr)
    (hs : wl.scanToken row col expr = .ok wl2) :
    ScanInv tokens wl0 wl2 row ((col + 1 : Nat) : Int) := by
  have hstep : ∀ r c : Int, scannedBefore r c row col → scannedBefore r c row ((col + 1 : Nat) : Int) := by
    intro r c h
    rcases h with h | ⟨h1, h2⟩
    · exact Or.inl h
    · exact Or.inr ⟨h1, by push_cast; omega⟩
  have hne : ∀ r c : Int, scannedBefore r c row col → ¬ (r = row ∧ c = col) := by
    intro r c h hh
    rcases h with h | ⟨_, h2⟩
    · omega
    · omega
  have hcase : ∀ r c : Int, scannedBefore r c row ((col + 1 : Nat) : Int) →
      scannedBefore r c row col ∨ (r = row ∧ c = col) := by
    intro r c h
    rcases h with h | ⟨h1, h2⟩
    · exact Or.inl (Or.inl h)
    · by_cases hc : c = col
      · exact Or.inr ⟨h1, hc⟩
      · exact Or.inl (Or.inr ⟨h1, by push_cast at h2; omega⟩)
  unfold Workload.scanToken at hs
  split at hs
  · -- dynamic cell
    rename_i tl heq
    have hdyn : isDynamic expr = true := by
      unfold isDynamic
      rw [heq]
      rfl
    rw [bind_ok_iff] at hs
    obtain ⟨cell, hcell, hs⟩ := hs
    rw [bind_ok_iff] at hs
    obtain ⟨ref2, href, hs⟩ := hs
    rw [pure_ok_iff] at hs
    subst hs
    have hcoord := computeDependencies_coord hcell
    simp only at hcoord
    have hlen : (((wl.buckets ++ [[cell]]).length : Int) - 1) = (wl.buckets.length : Int) := by
      simp
    rw [hlen] at href
    refine ⟨?_, ?_, ?_, ?_, ?_⟩
    · intro i b hb c hc
      simp only at hb ⊢
      by_cases hi : i < wl.buckets.length
      · rw [List.getElem?_append_left hi] at hb
        have hmem : b ∈ wl.buckets := mem_of_getElem? hb
        rw [boardSet_get_other href _ _ (hne _ _ (hinv.scanned b hmem c hc))]
        exact hinv.agrees i b hb c hc
      · have hi2 : wl.buckets.length ≤ i := by omega
        rw [List.getElem?_append_right hi2] at hb
        have hi3 : i - wl.buckets.length = 0 := by
          by_contra hcon
          have : (([[cell]] : List Bucket)[i - wl.buckets.length]?) = none := by
            apply List.getElem?_eq_none
            simp
            omega
          rw [this] at hb
          cases hb
        rw [hi3] at hb
        simp at hb
        subst hb
        simp at hc
        subst hc
        have hi4 : i = wl.buckets.length := by omega
        rw [hcoord.1, hcoord.2, hi4]
        exact boardSet_get_same href
    · intro b hb c hc
      simp only at hb
      rw [List.mem_append] at hb
      rcases hb with hb | hb
      · exact hinv.dynamic b hb c hc
      · simp at hb
        subst hb
        simp at hc
        subst hc
        rw [hcoord.1, hcoord.2]
        exact ⟨expr, htok, hdyn⟩
    · intro b hb c hc
      simp only at hb
      rw [List.mem_append] at hb
      rcases hb with hb | hb
      · exact hstep _ _ (hinv.scanned b hb c hc)
      · simp at hb
        subst hb
        simp at hc
        subst hc
        rw [hcoord.1, hcoord.2]
        exact Or.inr ⟨rfl, by push_cast; omega⟩
    · intro r c hnone
      simp only
      have hrc : ¬ (r = row ∧ c = col) := by
        rintro ⟨h1, h2⟩
        subst h1; subst h2
        rw [htok] at hnone
        cases hnone
      rw [boardSet_get_other href _ _ hrc]
      exact hinv.untouched r c hnone
    · intro r c e hbefore he hstat
      simp only
      rcases hcase r c hbefore with h | ⟨h1, h2⟩
      · exact hinv.statics r c e h he hstat
      · subst h1; subst h2
        rw [htok] at he
        cases he
        rw [hdyn] at hstat
        cases hstat
  · -- static cell
    rename_i hnot
    have hstatic : isDynamic expr = false := by
      unfold isDynamic
      split
      · rename_i tl heq
        exact absurd heq (hnot tl)
      · rfl
    rw [bind_ok_iff] at hs
    obtain ⟨result2, hres, hs⟩ := hs
    rw [bind_ok_iff] at hs
    obtain ⟨ref2, href, hs⟩ := hs
    rw [pure_ok_iff] at hs
    subst hs
    refine ⟨?_, ?_, ?_, ?_, ?_⟩
    · intro i b hb c hc
      simp only at hb ⊢
      have hmem : b ∈ wl.buckets := mem_of_getElem? hb
      rw [boardSet_get_other href _ _ (hne _ _ (hinv.scanned b hmem c hc))]
      exact hinv.agrees i b hb c hc
    · exact hinv.dynamic
    · intro b hb c hc
      exact hstep _ _ (hinv.scanned b hb c hc)
    · intro r c hnone
      simp only
      have hrc : ¬ (r = row ∧ c = col) := by
        rintro ⟨h1, h2⟩
        subst h1; subst h2
        rw [htok] at hnone
        cases hnone
      rw [boardSet_get_other href _ _ hrc, boardSet_get_other hres _ _ hrc]
      exact hinv.untouched r c hnone
    · intro r c e hbefore he hstat
      simp only
      rcases hcase r c hbefore with h | ⟨h1, h2⟩
      · rw [boardSet_get_other hres _ _ (hne _ _ h)]
        exact hinv.statics r c e h he hstat
      · subst h1; subst h2
        rw [htok] at he
        cases he
        exact boardSet_get_same hres

theorem scanLine_inv {tokens : List (List String)} {wl0 : Workload} {row : Nat}
    {cells : List String} (hrow : tokens[row]? = some cells) :
    ∀ (rest : List String) (col : Nat) (wl wl2 : Workload),
      col + rest.length = cells.length →
      (∀ k e, rest[k]? = some e → cells[col + k]? = some e) →
      ScanInv tokens wl0 wl row col →
      Workload.scanLine row rest col wl = .ok wl2 →
      ScanInv tokens wl0 wl2 row (cells.length : Nat) := by
  intro rest
  induction rest with
  | nil =>
    intro col wl wl2 hlen _ hinv hs
    simp [Workload.scanLine] at hs
    subst hs
    simp at hlen
    rw [← hlen]
    exact hinv
  | cons expr rest ih =>
    intro col wl wl2 hlen hget hinv hs
    simp only [Workload.scanLine] at hs
    rw [bind_ok_iff] at hs
    obtain ⟨wl1, h1, hs⟩ := hs
    have hexpr : cells[col]? = some expr := by
      have := hget 0 expr (by simp)
      simpa using this
    have hinv1 := scanToken_inv hinv (tokenAt_of_getElem hrow hexpr) h1
    refine ih (col + 1) wl1 wl2 ?_ ?_ hinv1 hs
    · simp at hlen
      omega
    · intro k e hk
      have := hget (k + 1) e (by simpa using hk)
      rw [← this]
      congr 1
      omega

theorem scanInv_next_row {tokens : List (List String)} {wl0 wl : Workload} {row : Nat}
    {cells : List String} (hrow : tokens[row]? = some cells)
    (hinv : ScanInv tokens wl0 wl row (cells.length : Nat)) :
    ScanInv tokens wl0 wl ((row + 1 : Nat) : Int) ((0 : Nat) : Int) := by
  have hstep : ∀ r c : Int, scannedBefore r c row (cells.length : Nat) →
      scannedBefore r c ((row + 1 : Nat) : Int) ((0 : Nat) : Int) := by
    intro r c h
    rcases h with h | ⟨h1, _⟩
    · exact Or.inl (by push_cast; omega)
    · exact Or.inl (by push_cast; omega)
  refine ⟨hinv.agrees, hinv.dynamic, ?_, hinv.untouched, ?_⟩
  · intro b hb c hc
    exact hstep _ _ (hinv.scanned b hb c hc)
  · intro r c e hbefore he hstat
    apply hinv.statics r c e _ he hstat
    rcases hbefore with h | ⟨_, h2⟩
    · by_cases hr : r < row
      · exact Or.inl hr
      · have hr2 : r = row := by push_cast at h; omega
        refine Or.inr ⟨hr2, ?_⟩
        by_contra hcon
        subst hr2
        unfold tokenAt at he
        split at he
        · cases he
        · rename_i hneg
          simp only [Int.toNat_ofNat, hrow] at he
          have : cells[c.toNat]? = none := by
            apply List.getElem?_eq_none
            omega
          rw [this] at he
          cases he
    · simp at h2
      unfold tokenAt at he
      rw [if_pos (Or.inr h2)] at he
      cases he

theorem scanLines_inv {tokens : List (List String)} {wl0 : Workload} :
    ∀ (rest : List (List String)) (row : Nat) (wl wl2 : Workload),
      row + rest.length = tokens.length →
      (∀ k l, rest[k]? = some l → tokens[row + k]? = some l) →
      ScanInv tokens wl0 wl row ((0 : Nat) : Int) →
      Workload.scanLines rest row wl = .ok wl2 →
      ScanInv tokens wl0 wl2 (tokens.length : Nat) ((0 : Nat) : Int) := by
  intro rest
  induction rest with
  | nil =>
    intro row wl wl2 hlen _ hinv hs
    simp [Workload.scanLines] at hs
    subst hs
    simp at hlen
    rw [← hlen]
    exact hinv
  | cons cells rest ih =>
    intro row wl wl2 hlen hget hinv hs
    simp only [Workload.scanLines] at hs
    rw [bind_ok_iff] at hs
    obtain ⟨wl1, h1, hs⟩ := hs
    have hrow : tokens[row]? = some cells := by
      have := hget 0 cells (by simp)
      simpa using this
    have hinv1 := scanLine_inv hrow cells 0 wl wl1 (by simp) (by intro k e hk; simpa using hk) hinv h1
    refine ih (row + 1) wl1 wl2 ?_ ?_ (scanInv_next_row hrow hinv1) hs
    · simp at hlen
      omega
    · intro k l hk
      have := hget (k + 1) l (by simpa using hk)
      rw [← this]
      congr 1
      omega

theorem scanInv_init (tokens : List (List String)) (wl0 : Workload) (h : wl0.buckets = []) :
    ScanInv tokens wl0 wl0 ((0 : Nat) : Int) ((0 : Nat) : Int) := by
  refine ⟨?_, ?_, ?_, ?_, ?_⟩
  · intro i b hb
    rw [h] at hb
    simp at hb
  · intro b hb
    rw [h] at hb
    simp at hb
  · intro b hb
    rw [h] at hb
    simp at hb
  · intro r c _
    exact ⟨rfl, rfl⟩
  · intro r c e hbefore he _
    unfold tokenAt at he
    rcases hbefore with h1 | ⟨_, h2⟩
    · rw [if_pos (Or.inl (by simpa using h1))] at he
      cases he
    · rw [if_pos (Or.inr (by simpa using h2))] at he
      cases he

theorem scanLines_spec {tokens : List (List String)} {wl0 wl : Workload}
    (h0 : wl0.buckets = []) (hs : Workload.scanLines tokens 0 wl0 = .ok wl) :
    ScanInv tokens wl0 wl (tokens.length : Nat) ((0 : Nat) : Int) :=
  scanLines_inv tokens 0 wl0 wl (by simp) (by intro k l hk; simpa using hk)
    (scanInv_init tokens wl0 h0) hs

/-! ## The traversal and the merge sweep -/

theorem getCell_some {wl : Workload} {ref : CellRef} {c : Cell}
    (h : wl.getCell ref = .ok (some c)) :
    ∃ (idx : Int) (b : Bucket), boardGet wl.ref ref.row ref.col = .ok idx ∧ 0 ≤ idx ∧
      wl.buckets[idx.toNat]? = some b ∧ c ∈ b ∧ c.row = ref.row ∧ c.col = ref.col := by
  unfold Workload.getCell at h
  rw [bind_ok_iff] at h
  obtain ⟨_, _, h⟩ := h
  rw [bind_ok_iff] at h
  obtain ⟨idx, hidx, h⟩ := h
  split at h
  · rename_i hpos
    split at h
    · cases h
    · rename_i b hb
      simp only [Except.ok.injEq] at h
      have hmem := List.mem_of_find?_eq_some h
      have hp := List.find?_some h
      simp only [Bool.and_eq_true, beq_iff_eq] at hp
      exact ⟨idx, b, hidx, hpos, hb, hmem, hp.1, hp.2⟩
  · split at h
    · simp at h
    · cases h

theorem appendPending_spec (wl : Workload) :
    ∀ (refs : List CellRef) (result out : List Cell),
      wl.appendPending refs result = .ok out →
      ∃ extra, out = result ++ extra ∧ ∀ c ∈ extra, ∃ ref, wl.getCell ref = .ok (some c) := by
  intro refs
  induction refs with
  | nil =>
    intro result out h
    simp [Workload.appendPending] at h
    exact ⟨[], by simp [h], by simp⟩
  | cons ref refs ih =>
    intro result out h
    simp only [Workload.appendPending] at h
    rw [bind_ok_iff] at h
    obtain ⟨o, ho, h⟩ := h
    cases o with
    | none =>
      exact ih result out h
    | some c =>
      obtain ⟨extra, he, hall⟩ := ih (result ++ [c]) out h
      refine ⟨c :: extra, by simp [he], ?_⟩
      intro d hd
      rcases List.mem_cons.mp hd with hd | hd
      · subst hd
        exact ⟨ref, ho⟩
      · exact hall d hd

theorem treeLoop_spec (wl : Workload) :
    ∀ (fuel i : Nat) (result out : List Cell),
      wl.treeLoop fuel i result = .ok out →
      ∃ extra, out = result ++ extra ∧ ∀ c ∈ extra, ∃ ref, wl.getCell ref = .ok (some c) := by
  intro fuel
  induction fuel with
  | zero =>
    intro i result out h
    simp only [Workload.treeLoop] at h
    split at h
    · cases h
    · simp only [Except.ok.injEq] at h
      exact ⟨[], by simp [h], by simp⟩
  | succ fuel ih =>
    intro i result out h
    simp only [Workload.treeLoop] at h
    split at h
    · simp only [Except.ok.injEq] at h
      exact ⟨[], by simp [h], by simp⟩
    · rw [bind_ok_iff] at h
      obtain ⟨r1, h1, h⟩ := h
      obtain ⟨e1, he1, hall1⟩ := appendPending_spec wl _ _ _ h1
      obtain ⟨e2, he2, hall2⟩ := ih (i + 1) r1 out h
      refine ⟨e1 ++ e2, by simp [he2, he1], ?_⟩
      intro d hd
      rcases List.mem_append.mp hd with hd | hd
      · exact hall1 d hd
      · exact hall2 d hd

theorem getDependencyTree_spec {wl : Workload} {seed : Cell} {fuel : Nat} {tree : List Cell}
    (h : wl.getDependencyTree seed fuel = .ok tree) :
    ∃ children, tree = seed :: children ∧
      ∀ c ∈ children, ∃ ref, wl.getCell ref = .ok (some c) := by
  unfold Workload.getDependencyTree at h
  obtain ⟨extra, he, hall⟩ := treeLoop_spec wl fuel 0 [seed] tree h
  exact ⟨extra, by simpa using he, hall⟩

theorem collectOldBuckets_spec (ref : RefBoard) :
    ∀ (cells : List Cell) (acc out : List Int),
      collectOldBuckets ref cells acc = .ok out →
      (∀ j ∈ acc, j ∈ out) ∧ ∀ c ∈ cells, ∃ j ∈ out, boardGet ref c.row c.col = .ok j := by
  intro cells
  induction cells with
  | nil =>
    intro acc out h
    simp [collectOldBuckets] at h
    subst h
    exact ⟨fun j hj => hj, by simp⟩
  | cons cell cells ih =>
    intro acc out h
    simp only [collectOldBuckets] at h
    rw [bind_ok_iff] at h
    obtain ⟨j, hj, h⟩ := h
    split at h
    · rename_i hany
      obtain ⟨hsub, hall⟩ := ih acc out h
      refine ⟨hsub, ?_⟩
      intro c hc
      rcases List.mem_cons.mp hc with hc | hc
      · subst hc
        simp only [List.any_eq_true, beq_iff_eq] at hany
        obtain ⟨k, hk, hkj⟩ := hany
        subst hkj
        exact ⟨k, hsub k hk, hj⟩
      · exact hall c hc
    · obtain ⟨hsub, hall⟩ := ih (acc ++ [j]) out h
      refine ⟨fun k hk => hsub k (List.mem_append_left _ hk), ?_⟩
      intro c hc
      rcases List.mem_cons.mp hc with hc | hc
      · subst hc
        exact ⟨j, hsub j (by simp), hj⟩
      · exact hall c hc

theorem markMoved_spec (i : Int) :
    ∀ (cells : List Cell) (ref ref2 : RefBoard),
      markMoved i cells ref = .ok ref2 →
      (∀ d ∈ cells, boardGet ref2 d.row d.col = .ok i) ∧
      (∀ r c, boardGet ref2 r c = boardGet ref r c ∨
        (boardGet ref2 r c = .ok i ∧ ∃ d ∈ cells, d.row = r ∧ d.col = c)) := by
  intro cells
  induction cells with
  | nil =>
    intro ref ref2 h
    simp [markMoved] at h
    subst h
    exact ⟨by simp, fun r c => Or.inl rfl⟩
  | cons cell cells ih =>
    intro ref ref2 h
    simp only [markMoved] at h
    rw [bind_ok_iff] at h
    obtain ⟨ref1, h1, h⟩ := h
    obtain ⟨hall, hframe⟩ := ih ref1 ref2 h
    have hframe2 : ∀ r c, boardGet ref2 r c = boardGet ref r c ∨
        (boardGet ref2 r c = .ok i ∧ ∃ d ∈ cell :: cells, d.row = r ∧ d.col = c) := by
      intro r c
      rcases hframe r c with hf | ⟨hf, d, hd, hrc⟩
      · by_cases hrc : r = cell.row ∧ c = cell.col
        · right
          obtain ⟨hr1, hc1⟩ := hrc
          subst hr1
          subst hc1
          rw [hf]
          exact ⟨boardSet_get_same h1, cell, by simp, rfl, rfl⟩
        · left
          rw [hf]
          exact boardSet_get_other h1 r c hrc
      · exact Or.inr ⟨hf, d, List.mem_cons_of_mem _ hd, hrc⟩
    refine ⟨?_, hframe2⟩
    intro d hd
    rcases List.mem_cons.mp hd with hd | hd
    · subst hd
      rcases hframe d.row d.col with hf | ⟨hf, _⟩
      · rw [hf]
        exact boardSet_get_same h1
      · exact hf
    · exact hall d hd

theorem clearOldBuckets_spec (i : Nat) :
    ∀ (old : List Int) (wl1 wl2 : Workload),
      Workload.clearOldBuckets i old wl1 = .ok wl2 →
      wl2.result = wl1.result ∧
      (∀ k : Nat, (k : Int) ∉ old → wl2.buckets[k]? = wl1.buckets[k]?) ∧
      (∀ k : Nat, (k : Int) ∈ old → ∀ b, wl2.buckets[k]? = some b → b = []) ∧
      (∀ r c, boardGet wl2.ref r c = boardGet wl1.ref r c ∨
        (boardGet wl2.ref r c = .ok (i : Int) ∧
          ∃ j ∈ old, ∃ b, wl1.buckets[j.toNat]? = some b ∧ ∃ d ∈ b, d.row = r ∧ d.col = c)) ∧
      (∀ j ∈ old, ∀ b, wl1.buckets[j.toNat]? = some b →
        ∀ d ∈ b, boardGet wl2.ref d.row d.col = .ok (i : Int)) ∧
      (∀ j ∈ old, 0 ≤ j) := by
  intro old
  induction old with
  | nil =>
    intro wl1 wl2 h
    simp [Workload.clearOldBuckets] at h
    subst h
    refine ⟨rfl, fun _ _ => rfl, ?_, fun _ _ => Or.inl rfl, ?_, ?_⟩
    · intro k hk
      simp at hk
    · intro j hj
      simp at hj
    · intro j hj
      simp at hj
  | cons j js ih =>
    intro wl1 wl2 h
    simp only [Workload.clearOldBuckets] at h
    split at h
    · cases h
    · rename_i hjneg
      split at h
      · cases h
      · rename_i bucket hbucket
        rw [bind_ok_iff] at h
        obtain ⟨ref2, hmark, h⟩ := h
        obtain ⟨hmarked, hmframe⟩ := markMoved_spec i bucket wl1.ref ref2 hmark
        obtain ⟨hres, hkeep, hempty, hframe, hdone, hpos⟩ := ih _ wl2 h
        simp only at hres hkeep hempty hframe hdone
        have hjlt : j.toNat < wl1.buckets.length := by
          rcases List.getElem?_eq_some.mp hbucket with ⟨hlt, _⟩
          exact hlt
        have hset : ∀ k : Nat, k ≠ j.toNat →
            (wl1.buckets.set j.toNat [])[k]? = wl1.buckets[k]? := by
          intro k hk
          rw [List.getElem?_set]
          rw [if_neg (Ne.symm hk)]
        have hsetj : (wl1.buckets.set j.toNat [])[j.toNat]? = some [] := by
          rw [List.getElem?_set]
          simp [hjlt]
        refine ⟨hres, ?_, ?_, ?_, ?_, ?_⟩
        rotate_right
        · intro j2 hj2
          rw [List.mem_cons] at hj2
          rcases hj2 with hj2 | hj2
          · subst hj2
            omega
          · exact hpos j2 hj2
        · intro k hk
          rw [List.mem_cons, not_or] at hk
          rw [hkeep k hk.2]
          apply hset
          intro hkj
          apply hk.1
          omega
        · intro k hk b hb
          by_cases hkjs : (k : Int) ∈ js
          · exact hempty k hkjs b hb
          · rw [List.mem_cons] at hk
            rcases hk with hk | hk
            · have hkj : k = j.toNat := by omega
              rw [hkeep k hkjs, hkj, hsetj] at hb
              cases hb
              rfl
            · exact absurd hk hkjs
        · intro r c
          rcases hframe r c with hf | ⟨hf, j2, hj2, b, hb, d, hd, hrc⟩
          · rcases hmframe r c with hm | ⟨hm, d, hd, hrc⟩
            · left
              rw [hf, hm]
            · right
              rw [hf]
              exact ⟨hm, j, by simp, bucket, hbucket, d, hd, hrc⟩
          · right
            refine ⟨hf, j2, List.mem_cons_of_mem _ hj2, b, ?_, d, hd, hrc⟩
            by_cases hjj : j2.toNat = j.toNat
            · rw [hjj, hsetj] at hb
              cases hb
              simp at hd
            · rw [hset _ hjj] at hb
              exact hb
        · intro j2 hj2 b hb d hd
          by_cases hjj : j2.toNat = j.toNat
          · rw [hjj, hbucket] at hb
            cases hb
            rcases hframe d.row d.col with hf | ⟨hf, _⟩
            · rw [hf]
              exact hmarked d hd
            · exact hf
          · rw [List.mem_cons] at hj2
            rcases hj2 with hj2 | hj2
            · subst hj2
              exact absurd rfl hjj
            · apply hdone j2 hj2 b _ d hd
              rw [hset _ hjj]
              exact hb

theorem mergeBucket_inv {tokens : List (List String)} {wl0 wl wl2 : Workload} {fuel i : Nat}
    (hinv : SweepInv tokens wl0 wl) (h : wl.mergeBucket fuel i = .ok wl2) :
    SweepInv tokens wl0 wl2 := by
  unfold Workload.mergeBucket at h
  split at h
  · cases h
  · cases h
    exact hinv
  · rename_i seed rest hB
    rw [bind_ok_iff] at h
    obtain ⟨tree, htree, h⟩ := h
    obtain ⟨children, htc, hall⟩ := getDependencyTree_spec htree
    subst htc
    simp only at h
    rw [bind_ok_iff] at h
    obtain ⟨old, hold, h⟩ := h
    obtain ⟨_, hcollect⟩ := collectOldBuckets_spec wl.ref children [] old hold
    obtain ⟨hres, hkeep, hempty, hframe, hdone, hpos⟩ := clearOldBuckets_spec i old _ wl2 h
    simp only at hres hkeep hframe hdone
    have hilt : i < wl.buckets.length := by
      rcases List.getElem?_eq_some.mp hB with ⟨hlt, _⟩
      exact hlt
    have hseti : (wl.buckets.set i (seed :: children))[i]? = some (seed :: children) := by
      rw [List.getElem?_set]
      simp [hilt]
    have hsetk : ∀ k : Nat, k ≠ i → (wl.buckets.set i (seed :: children))[k]? = wl.buckets[k]? := by
      intro k hk
      rw [List.getElem?_set]
      rw [if_neg (Ne.symm hk)]
    have hseed : boardGet wl.ref seed.row seed.col = .ok (i : Int) :=
      hinv.agrees i _ hB seed (by simp)
    have home : ∀ c ∈ children, ∃ idx : Int, 0 ≤ idx ∧ idx ∈ old ∧
        boardGet wl.ref c.row c.col = .ok idx ∧
        ∃ b0, wl.buckets[idx.toNat]? = some b0 ∧ c ∈ b0 := by
      intro c hc
      obtain ⟨ref, hget⟩ := hall c hc
      obtain ⟨idx, b0, hidx, hpos0, hb0, hmem, hr, hcc⟩ := getCell_some hget
      rw [← hr, ← hcc] at hidx
      obtain ⟨j, hj, hjref⟩ := hcollect c hc
      rw [hidx] at hjref
      simp only [Except.ok.injEq] at hjref
      subst hjref
      exact ⟨idx, hpos0, hj, hidx, b0, hb0, hmem⟩
    have treeStatus : ∀ c ∈ seed :: children, ∃ v : Int,
        boardGet wl.ref c.row c.col = .ok v ∧ (v = (i : Int) ∨ v ∈ old) := by
      intro c hc
      rcases List.mem_cons.mp hc with hc | hc
      · subst hc
        exact ⟨i, hseed, Or.inl rfl⟩
      · obtain ⟨idx, _, hidx, href, _⟩ := home c hc
        exact ⟨idx, href, Or.inr hidx⟩
    have treeListed : ∀ c ∈ seed :: children, ∃ b0 ∈ wl.buckets, c ∈ b0 := by
      intro c hc
      rcases List.mem_cons.mp hc with hc | hc
      · subst hc
        exact ⟨_, mem_of_getElem? hB, by simp⟩
      · obtain ⟨idx, _, _, _, b0, hb0, hmem⟩ := home c hc
        exact ⟨b0, mem_of_getElem? hb0, hmem⟩
    have wl1Listed : ∀ (k : Nat) (b : Bucket),
        (wl.buckets.set i (seed :: children))[k]? = some b →
        ∀ d ∈ b, ∃ b0 ∈ wl.buckets, d ∈ b0 := by
      intro k b hb d hd
      by_cases hki : k = i
      · subst hki
        rw [hseti] at hb
        cases hb
        exact treeListed d hd
      · rw [hsetk k hki] at hb
        exact ⟨b, mem_of_getElem? hb, hd⟩
    have wl1Status : ∀ (k : Nat) (b : Bucket),
        (wl.buckets.set i (seed :: children))[k]? = some b →
        ∀ d ∈ b, ∃ v : Int, boardGet wl.ref d.row d.col = .ok v ∧
          (v = (k : Int) ∨ v = (i : Int) ∨ v ∈ old) := by
      intro k b hb d hd
      by_cases hki : k = i
      · subst hki
        rw [hseti] at hb
        cases hb
        obtain ⟨v, hv, hvv⟩ := treeStatus d hd
        exact ⟨v, hv, Or.inr hvv⟩
      · rw [hsetk k hki] at hb
        exact ⟨k, hinv.agrees k b hb d hd, Or.inl rfl⟩
    refine ⟨?_, ?_, ?_, ?_⟩
    · intro k b2 hb2 c hc
      by_cases hkold : (k : Int) ∈ old
      · rw [hempty k hkold b2 hb2] at hc
        simp at hc
      · rw [hkeep k hkold] at hb2
        by_cases hki : k = i
        · subst hki
          rw [hseti] at hb2
          cases hb2
          rcases List.mem_cons.mp hc with hc | hc
          · subst hc
            rcases hframe c.row c.col with hf | ⟨hf, _⟩
            · rw [hf]
              exact hseed
            · exact hf
          · obtain ⟨idx, hpos0, hidx, _, b0, hb0, hmem⟩ := home c hc
            have hne : idx.toNat ≠ k := by
              intro hcon
              apply hkold
              have : (k : Int) = idx := by omega
              rw [this]
              exact hidx
            exact hdone idx hidx b0 (by rw [hsetk _ hne]; exact hb0) c hmem
        · rw [hsetk k hki] at hb2
          have hck := hinv.agrees k b2 hb2 c hc
          rcases hframe c.row c.col with hf | ⟨hf, j, hj, b, hb, d, hd, hr, hcc⟩
          · rw [hf]
            exact hck
          · exfalso
            have hjpos := hpos j hj
            obtain ⟨v, hv, hvv⟩ := wl1Status j.toNat b hb d hd
            rw [hr, hcc, hck] at hv
            simp only [Except.ok.injEq] at hv
            subst hv
            rcases hvv with hv | hv | hv
            · apply hkold
              have : (k : Int) = j := by omega
              rw [this]
              exact hj
            · apply hki
              omega
            · exact hkold hv
    · intro b2 hb2 c hc
      obtain ⟨k, hk⟩ := List.getElem?_of_mem hb2
      by_cases hkold : (k : Int) ∈ old
      · rw [hempty k hkold b2 hk] at hc
        simp at hc
      · rw [hkeep k hkold] at hk
        obtain ⟨b0, hb0, hmem⟩ := wl1Listed k b2 hk c hc
        exact hinv.dynamic b0 hb0 c hmem
    · rw [hres]
      exact hinv.result_eq
    · intro r c hnone
      rcases hframe r c with hf | ⟨_, j, _, b, hb, d, hd, hr, hcc⟩
      · rw [hf]
        exact hinv.untouched r c hnone
      · exfalso
        obtain ⟨b0, hb0, hmem⟩ := wl1Listed j.toNat b hb d hd
        obtain ⟨e, he, _⟩ := hinv.dynamic b0 hb0 d hmem
        rw [hr, hcc, hnone] at he
        cases he

theorem mergeSweep_inv {tokens : List (List String)} {wl0 wl wl2 : Workload} {fuel : Nat}
    (hinv : SweepInv tokens wl0 wl) (h : wl.mergeSweep fuel = .ok wl2) :
    SweepInv tokens wl0 wl2 := by
  unfold Workload.mergeSweep at h
  exact foldlM_preserves (SweepInv tokens wl0) (Workload.mergeBucket fuel)
    (fun b a b2 hb hf => mergeBucket_inv hb hf) _ wl wl2 hinv h

theorem invertBuckets_inv {tokens : List (List String)} {wl0 wl : Workload}
    (hinv : SweepInv tokens wl0 wl) : SweepInv tokens wl0 wl.invertBuckets := by
  unfold Workload.invertBuckets
  refine ⟨?_, ?_, hinv.result_eq, hinv.untouched⟩
  · intro k b hb c hc
    simp only [List.getElem?_map] at hb
    cases hk : wl.buckets[k]? with
    | none =>
      rw [hk] at hb
      simp at hb
    | some b0 =>
      rw [hk] at hb
      simp at hb
      subst hb
      exact hinv.agrees k b0 hk c (List.mem_reverse.mp hc)
  · intro b hb c hc
    simp only [List.mem_map] at hb
    obtain ⟨b0, hb0, hrev⟩ := hb
    subst hrev
    exact hinv.dynamic b0 hb0 c (List.mem_reverse.mp hc)

/-! ## The workload that `newWorkload` returns -/

theorem boardGet_replicate {α : Type} (rows cols : Nat) (v : α) (r c : Nat)
    (hr : r < rows) (hc : c < cols) :
    boardGet (List.replicate rows (List.replicate cols v)) r c = .ok v := by
  unfold boardGet
  have h : ¬ ((r : Int) < 0 ∨ (c : Int) < 0) := by omega
  rw [if_neg h]
  simp [List.getElem?_replicate, hr, hc]

theorem newWorkload_spec {tokens : List (List String)} {fuel : Nat} {wl : Workload}
    (h : newWorkload tokens fuel = .ok wl) :
    wl.Agrees ∧ wl.ListsDynamic tokens ∧
    (∀ r c e, tokenAt tokens r c = some e → isDynamic e = false →
      boardGet wl.result r c = .ok e) ∧
    (∀ r c, tokenAt tokens r c = none →
      boardGet wl.ref r c = boardGet
        (newRefBoard (calcBoardDimensions tokens).1 (calcBoardDimensions tokens).2) r c ∧
      boardGet wl.result r c = boardGet
        (newResultBoard (calcBoardDimensions tokens).1 (calcBoardDimensions tokens).2) r c) := by
  unfold newWorkload Workload.createWorkloadBuckets at h
  simp only at h
  rw [bind_ok_iff] at h
  obtain ⟨wl1, hscan, h⟩ := h
  rw [bind_ok_iff] at h
  obtain ⟨wl2, hsweep, h⟩ := h
  rw [pure_ok_iff] at h
  subst h
  have hs := scanLines_spec (by rfl) hscan
  have hinv1 : SweepInv tokens wl1 wl1 := ⟨hs.agrees, hs.dynamic, rfl, fun _ _ _ => rfl⟩
  have hinv2 := invertBuckets_inv (mergeSweep_inv hinv1 hsweep)
  refine ⟨hinv2.agrees, hinv2.dynamic, ?_, ?_⟩
  · intro r c e he hstat
    rw [hinv2.result_eq]
    apply hs.statics r c e _ he hstat
    left
    unfold tokenAt at he
    split at he
    · cases he
    · rename_i hneg
      split at he
      · cases he
      · rename_i cells hcells
        rcases List.getElem?_eq_some.mp hcells with ⟨hlt, _⟩
        omega
  · intro r c hnone
    have h1 := hs.untouched r c hnone
    simp only at h1
    rw [hinv2.untouched r c hnone, hinv2.result_eq]
    exact h1

/-! ## Disjoint buckets and short rows -/

/-- C4, disjointness: after `newWorkload` two distinct buckets have no
coordinate in common. -/
theorem buckets_pairwise_disjoint (tokens : List (List String)) (fuel : Nat) (wl : Workload)
    (i j : Nat) (bi bj : Bucket) (c d : Cell)
    (h : newWorkload tokens fuel = .ok wl) (hij : i ≠ j)
    (hi : wl.buckets[i]? = some bi) (hj : wl.buckets[j]? = some bj)
    (hc : c ∈ bi) (hd : d ∈ bj) : ¬ (c.row = d.row ∧ c.col = d.col) := by
  rintro ⟨hr, hcol⟩
  have hag := (newWorkload_spec h).1
  have h1 := hag i bi hi c hc
  have h2 := hag j bj hj d hd
  rw [hr, hcol, h2] at h1
  simp only [Except.ok.injEq] at h1
  omega

/-- Witness of `buckets_pairwise_disjoint`: on the grid `=B1 | =1 | =` bucket 0
holds B1 and A1, bucket 2 holds C1, and A1 and C1 are different coordinates. -/
theorem buckets_pairwise_disjoint_witness :
    newWorkload [["=B1", "=1", "="]] 4
      = .ok ⟨[[⟨0, 1, "=1", []⟩, ⟨0, 0, "=B1", [⟨0, 1⟩]⟩], [], [⟨0, 2, "=", []⟩]],
          [["", "", ""]], [[0, 0, 2]]⟩ ∧
    ¬ ((⟨0, 0, "=B1", [⟨0, 1⟩]⟩ : Cell).row = (⟨0, 2, "=", []⟩ : Cell).row ∧
       (⟨0, 0, "=B1", [⟨0, 1⟩]⟩ : Cell).col = (⟨0, 2, "=", []⟩ : Cell).col) :=
  ⟨by decide,
   buckets_pairwise_disjoint [["=B1", "=1", "="]] 4
     ⟨[[⟨0, 1, "=1", []⟩, ⟨0, 0, "=B1", [⟨0, 1⟩]⟩], [], [⟨0, 2, "=", []⟩]],
       [["", "", ""]], [[0, 0, 2]]⟩ 0 2
     [⟨0, 1, "=1", []⟩, ⟨0, 0, "=B1", [⟨0, 1⟩]⟩] [⟨0, 2, "=", []⟩]
     ⟨0, 0, "=B1", [⟨0, 1⟩]⟩ ⟨0, 2, "=", []⟩
     (by decide) (by decide) (by decide) (by decide) (by decide) (by decide)⟩

/-- C10 as stated fails: on the grid with rows `a` and `b | c` the missing
coordinate B1 keeps the Status Board entry `MISSING`, which is not `PROCESSED`,
and on the grid with rows `x` and `=B1 | c` the reference to the missing
coordinate B1 ends the run with `INVALID_CELL_REFERENCE_ERROR`. -/
theorem short_row_not_padded :
    (newWorkload [["a"], ["b", "c"]] 0).map (fun wl => boardGet wl.ref 0 1)
      = .ok (.ok MISSING) ∧ MISSING ≠ PROCESSED ∧
    newWorkload [["x"], ["=B1", "c"]] 8 = .error (.exit INVALID_CELL_REFERENCE_ERROR) := by
  decide

theorem assertWithinBounds_cases (wl : Workload) (row col : Int) :
    wl.assertWithinBounds row col = .ok () ∨
    wl.assertWithinBounds row col = .error (.exit INVALID_CELL_REFERENCE_ERROR) := by
  unfold Workload.assertWithinBounds
  split
  · exact Or.inr rfl
  · rename_i hin
    push_neg at hin
    split
    · rename_i hnone
      exfalso
      have : wl.result.length ≤ 0 := List.getElem?_eq_none_iff.mp hnone
      omega
    · split
      · exact Or.inr rfl
      · exact Or.inl rfl

/-- C10 amended: a missing trailing coordinate of a short row has the empty
string on the Value Board, the entry `MISSING` on the Status Board, is listed in
no bucket, and a reference to it ends the run with
`INVALID_CELL_REFERENCE_ERROR`, in `getCell` as in `getCellValue`. -/
theorem short_row_stays_missing (tokens : List (List String)) (fuel : Nat) (wl : Workload)
    (row col : Nat) (cells : List String)
    (h : newWorkload tokens fuel = .ok wl) (hrow : tokens[row]? = some cells)
    (hshort : cells.length ≤ col) (hcol : col < (calcBoardDimensions tokens).2) :
    boardGet wl.result row col = .ok "" ∧ boardGet wl.ref row col = .ok MISSING ∧
    ¬ wl.listed row col ∧
    wl.getCell ⟨row, col⟩ = .error (.exit INVALID_CELL_REFERENCE_ERROR) ∧
    wl.getCellValue row col = .error (.exit INVALID_CELL_REFERENCE_ERROR) := by
  obtain ⟨_, hdyn, _, hun⟩ := newWorkload_spec h
  have hnone : tokenAt tokens row col = none := by
    unfold tokenAt
    have hneg : ¬ ((row : Int) < 0 ∨ (col : Int) < 0) := by omega
    rw [if_neg hneg]
    simp only [Int.toNat_ofNat, hrow]
    exact List.getElem?_eq_none hshort
  have hrows : row < (calcBoardDimensions tokens).1 := by
    rcases List.getElem?_eq_some.mp hrow with ⟨hlt, _⟩
    exact hlt
  obtain ⟨href, hres⟩ := hun row col hnone
  unfold newRefBoard at href
  unfold newResultBoard at hres
  rw [boardGet_replicate _ _ _ _ _ hrows hcol] at href hres
  have hassert := assertWithinBounds_cases wl row col
  refine ⟨hres, href, ?_, ?_, ?_⟩
  · rintro ⟨b, hb, c, hc, hr, hcc⟩
    obtain ⟨e, he, _⟩ := hdyn b hb c hc
    rw [hr, hcc, hnone] at he
    cases he
  · unfold Workload.getCell
    rcases hassert with ha | ha
    · simp [ha, href, bind, Except.bind, MISSING, PROCESSED]
    · simp [ha, bind, Except.bind]
  · unfold Workload.getCellValue
    rcases hassert with ha | ha
    · simp [ha, href, bind, Except.bind, MISSING, PROCESSED]
    · simp [ha, bind, Except.bind]

/-- Witness of `short_row_stays_missing`: the grid with rows `a` and `b | c`
at the coordinate B1. -/
theorem short_row_stays_missing_witness :
    newWorkload [["a"], ["b", "c"]] 0 = .ok ⟨[], [["a", ""], ["b", "c"]], [[-1, -2], [-1, -1]]⟩ ∧
    boardGet [["a", ""], ["b", "c"]] ((0 : Nat) : Int) ((1 : Nat) : Int) = .ok "" :=
  ⟨by decide,
   (short_row_stays_missing [["a"], ["b", "c"]] 0 ⟨[], [["a", ""], ["b", "c"]], [[-1, -2], [-1, -1]]⟩
     0 1 ["a"] (by decide) (by decide) (by decide) (by decide)).1⟩

/-! ## Processing one bucket -/

theorem map_set_same {α β : Type} (f : α → β) (l : List α) (j : Nat) (a a2 : α)
    (hj : l[j]? = some a) (hf : f a2 = f a) : (l.set j a2).map f = l.map f := by
  have hlt : j < l.length := by
    rcases List.getElem?_eq_some.mp hj with ⟨hlt, _⟩
    exact hlt
  apply List.ext_getElem?
  intro n
  simp only [List.getElem?_map, List.getElem?_set]
  by_cases hjn : j = n
  · subst hjn
    simp [hlt, hj, hf]
  · simp [hjn]

theorem evaluateAt_spec {i j : Nat} {wl wl2 : Workload} {flag : Bool}
    (h : Workload.evaluateAt i wl j = .ok (wl2, flag)) :
    ∃ b cell, wl.buckets[i]? = some b ∧ b[j]? = some cell ∧
      wl2.coordinates = wl.coordinates ∧
      (flag = true → boardSet wl.result cell.row cell.col cell.expr = .ok wl2.result ∧
        boardSet wl.ref cell.row cell.col PROCESSED = .ok wl2.ref) ∧
      (flag = false → wl2.result = wl.result ∧ wl2.ref = wl.ref) := by
  unfold Workload.evaluateAt at h
  split at h
  · cases h
  · rename_i b hb
    split at h
    · cases h
    · rename_i cell hcell
      rw [bind_ok_iff] at h
      obtain ⟨r, hr, h⟩ := h
      have hcoord := evaluateCell_coord hr
      have hcoords : ({ wl with buckets := wl.buckets.set i (b.set j r.2) } : Workload).coordinates
          = wl.coordinates := by
        unfold Workload.coordinates
        simp only
        apply map_set_same _ _ _ b _ hb
        apply map_set_same _ _ _ cell _ hcell
        unfold Cell.coord
        rw [hcoord.1, hcoord.2]
      refine ⟨b, cell, hb, hcell, ?_⟩
      split at h
      · rw [bind_ok_iff] at h
        obtain ⟨res2, hres, h⟩ := h
        rw [bind_ok_iff] at h
        obtain ⟨ref2, href, h⟩ := h
        rw [pure_ok_iff] at h
        simp only [Prod.mk.injEq] at h
        obtain ⟨h1, h2⟩ := h
        subst h1
        subst h2
        refine ⟨hcoords, fun _ => ⟨hres, href⟩, fun hf => by cases hf⟩
      · rw [pure_ok_iff] at h
        simp only [Prod.mk.injEq] at h
        obtain ⟨h1, h2⟩ := h
        subst h1
        subst h2
        refine ⟨hcoords, (fun hf => by cases hf), fun _ => ⟨rfl, rfl⟩⟩

theorem coordinates_bucket {wl wl2 : Workload} (h : wl2.coordinates = wl.coordinates)
    {k : Nat} {b : Bucket} (hb : wl.buckets[k]? = some b) :
    ∃ b2, wl2.buckets[k]? = some b2 ∧ b2.map Cell.coord = b.map Cell.coord := by
  have hk : wl2.coordinates[k]? = wl.coordinates[k]? := by rw [h]
  unfold Workload.coordinates at hk
  rw [List.getElem?_map, List.getElem?_map, hb] at hk
  cases h2 : wl2.buckets[k]? with
  | none =>
    rw [h2] at hk
    simp at hk
  | some b2 =>
    rw [h2] at hk
    simp only [Option.map_some', Option.some.injEq] at hk
    exact ⟨b2, rfl, hk⟩

theorem mem_of_map_coord_eq {b b2 : Bucket} (h : b2.map Cell.coord = b.map Cell.coord)
    {c : Cell} (hc : c ∈ b2) : ∃ d ∈ b, d.row = c.row ∧ d.col = c.col := by
  have hm : c.coord ∈ b2.map Cell.coord := List.mem_map_of_mem _ hc
  rw [h, List.mem_map] at hm
  obtain ⟨d, hd, hdc⟩ := hm
  unfold Cell.coord at hdc
  simp only [Prod.mk.injEq] at hdc
  exact ⟨d, hd, hdc.1, hdc.2⟩

theorem getElem_of_map_coord_eq {b b2 : Bucket} (h : b2.map Cell.coord = b.map Cell.coord)
    {p : Nat} {c : Cell} (hc : b2[p]? = some c) :
    ∃ d, b[p]? = some d ∧ d.row = c.row ∧ d.col = c.col := by
  have hp : (b2.map Cell.coord)[p]? = (b.map Cell.coord)[p]? := by rw [h]
  rw [List.getElem?_map, List.getElem?_map, hc] at hp
  cases hd : b[p]? with
  | none =>
    rw [hd] at hp
    simp at hp
  | some d =>
    rw [hd] at hp
    simp only [Option.map_some', Option.some.injEq] at hp
    unfold Cell.coord at hp
    simp only [Prod.mk.injEq] at hp
    exact ⟨d, rfl, hp.1.symm, hp.2.symm⟩

theorem evaluateLoop_spec (i : Nat) :
    ∀ (n s : Nat) (wl wl1 : Workload) (flags flags1 : List Bool) (b : Bucket),
      wl.buckets[i]? = some b → flags.length = s →
      Workload.evaluateLoop i (List.range' s n) wl flags = .ok (wl1, flags1) →
      wl1.coordinates = wl.coordinates ∧ flags1.length = s + n ∧
      (∀ p, p < s → flags1[p]? = flags[p]?) ∧
      (∀ r c, boardGet wl1.ref r c = boardGet wl.ref r c ∨
        (boardGet wl1.ref r c = .ok PROCESSED ∧
          ∃ (p : Nat) (d : Cell), b[p]? = some d ∧ d.row = r ∧ d.col = c ∧ flags1[p]? = some true)) ∧
      (∀ r c, boardGet wl1.result r c = boardGet wl.result r c ∨
        (∃ (p : Nat) (d : Cell), b[p]? = some d ∧ d.row = r ∧ d.col = c ∧ flags1[p]? = some true)) := by
  intro n
  induction n with
  | zero =>
    intro s wl wl1 flags flags1 b _ hlen h
    simp only [List.range'_zero, Workload.evaluateLoop, Except.ok.injEq, Prod.mk.injEq] at h
    obtain ⟨h1, h2⟩ := h
    subst h1
    subst h2
    exact ⟨rfl, by simpa using hlen, fun _ _ => rfl, fun _ _ => Or.inl rfl, fun _ _ => Or.inl rfl⟩
  | succ n ih =>
    intro s wl wl1 flags flags1 b hb hlen h
    rw [List.range'_succ] at h
    simp only [Workload.evaluateLoop] at h
    rw [bind_ok_iff] at h
    obtain ⟨⟨wl2, flag⟩, hat, h⟩ := h
    simp only at h
    obtain ⟨b0, cell, hb0, hcell, hcoords, htrue, hfalse⟩ := evaluateAt_spec hat
    rw [hb] at hb0
    cases hb0
    obtain ⟨b2, hb2, hmap2⟩ := coordinates_bucket hcoords hb
    obtain ⟨hc1, hl1, hpre, href, hres⟩ :=
      ih (s + 1) wl2 wl1 (flags ++ [flag]) flags1 b2 hb2 (by simp [hlen]) h
    have hflag : flags1[s]? = some flag := by
      rw [hpre s (by omega), List.getElem?_append_right (by omega)]
      simp [hlen]
    refine ⟨hc1.trans hcoords, by omega, ?_, ?_, ?_⟩
    · intro p hp
      rw [hpre p (by omega), List.getElem?_append_left (by omega)]
    · intro r c
      rcases href r c with hf | ⟨hf, p, d, hd, hr, hcc, hfl⟩
      · cases flag with
        | false =>
          left
          rw [hf, (hfalse rfl).2]
        | true =>
          by_cases hrc : r = cell.row ∧ c = cell.col
          · right
            obtain ⟨hr1, hc1⟩ := hrc
            subst hr1
            subst hc1
            rw [hf]
            exact ⟨boardSet_get_same (htrue rfl).2, s, cell, hcell, rfl, rfl, hflag⟩
          · left
            rw [hf]
            exact boardSet_get_other (htrue rfl).2 r c hrc
      · right
        obtain ⟨d0, hd0, hr0, hc0⟩ := getElem_of_map_coord_eq hmap2 hd
        exact ⟨hf, p, d0, hd0, hr0.trans hr, hc0.trans hcc, hfl⟩
    · intro r c
      rcases hres r c with hf | ⟨p, d, hd, hr, hcc, hfl⟩
      · cases flag with
        | false =>
          left
          rw [hf, (hfalse rfl).1]
        | true =>
          by_cases hrc : r = cell.row ∧ c = cell.col
          · right
            exact ⟨s, cell, hcell, hrc.1.symm, hrc.2.symm, hflag⟩
          · left
            rw [hf]
            exact boardSet_get_other (htrue rfl).1 r c hrc
      · right
        obtain ⟨d0, hd0, hr0, hc0⟩ := getElem_of_map_coord_eq hmap2 hd
        exact ⟨p, d0, hd0, hr0.trans hr, hc0.trans hcc, hfl⟩

theorem fallbackLoop_spec :
    ∀ (cells : List Cell) (wl wl2 : Workload),
      Workload.fallbackLoop cells wl = .ok wl2 →
      wl2.buckets = wl.buckets ∧
      (∀ r c, boardGet wl2.ref r c = boardGet wl.ref r c ∨
        (boardGet wl2.ref r c = .ok PROCESSED ∧ ∃ d ∈ cells, d.row = r ∧ d.col = c)) ∧
      (∀ r c, boardGet wl2.result r c = boardGet wl.result r c ∨
        ∃ d ∈ cells, d.row = r ∧ d.col = c) ∧
      (∀ d ∈ cells, ∀ v, boardGet wl.ref d.row d.col = .ok v → (0 ≤ v ∨ v = PROCESSED) →
        boardGet wl2.ref d.row d.col = .ok PROCESSED) ∧
      ((cells.map Cell.coord).Nodup →
        ∀ d ∈ cells, ∀ v, boardGet wl.ref d.row d.col = .ok v → 0 ≤ v →
          boardGet wl2.result d.row d.col = .ok d.expr) := by
  intro cells
  induction cells with
  | nil =>
    intro wl wl2 h
    simp only [Workload.fallbackLoop, Except.ok.injEq] at h
    subst h
    exact ⟨rfl, fun _ _ => Or.inl rfl, fun _ _ => Or.inl rfl, by simp, by simp⟩
  | cons cell cells ih =>
    intro wl wl2 h
    simp only [Workload.fallbackLoop] at h
    rw [bind_ok_iff] at h
    obtain ⟨idx, hidx, h⟩ := h
    split at h
    · rename_i hpos
      rw [bind_ok_iff] at h
      obtain ⟨res1, hres1, h⟩ := h
      rw [bind_ok_iff] at h
      obtain ⟨ref1, href1, h⟩ := h
      obtain ⟨hb, hfref, hfres, hdone, hval⟩ := ih _ wl2 h
      simp only at hb hfref hfres hdone hval
      have hrefAt : ∀ d : Cell, ∀ v, boardGet wl.ref d.row d.col = .ok v →
          boardGet ref1 d.row d.col = .ok v ∨ boardGet ref1 d.row d.col = .ok PROCESSED := by
        intro d v hv
        by_cases hrc : d.row = cell.row ∧ d.col = cell.col
        · right
          rw [hrc.1, hrc.2]
          exact boardSet_get_same href1
        · left
          rw [boardSet_get_other href1 _ _ hrc]
          exact hv
      refine ⟨hb, ?_, ?_, ?_, ?_⟩
      · intro r c
        rcases hfref r c with hf | ⟨hf, d, hd, hrc⟩
        · by_cases hrc : r = cell.row ∧ c = cell.col
          · right
            obtain ⟨hr1, hc1⟩ := hrc
            subst hr1
            subst hc1
            rw [hf]
            exact ⟨boardSet_get_same href1, cell, by simp, rfl, rfl⟩
          · left
            rw [hf]
            exact boardSet_get_other href1 r c hrc
        · exact Or.inr ⟨hf, d, List.mem_cons_of_mem _ hd, hrc⟩
      · intro r c
        rcases hfres r c with hf | ⟨d, hd, hrc⟩
        · by_cases hrc : r = cell.row ∧ c = cell.col
          · exact Or.inr ⟨cell, by simp, hrc.1.symm, hrc.2.symm⟩
          · left
            rw [hf]
            exact boardSet_get_other hres1 r c hrc
        · exact Or.inr ⟨d, List.mem_cons_of_mem _ hd, hrc⟩
      · intro d hd v hv hvv
        rcases List.mem_cons.mp hd with hd | hd
        · subst hd
          rcases hfref d.row d.col with hf | ⟨hf, _⟩
          · rw [hf]
            exact boardSet_get_same href1
          · exact hf
        · rcases hrefAt d v hv with h1 | h1
          · exact hdone d hd v h1 hvv
          · exact hdone d hd PROCESSED h1 (Or.inr rfl)
      · intro hnd d hd v hv hv0
        rw [List.map_cons, List.nodup_cons] at hnd
        rcases List.mem_cons.mp hd with hd | hd
        · subst hd
          rcases hfres d.row d.col with hf | ⟨d2, hd2, hr2, hc2⟩
          · rw [hf]
            exact boardSet_get_same hres1
          · exfalso
            apply hnd.1
            rw [List.mem_map]
            refine ⟨d2, hd2, ?_⟩
            unfold Cell.coord
            rw [hr2, hc2]
        · have hne : ¬ (d.row = cell.row ∧ d.col = cell.col) := by
            rintro ⟨hr2, hc2⟩
            apply hnd.1
            rw [List.mem_map]
            refine ⟨d, hd, ?_⟩
            unfold Cell.coord
            rw [hr2, hc2]
          apply hval hnd.2 d hd v _ hv0
          rw [boardSet_get_other href1 _ _ hne]
          exact hv
    · rename_i hneg
      obtain ⟨hb, hfref, hfres, hdone, hval⟩ := ih wl wl2 h
      refine ⟨hb, ?_, ?_, ?_, ?_⟩
      · intro r c
        rcases hfref r c with hf | ⟨hf, d, hd, hrc⟩
        · exact Or.inl hf
        · exact Or.inr ⟨hf, d, List.mem_cons_of_mem _ hd, hrc⟩
      · intro r c
        rcases hfres r c with hf | ⟨d, hd, hrc⟩
        · exact Or.inl hf
        · exact Or.inr ⟨d, List.mem_cons_of_mem _ hd, hrc⟩
      · intro d hd v hv hvv
        rcases List.mem_cons.mp hd with hd | hd
        · subst hd
          rw [hidx] at hv
          simp only [Except.ok.injEq] at hv
          subst hv
          rcases hvv with hvv | hvv
          · exact absurd hvv hneg
          · rcases hfref d.row d.col with hf | ⟨hf, _⟩
            · rw [hf, hidx, hvv]
            · exact hf
        · exact hdone d hd v hv hvv
      · intro hnd d hd v hv hv0
        rw [List.map_cons, List.nodup_cons] at hnd
        rcases List.mem_cons.mp hd with hd | hd
        · subst hd
          rw [hidx] at hv
          simp only [Except.ok.injEq] at hv
          subst hv
          exact absurd hv0 hneg
        · exact hval hnd.2 d hd v hv hv0

theorem nodup_coord_index {b : Bucket} (hnd : (b.map Cell.coord).Nodup) {p j : Nat} {d d0 : Cell}
    (hp : b[p]? = some d) (hj : b[j]? = some d0) (hr : d.row = d0.row) (hc : d.col = d0.col) :
    p = j := by
  have hcoord : d.coord = d0.coord := by
    unfold Cell.coord
    rw [hr, hc]
  have hpm : (b.map Cell.coord)[p]? = some d.coord := by
    rw [List.getElem?_map, hp]
    rfl
  have hjm : (b.map Cell.coord)[j]? = some d.coord := by
    rw [List.getElem?_map, hj, hcoord]
    rfl
  have hpl : p < (b.map Cell.coord).length := by
    rcases List.getElem?_eq_some.mp hpm with ⟨hlt, _⟩
    exact hlt
  have hjl : j < (b.map Cell.coord).length := by
    rcases List.getElem?_eq_some.mp hjm with ⟨hlt, _⟩
    exact hlt
  rcases Nat.lt_trichotomy p j with hlt | heq | hgt
  · exact absurd (hpm.trans hjm.symm) (List.nodup_iff_getElem?_ne_getElem?.mp hnd p j hlt hjl)
  · exact heq
  · exact absurd (hjm.trans hpm.symm) (List.nodup_iff_getElem?_ne_getElem?.mp hnd j p hgt hpl)

theorem processBucketTraced_spec {wl wl2 : Workload} {i : Nat} {flags : List Bool}
    (h : wl.processBucketTraced i = .ok (wl2, flags)) :
    ∃ b, wl.buckets[i]? = some b ∧
      wl2.coordinates = wl.coordinates ∧ flags.length = b.length ∧
      (∀ r c, boardGet wl2.ref r c = boardGet wl.ref r c ∨
        (boardGet wl2.ref r c = .ok PROCESSED ∧ ∃ d ∈ b, d.row = r ∧ d.col = c)) ∧
      (∀ r c, boardGet wl2.result r c = boardGet wl.result r c ∨
        ∃ d ∈ b, d.row = r ∧ d.col = c) ∧
      (∀ d ∈ b, ∀ v, boardGet wl.ref d.row d.col = .ok v → (0 ≤ v ∨ v = PROCESSED) →
        boardGet wl2.ref d.row d.col = .ok PROCESSED) ∧
      ((b.map Cell.coord).Nodup →
        (∀ d ∈ b, ∃ v, boardGet wl.ref d.row d.col = .ok v ∧ 0 ≤ v) →
        ∀ (j : Nat) (c : Cell) (b2 : Bucket), wl2.buckets[i]? = some b2 → b2[j]? = some c →
          flags[j]? = some false → boardGet wl2.result c.row c.col = .ok c.expr) := by
  unfold Workload.processBucketTraced at h
  split at h
  · cases h
  · rename_i b hb
    rw [bind_ok_iff] at h
    obtain ⟨⟨wl1, fl⟩, hloop, h⟩ := h
    simp only at h
    split at h
    · cases h
    · rename_i b1 hb1
      rw [bind_ok_iff] at h
      obtain ⟨wl3, hfall, h⟩ := h
      rw [pure_ok_iff] at h
      simp only [Prod.mk.injEq] at h
      obtain ⟨h1, h2⟩ := h
      subst h1
      subst h2
      rw [List.range_eq_range'] at hloop
      obtain ⟨hc1, hl1, _, href1, hres1⟩ := evaluateLoop_spec i b.length 0 wl wl1 [] fl b hb rfl hloop
      obtain ⟨b1x, hb1x, hmap1⟩ := coordinates_bucket hc1 hb
      rw [hb1] at hb1x
      cases hb1x
      obtain ⟨hbk, hfref, hfres, hdone, hval⟩ := fallbackLoop_spec b1 wl1 wl3 hfall
      have hcoords : wl3.coordinates = wl.coordinates := by
        unfold Workload.coordinates
        rw [hbk]
        exact hc1
      refine ⟨b, hb, hcoords, by omega, ?_, ?_, ?_, ?_⟩
      · intro r c
        rcases hfref r c with hf | ⟨hf, d, hd, hr, hcc⟩
        · rcases href1 r c with hf1 | ⟨hf1, p, d, hd, hr, hcc, _⟩
          · left
            rw [hf, hf1]
          · right
            rw [hf]
            exact ⟨hf1, d, mem_of_getElem? hd, hr, hcc⟩
        · right
          obtain ⟨d0, hd0, hr0, hc0⟩ := mem_of_map_coord_eq hmap1 hd
          exact ⟨hf, d0, hd0, hr0.trans hr, hc0.trans hcc⟩
      · intro r c
        rcases hfres r c with hf | ⟨d, hd, hr, hcc⟩
        · rcases hres1 r c with hf1 | ⟨p, d, hd, hr, hcc, _⟩
          · left
            rw [hf, hf1]
          · right
            exact ⟨d, mem_of_getElem? hd, hr, hcc⟩
        · right
          obtain ⟨d0, hd0, hr0, hc0⟩ := mem_of_map_coord_eq hmap1 hd
          exact ⟨d0, hd0, hr0.trans hr, hc0.trans hcc⟩
      · intro d hd v hv hvv
        obtain ⟨d1, hd1, hr1, hc1x⟩ := mem_of_map_coord_eq hmap1.symm hd
        rw [← hr1, ← hc1x]
        rcases href1 d1.row d1.col with hf1 | ⟨hf1, _⟩
        · apply hdone d1 hd1 v _ hvv
          rw [hf1, hr1, hc1x]
          exact hv
        · exact hdone d1 hd1 PROCESSED hf1 (Or.inr rfl)
      · intro hnd hpend j c b2 hb2 hcj hflag
        rw [hbk, hb1] at hb2
        cases hb2
        obtain ⟨d0, hd0, hr0, hc0⟩ := getElem_of_map_coord_eq hmap1 hcj
        obtain ⟨v, hv, hv0⟩ := hpend d0 (mem_of_getElem? hd0)
        rw [hr0, hc0] at hv
        have hv1 : boardGet wl1.ref c.row c.col = .ok v := by
          rcases href1 c.row c.col with hf1 | ⟨_, p, d, hd, hr, hcc, hfl⟩
          · rw [hf1]
            exact hv
          · exfalso
            have hpj : p = j := nodup_coord_index hnd hd hd0 (hr.trans hr0.symm) (hcc.trans hc0.symm)
            rw [hpj, hflag] at hfl
            cases hfl
        rw [← hmap1] at hnd
        exact hval hnd c (mem_of_getElem? hcj) v hv1 hv0

/-! ## Processing the buckets in any order -/

theorem foldlM_preserves_mem {α β : Type} (P : β → Prop) (f : β → α → Except Fault β) :
    ∀ (l : List α) (b b2 : β), (∀ b a b2, a ∈ l → P b → f b a = .ok b2 → P b2) →
      P b → l.foldlM f b = .ok b2 → P b2 := by
  intro l
  induction l with
  | nil =>
    intro b b2 _ hb h
    simp [List.foldlM, pure, Except.pure] at h
    subst h
    exact hb
  | cons a l ih =>
    intro b b2 hf hb h
    rw [List.foldlM_cons, bind_ok_iff] at h
    obtain ⟨b1, h1, h2⟩ := h
    exact ih b1 b2 (fun b a2 b2 ha => hf b a2 b2 (List.mem_cons_of_mem _ ha))
      (hf b a b1 (List.mem_cons_self _ _) hb h1) h2

theorem processBucket_traced {wl wl2 : Workload} {i : Nat} (h : wl.processBucket i = .ok wl2) :
    ∃ flags, wl.processBucketTraced i = .ok (wl2, flags) := by
  unfold Workload.processBucket at h
  rw [bind_ok_iff] at h
  obtain ⟨r, hr, h⟩ := h
  rw [pure_ok_iff] at h
  subst h
  exact ⟨r.2, hr⟩

theorem processBucket_inv {tokens : List (List String)} {allowed : List Nat}
    {wl wl2 : Workload} {i : Nat} (hinv : RunInv tokens allowed wl) (hi : i ∈ allowed)
    (h : wl.processBucket i = .ok wl2) : RunInv tokens allowed wl2 := by
  obtain ⟨flags, ht⟩ := processBucket_traced h
  obtain ⟨bi, hbi, hcoords, _, href, hres, _, _⟩ := processBucketTraced_spec ht
  have back : ∀ (k : Nat) (b2 : Bucket), wl2.buckets[k]? = some b2 → ∀ c ∈ b2,
      ∃ b, wl.buckets[k]? = some b ∧ ∃ d ∈ b, d.row = c.row ∧ d.col = c.col := by
    intro k b2 hb2 c hc
    obtain ⟨b, hb, hmap⟩ := coordinates_bucket hcoords.symm hb2
    obtain ⟨d, hd, hrc⟩ := mem_of_map_coord_eq hmap.symm hc
    exact ⟨b, hb, d, hd, hrc⟩
  refine ⟨?_, ?_, ?_⟩
  · intro b2 hb2 c hc
    obtain ⟨k, hk⟩ := List.getElem?_of_mem hb2
    obtain ⟨b, hb, d, hd, hr, hcc⟩ := back k b2 hk c hc
    rw [← hr, ← hcc]
    exact hinv.dynamic b (mem_of_getElem? hb) d hd
  · intro k b2 hb2 c hc
    obtain ⟨b, hb, d, hd, hr, hcc⟩ := back k b2 hb2 c hc
    have hst := hinv.status k b hb d hd
    rw [hr, hcc] at hst
    rcases href c.row c.col with hf | ⟨hf, d2, hd2, hr2, hc2⟩
    · rw [hf]
      exact hst
    · right
      refine ⟨?_, hf⟩
      rcases hst with hst | ⟨hk, _⟩
      · have hst2 := hinv.status i bi hbi d2 hd2
        rw [hr2, hc2, hst] at hst2
        rcases hst2 with hst2 | ⟨_, hst2⟩
        · simp only [Except.ok.injEq] at hst2
          have : k = i := by omega
          rw [this]
          exact hi
        · simp only [Except.ok.injEq, PROCESSED] at hst2
          omega
      · exact hk
  · intro r c e he hstat
    rcases hres r c with hf | ⟨d, hd, hr, hcc⟩
    · rw [hf]
      exact hinv.statics r c e he hstat
    · exfalso
      obtain ⟨e2, he2, hdyn⟩ := hinv.dynamic bi (mem_of_getElem? hbi) d hd
      rw [hr, hcc, he] at he2
      cases he2
      rw [hstat] at hdyn
      cases hdyn

theorem processInOrder_inv {tokens : List (List String)} {order : List Nat}
    {wl wl2 : Workload} (hinv : RunInv tokens order wl)
    (h : wl.processInOrder order = .ok wl2) : RunInv tokens order wl2 := by
  unfold Workload.processInOrder at h
  exact foldlM_preserves_mem (RunInv tokens order) Workload.processBucket order wl wl2
    (fun b a b2 ha hb hf => processBucket_inv hb ha hf) hinv h

theorem newWorkload_runInv {tokens : List (List String)} {fuel : Nat} {wl : Workload}
    (allowed : List Nat) (h : newWorkload tokens fuel = .ok wl) : RunInv tokens allowed wl := by
  obtain ⟨hag, hdyn, hstat, _⟩ := newWorkload_spec h
  exact ⟨hdyn, fun k b hb c hc => Or.inl (hag k b hb c hc), hstat⟩

/-- C7, idempotent statics: the Value Board holds the input text of every
static token after `newWorkload`, and still holds it after the buckets were
processed, whatever the order and the number of buckets processed. -/
theorem statics_keep_input_text (tokens : List (List String)) (fuel : Nat)
    (wl0 wl : Workload) (order : List Nat) (row col : Int) (e : String)
    (h0 : newWorkload tokens fuel = .ok wl0) (h1 : wl0.processInOrder order = .ok wl)
    (htok : tokenAt tokens row col = some e) (hstat : isDynamic e = false) :
    boardGet wl0.result row col = .ok e ∧ boardGet wl.result row col = .ok e :=
  ⟨(newWorkload_runInv order h0).statics row col e htok hstat,
   (processInOrder_inv (newWorkload_runInv order h0) h1).statics row col e htok hstat⟩

/-- Witness of `statics_keep_input_text`: the static cell A2 of `exampleGrid`
keeps the text `x` while both buckets are processed. -/
theorem statics_keep_input_text_witness :
    newWorkload exampleGrid 2 = .ok exampleWorkload ∧
    exampleWorkload.processInOrder [1, 0] = .ok exampleWorkloadAfter10 ∧
    boardGet exampleWorkloadAfter10.result 1 0 = .ok "x" :=
  ⟨by decide, by decide,
   (statics_keep_input_text exampleGrid 2 exampleWorkload exampleWorkloadAfter10 [1, 0] 1 0 "x"
     (by decide) (by decide) (by decide) (by decide)).2⟩

/-- C9, per-bucket finalization with verbatim fallback: when `processBucket(i)`
returns, on a workload built by `newWorkload` of which any buckets were
processed before, every coordinate listed in bucket `i` has the entry
`PROCESSED`; and if bucket `i` itself was not processed before and lists no
coordinate twice, every cell for which `evaluateCell` returned false has on the
Value Board the expression that `evaluateCell` left in it. -/
theorem processBucket_finalizes_bucket (tokens : List (List String)) (fuel : Nat)
    (wl0 wl wl2 : Workload) (order : List Nat) (i : Nat) (flags : List Bool) (b : Bucket)
    (h0 : newWorkload tokens fuel = .ok wl0) (h1 : wl0.processInOrder order = .ok wl)
    (h2 : wl.processBucketTraced i = .ok (wl2, flags)) (hb : wl2.buckets[i]? = some b) :
    flags.length = b.length ∧
    (∀ c ∈ b, boardGet wl2.ref c.row c.col = .ok PROCESSED) ∧
    (i ∉ order → (b.map Cell.coord).Nodup →
      ∀ (j : Nat) (c : Cell), b[j]? = some c → flags[j]? = some false →
        boardGet wl2.result c.row c.col = .ok c.expr) := by
  have hinv := processInOrder_inv (newWorkload_runInv order h0) h1
  obtain ⟨bi, hbi, hcoords, hlen, _, _, hdone, hval⟩ := processBucketTraced_spec h2
  obtain ⟨b2, hb2, hmap⟩ := coordinates_bucket hcoords hbi
  rw [hb] at hb2
  cases hb2
  have hlen2 : b.length = bi.length := by
    have := congrArg List.length hmap
    simpa using this
  refine ⟨by omega, ?_, ?_⟩
  · intro c hc
    obtain ⟨d, hd, hr, hcc⟩ := mem_of_map_coord_eq hmap hc
    rw [← hr, ← hcc]
    rcases hinv.status i bi hbi d hd with hst | ⟨_, hst⟩
    · exact hdone d hd _ hst (Or.inl (by omega))
    · exact hdone d hd _ hst (Or.inr rfl)
  · intro hi hnd j c hcj hflag
    rw [hmap] at hnd
    apply hval hnd _ j c b hb hcj hflag
    intro d hd
    rcases hinv.status i bi hbi d hd with hst | ⟨hmem, _⟩
    · exact ⟨i, hst, by omega⟩
    · exact absurd hmem hi

/-- Witness of `processBucket_finalizes_bucket`: on `exampleGrid`, after bucket
1 was processed, `evaluateCell` returns false for the only cell B1 of bucket 0
and leaves the expression `=1` in it; the Value Board receives `=1` at B1. -/
theorem processBucket_finalizes_bucket_witness :
    newWorkload exampleGrid 2 = .ok exampleWorkload ∧
    exampleWorkload.processInOrder [1] = .ok exampleWorkloadAfter1 ∧
    exampleWorkloadAfter1.processBucketTraced 0 = .ok (exampleWorkloadAfter10, [false]) ∧
    boardGet exampleWorkloadAfter10.ref 0 1 = .ok PROCESSED ∧
    boardGet exampleWorkloadAfter10.result 0 1 = .ok "=1" :=
  have key := processBucket_finalizes_bucket exampleGrid 2 exampleWorkload exampleWorkloadAfter1
    exampleWorkloadAfter10 [1] 0 [false] [⟨0, 1, "=1", [⟨0, 0⟩]⟩]
    (by decide) (by decide) (by decide) (by decide)
  ⟨by decide, by decide, by decide,
   key.2.1 ⟨0, 1, "=1", [⟨0, 0⟩]⟩ (by decide),
   key.2.2 (by decide) (by decide) 0 ⟨0, 1, "=1", [⟨0, 0⟩]⟩ (by decide) (by decide)⟩

/-! ## Reference extraction and evaluation on concrete inputs -/

/-- C12, cell-above operator: `findExprMatchesNotFollowedBy` returns the marker
of `=E^+1` and none for `=E^v`, but on `=E^`, where the marker ends the
expression, the slice `expr[3:4]` is out of bounds and the function panics; so
does `computeDependencies`, and with it `newWorkload` on the grid with rows `1`
and `=E^`, instead of adding the dependency on the cell above. -/
theorem marker_at_end_panics :
    findExprMatchesNotFollowedBy "=E^+1" .above "v" = .ok ["E^"] ∧
    findExprMatchesNotFollowedBy "=E^v" .above "v" = .ok [] ∧
    findExprMatchesNotFollowedBy "=E^" .above "v" = .error .panic ∧
    computeDependencies ⟨1, 0, "=E^", []⟩ ⟨[], [["1"], [""]], [[-1], [-2]]⟩ = .error .panic ∧
    newWorkload [["1"], ["=E^"]] 8 = .error .panic := by
  decide

/-- C16 as stated fails: on the grid `1 | =A1` the Value Board after
`runSequencially` is not `1 | 1`. -/
theorem scenario_a_not_evaluated :
    (newWorkload [["1", "=A1"]] 8 >>= Workload.runSequencially).map Workload.result
      ≠ .ok [["1", "1"]] := by
  decide

/-- C16 amended: on the grid `1 | =A1` the only bucket is bucket 0, and
processing it, by `runSequencially` or by the one goroutine of `parallelize`,
leaves the Value Board `1 | =1`: the reference is substituted and the text is
copied without evaluation. -/
theorem scenario_a_value_board :
    (newWorkload [["1", "=A1"]] 8 >>= Workload.runSequencially).map Workload.result
      = .ok [["1", "=1"]] ∧
    (newWorkload [["1", "=A1"]] 8).map Workload.launched = .ok [0] ∧
    (newWorkload [["1", "=A1"]] 8 >>= fun wl => wl.processInOrder [0]).map Workload.result
      = .ok [["1", "=1"]] := by
  decide

/-- C19, per-reference substitution: with A1 = `1` and B1 = `2` the expression
`=A1+B1` of C1 becomes `=1+1`: the value of the first reference replaces every
reference of the expression. -/
theorem first_value_replaces_all_references :
    (evaluateCell ⟨0, 2, "=A1+B1", [⟨0, 0⟩, ⟨0, 1⟩]⟩
        ⟨[[⟨0, 2, "=A1+B1", [⟨0, 0⟩, ⟨0, 1⟩]⟩]], [["1", "2", ""]], [[-1, -1, 0]]⟩).map
      (fun r => r.2.expr) = .ok "=1+1" ∧
    (newWorkload [["1", "2", "=A1+B1"]] 8 >>= Workload.runSequencially).map Workload.result
      = .ok [["1", "2", "=1+1"]] := by
  decide

/-! ## The dependency list of a cell -/

theorem addDependency_dependencies (cell : Cell) (r : CellRef) :
    (cell.addDependency r).dependencies =
      if r ∈ cell.dependencies then cell.dependencies else cell.dependencies ++ [r] := by
  unfold Cell.addDependency
  by_cases h : r ∈ cell.dependencies
  · have hany : cell.dependencies.any (fun ref => r == ref) = true := by
      rw [List.any_eq_true]
      exact ⟨r, h, by simp⟩
    simp [hany, h]
  · have hany : ¬ (cell.dependencies.any (fun ref => r == ref) = true) := by
      rw [List.any_eq_true]
      rintro ⟨x, hx, hrx⟩
      simp only [beq_iff_eq] at hrx
      subst hrx
      exact h hx
    simp [hany, h]

theorem foldl_addDependency (refs : List CellRef) :
    ∀ cell : Cell, (refs.foldl Cell.addDependency cell).dependencies =
      cell.dependencies ++
        (keepFirstOccurrences refs).filter (fun x => decide (x ∉ cell.dependencies)) := by
  induction refs with
  | nil =>
    intro cell
    simp [keepFirstOccurrences]
  | cons r rs ih =>
    intro cell
    rw [List.foldl_cons, ih, addDependency_dependencies]
    by_cases h : r ∈ cell.dependencies
    · rw [if_pos h]
      simp only [keepFirstOccurrences, List.filter_cons, h, not_true_eq_false, decide_False,
        Bool.false_eq_true, if_false, List.filter_filter]
      congr 1
      apply List.filter_congr
      intro x _
      by_cases hx : x ∈ cell.dependencies
      · simp [hx]
      · have hxr : x ≠ r := by
          intro hxr
          subst hxr
          exact hx h
        simp [hx, hxr]
    · rw [if_neg h]
      simp only [keepFirstOccurrences, List.filter_cons, h, not_false_eq_true, decide_True,
        if_true, List.filter_filter, List.append_assoc, List.singleton_append]
      congr 2
      apply List.filter_congr
      intro x _
      by_cases hx : x ∈ cell.dependencies
      · simp [hx]
      · by_cases hxr : x = r
        · simp [hx, hxr]
        · simp [hx, hxr]

theorem keepFirstOccurrences_nodup (refs : List CellRef) : (keepFirstOccurrences refs).Nodup := by
  induction refs with
  | nil => simp [keepFirstOccurrences]
  | cons r rs ih =>
    simp only [keepFirstOccurrences, List.nodup_cons]
    refine ⟨?_, ih.filter _⟩
    simp

/-- C13, dependency set unique and insertion-ordered: the references passed in
sequence to `addDependency` on a cell without dependencies leave the sequence
with every occurrence after the first of each coordinate removed, which lists
no coordinate twice; the expression `=A1+A1` yields A1 once. -/
theorem dependencies_unique_in_insertion_order (row col : Int) (expr : String)
    (refs : List CellRef) :
    (refs.foldl Cell.addDependency ⟨row, col, expr, []⟩).dependencies
      = keepFirstOccurrences refs ∧
    (refs.foldl Cell.addDependency ⟨row, col, expr, []⟩).dependencies.Nodup ∧
    (computeDependencies ⟨0, 1, "=A1+A1", []⟩ ⟨[], [["", ""]], [[-1, -2]]⟩).map
      Cell.dependencies = .ok [⟨0, 0⟩] := by
  have h := foldl_addDependency refs ⟨row, col, expr, []⟩
  simp only [List.not_mem_nil, not_false_eq_true, decide_True, List.filter_true,
    List.nil_append] at h
  refine ⟨h, ?_, by decide⟩
  rw [h]
  exact keepFirstOccurrences_nodup refs

/-! ## Bucket membership and the Status Board -/

theorem newWorkload_eq (tokens : List (List String)) (fuel : Nat) :
    newWorkload tokens fuel = (emptyWorkload tokens).createWorkloadBuckets tokens fuel := rfl

theorem scanned_sweepInv {tokens : List (List String)} {scanned : Workload}
    (hscan : Workload.scanLines tokens 0 (emptyWorkload tokens) = .ok scanned) :
    SweepInv tokens scanned scanned := by
  have hs := scanLines_spec (by rfl) hscan
  exact ⟨hs.agrees, hs.dynamic, rfl, fun _ _ _ => rfl⟩

/-- C20, bucket membership implies status: after the first loop of
`createWorkloadBuckets` and any number of iterations of the merge sweep, and
after `newWorkload` returns, every cell listed in bucket `i` has the Status
Board entry `i` at its coordinate. -/
theorem membership_implies_status (tokens : List (List String)) (fuel : Nat)
    (scanned swept wl : Workload) (indices : List Nat)
    (hscan : Workload.scanLines tokens 0 (emptyWorkload tokens) = .ok scanned)
    (hsweep : indices.foldlM (Workload.mergeBucket fuel) scanned = .ok swept)
    (hnew : newWorkload tokens fuel = .ok wl) :
    (∀ (i : Nat) (b : Bucket), swept.buckets[i]? = some b →
      ∀ c ∈ b, boardGet swept.ref c.row c.col = .ok (i : Int)) ∧
    (∀ (i : Nat) (b : Bucket), wl.buckets[i]? = some b →
      ∀ c ∈ b, boardGet wl.ref c.row c.col = .ok (i : Int)) := by
  have h1 : SweepInv tokens scanned swept :=
    foldlM_preserves (SweepInv tokens scanned) (Workload.mergeBucket fuel)
      (fun b a b2 hb hf => mergeBucket_inv hb hf) indices scanned swept
      (scanned_sweepInv hscan) hsweep
  exact ⟨h1.agrees, (newWorkload_spec hnew).1⟩

/-- Witness of `membership_implies_status`: on `mergeGrid`, after the iteration
for bucket 0 the cell B1 is listed in bucket 0 with the entry 0, and so it is
in the workload that `newWorkload` returns. -/
theorem membership_implies_status_witness :
    Workload.scanLines mergeGrid 0 (emptyWorkload mergeGrid) = .ok mergeScanned ∧
    [0].foldlM (Workload.mergeBucket 4) mergeScanned = .ok mergeSwept ∧
    newWorkload mergeGrid 4 = .ok mergeWorkload ∧
    boardGet mergeSwept.ref 0 1 = .ok ((0 : Nat) : Int) ∧
    boardGet mergeWorkload.ref 0 1 = .ok ((0 : Nat) : Int) :=
  have key := membership_implies_status mergeGrid 4 mergeScanned mergeSwept mergeWorkload [0]
    (by decide) (by decide) (by decide)
  ⟨by decide, by decide, by decide,
   key.1 0 [⟨0, 0, "=B1", [⟨0, 1⟩]⟩, ⟨0, 1, "=1", []⟩] (by decide) ⟨0, 1, "=1", []⟩ (by decide),
   key.2 0 [⟨0, 1, "=1", []⟩, ⟨0, 0, "=B1", [⟨0, 1⟩]⟩] (by decide) ⟨0, 1, "=1", []⟩ (by decide)⟩

/-! ## Parsing a reference -/

theorem upper_facts {c : Char} (h : isUpperAZ c = true) :
    isScanSpace c = false ∧ c ≠ '-' ∧ c ≠ '+' ∧ isDigit09 c = false := by
  unfold isUpperAZ at h
  simp only [Bool.and_eq_true, decide_eq_true_eq] at h
  refine ⟨?_, ?_, ?_, ?_⟩
  · unfold isScanSpace
    simp only [Bool.or_eq_false_iff, decide_eq_false_iff_not]
    omega
  · intro hc
    subst hc
    revert h
    decide
  · intro hc
    subst hc
    revert h
    decide
  · unfold isDigit09
    simp only [Bool.and_eq_false_imp, decide_eq_true_eq, decide_eq_false_iff_not]
    omega

theorem digit_facts {c : Char} (h : isDigit09 c = true) :
    isScanSpace c = false ∧ c ≠ '-' ∧ c ≠ '+' := by
  unfold isDigit09 at h
  simp only [Bool.and_eq_true, decide_eq_true_eq] at h
  refine ⟨?_, ?_, ?_⟩
  · unfold isScanSpace
    simp only [Bool.or_eq_false_iff, decide_eq_false_iff_not]
    omega
  · intro hc
    subst hc
    revert h
    decide
  · intro hc
    subst hc
    revert h
    decide

theorem sign_skip {x : Char} (xs : List Char) (h1 : x ≠ '-') (h2 : x ≠ '+') :
    (match x :: xs with
      | '-' :: r => r
      | '+' :: r => r
      | r => r) = x :: xs ∧
    (match x :: xs with
      | '-' :: _ => true
      | _ => false) = false := by
  constructor
  · split
    · rename_i heq
      simp only [List.cons.injEq] at heq
      exact absurd heq.1 h1
    · rename_i heq
      simp only [List.cons.injEq] at heq
      exact absurd heq.1 h2
    · rfl
  · split
    · rename_i heq
      simp only [List.cons.injEq] at heq
      exact absurd heq.1 h1
    · rfl

theorem wrapInt64_id {x : Int} (h1 : -9223372036854775808 ≤ x) (h2 : x ≤ 9223372036854775807) :
    wrapInt64 x = x := by
  unfold wrapInt64
  omega

/-- C11 as stated fails: the match `AA1` of `[A-Z]+\d+` ends the run with
`INVALID_EXPRESSION_ERROR`, and so does `A9223372036854775808`, whose digits
exceed a 64-bit `int`; `A1` and `C12` parse. -/
theorem two_letter_reference_aborts :
    newCellRefFromString "AA1" = .error (.exit INVALID_EXPRESSION_ERROR) ∧
    newCellRefFromString "A9223372036854775808" = .error (.exit INVALID_EXPRESSION_ERROR) ∧
    newCellRefFromString "A1" = .ok ⟨0, 0⟩ ∧
    newCellRefFromString "C12" = .ok ⟨11, 2⟩ := by
  decide

/-- C11 amended: on a string made of a first letter `L`, further uppercase
letters and then one or more decimal digits, `newCellRefFromString` returns
row = (value of the digits) - 1 and column = `L - 'A'` when there is no further
letter and the value is at most 2^63 - 1, and ends the run with
`INVALID_EXPRESSION_ERROR` otherwise. -/
theorem reference_parsing (L : Char) (letters digits : List Char)
    (hls : ∀ l ∈ letters, isUpperAZ l = true) (hne : digits ≠ [])
    (hds : ∀ d ∈ digits, isDigit09 d = true) :
    newCellRefFromString (String.mk (L :: (letters ++ digits))) =
      if letters = [] ∧ (digitsValue digits : Int) ≤ maxInt64 then
        .ok ⟨(digitsValue digits : Int) - 1, (L.toNat : Int) - 65⟩
      else .error (.exit INVALID_EXPRESSION_ERROR) := by
  unfold newCellRefFromString
  cases letters with
  | nil =>
    cases digits with
    | nil => exact absurd rfl hne
    | cons d ds =>
      have hdd := digit_facts (hds d (by simp))
      have hs := sign_skip ds hdd.2.1 hdd.2.2
      have htake : List.takeWhile isDigit09 (d :: ds) = d :: ds := by
        rw [List.takeWhile_eq_self_iff]
        intro x hx
        exact hds x hx
      simp only [String.toList, List.nil_append, List.dropWhile_cons, hdd.1, Bool.false_eq_true,
        if_false, hs.1, hs.2, htake, List.length_cons, Nat.add_one_ne_zero, true_and]
      by_cases hv : (digitsValue (d :: ds) : Int) ≤ maxInt64
      · have hnot : ¬ ((digitsValue (d :: ds) : Int) < -maxInt64 - 1 ∨
            maxInt64 < (digitsValue (d :: ds) : Int)) := by
          unfold maxInt64 at hv ⊢
          omega
        rw [if_neg hnot, if_pos hv, wrapInt64_id]
        · omega
        · unfold maxInt64 at hv
          omega
      · have hyes : (digitsValue (d :: ds) : Int) < -maxInt64 - 1 ∨
            maxInt64 < (digitsValue (d :: ds) : Int) := by
          right
          omega
        rw [if_pos hyes, if_neg hv]
  | cons l ls =>
    have hll := upper_facts (hls l (by simp))
    have hs := sign_skip (ls ++ digits) hll.2.1 hll.2.2.1
    simp only [String.toList, List.cons_append, List.dropWhile_cons, hll.1, Bool.false_eq_true,
      if_false, hs.1, hs.2, List.takeWhile_cons, hll.2.2.2, List.length_nil, if_true]
    rw [if_neg]
    rintro ⟨hnil, _⟩
    cases hnil

/-- Witness of `reference_parsing`: the reference `C12`. -/
theorem reference_parsing_witness :
    newCellRefFromString "C12" = .ok ⟨11, 2⟩ :=
  reference_parsing 'C' [] ['1', '2'] (by decide) (by decide) (by decide)

/-! ## Grids whose dependencies are all static -/

theorem scanToken_cases {wl wl2 : Workload} {row col : Nat} {expr : String}
    (hs : wl.scanToken row col expr = .ok wl2) :
    (isDynamic expr = true ∧ ∃ cell : Cell, cell.row = row ∧ cell.col = col ∧
      wl2.buckets = wl.buckets ++ [[cell]] ∧ wl2.result = wl.result ∧
      boardSet wl.ref row col (wl.buckets.length : Int) = .ok wl2.ref) ∨
    (isDynamic expr = false ∧ wl2.buckets = wl.buckets ∧
      boardSet wl.result row col expr = .ok wl2.result ∧
      boardSet wl.ref row col PROCESSED = .ok wl2.ref) := by
  unfold Workload.scanToken at hs
  split at hs
  · rename_i tl heq
    left
    have hdyn : isDynamic expr = true := by
      unfold isDynamic
      rw [heq]
      rfl
    rw [bind_ok_iff] at hs
    obtain ⟨cell, hcell, hs⟩ := hs
    rw [bind_ok_iff] at hs
    obtain ⟨ref2, href, hs⟩ := hs
    rw [pure_ok_iff] at hs
    subst hs
    have hcoord := computeDependencies_coord hcell
    simp only at hcoord
    have hlen : (((wl.buckets ++ [[cell]]).length : Int) - 1) = (wl.buckets.length : Int) := by
      simp
    rw [hlen] at href
    exact ⟨hdyn, cell, hcoord.1, hcoord.2, rfl, rfl, href⟩
  · rename_i hnot
    right
    have hstatic : isDynamic expr = false := by
      unfold isDynamic
      split
      · rename_i tl heq
        exact absurd heq (hnot tl)
      · rfl
    rw [bind_ok_iff] at hs
    obtain ⟨result2, hres, hs⟩ := hs
    rw [bind_ok_iff] at hs
    obtain ⟨ref2, href, hs⟩ := hs
    rw [pure_ok_iff] at hs
    subst hs
    exact ⟨hstatic, rfl, hres, href⟩

theorem boardSet_shape {α : Type} {board board2 : List (List α)} {row col : Int} {v : α}
    (h : boardSet board row col v = .ok board2) :
    board2.map List.length = board.map List.length := by
  unfold boardSet at h
  split at h
  · cases h
  · split at h
    · cases h
    · rename_i cells hcells
      split at h
      · cases h
        apply map_set_same _ _ _ cells _ hcells
        simp
      · cases h

theorem scanToken_facts {wl wl2 : Workload} {row col : Nat} {expr : String}
    (hs : wl.scanToken row col expr = .ok wl2) :
    wl2.result.map List.length = wl.result.map List.length ∧
    (∀ r c : Int, ¬ (r = row ∧ c = col) → boardGet wl2.ref r c = boardGet wl.ref r c) ∧
    (isDynamic expr = false → boardGet wl2.ref row col = .ok PROCESSED) ∧
    wl2.coordinates = wl.coordinates ++
      (if isDynamic expr = true then [[((row : Int), (col : Int))]] else []) := by
  rcases scanToken_cases hs with ⟨hdyn, cell, hr, hc, hb, hres, href⟩ | ⟨hst, hb, hres, href⟩
  · refine ⟨by rw [hres], fun r c hne => boardSet_get_other href r c hne, ?_, ?_⟩
    · intro hst
      rw [hdyn] at hst
      cases hst
    · unfold Workload.coordinates
      rw [hb, if_pos hdyn]
      simp [Cell.coord, hr, hc]
  · refine ⟨boardSet_shape hres, fun r c hne => boardSet_get_other href r c hne,
      fun _ => boardSet_get_same href, ?_⟩
    unfold Workload.coordinates
    rw [hb, if_neg (by rw [hst]; simp)]
    simp

theorem scanLine_facts (row : Nat) :
    ∀ (rest : List String) (col : Nat) (wl wl2 : Workload),
      Workload.scanLine row rest col wl = .ok wl2 →
      wl2.result.map List.length = wl.result.map List.length ∧
      (∀ r c : Int, ¬ (r = row ∧ (col : Int) ≤ c) → boardGet wl2.ref r c = boardGet wl.ref r c) ∧
      (∀ (k : Nat) (e : String), rest[k]? = some e → isDynamic e = false →
        boardGet wl2.ref row ((col + k : Nat) : Int) = .ok PROCESSED) ∧
      wl2.coordinates = wl.coordinates ++ (dynamicInLine row rest col).map (fun p => [p]) := by
  intro rest
  induction rest with
  | nil =>
    intro col wl wl2 h
    simp only [Workload.scanLine, Except.ok.injEq] at h
    subst h
    refine ⟨rfl, fun _ _ _ => rfl, ?_, by simp [dynamicInLine]⟩
    intro k e hk
    simp at hk
  | cons expr rest ih =>
    intro col wl wl2 h
    simp only [Workload.scanLine] at h
    rw [bind_ok_iff] at h
    obtain ⟨wl1, h1, h⟩ := h
    obtain ⟨hshape1, hframe1, hproc1, hcoords1⟩ := scanToken_facts h1
    obtain ⟨hshape, hframe, hproc, hcoords⟩ := ih (col + 1) wl1 wl2 h
    refine ⟨hshape.trans hshape1, ?_, ?_, ?_⟩
    · intro r c hne
      rw [hframe r c (by intro hh; apply hne; exact ⟨hh.1, by have := hh.2; push_cast at this; omega⟩)]
      exact hframe1 r c (by intro hh; apply hne; exact ⟨hh.1, by omega⟩)
    · intro k e hk hst
      cases k with
      | zero =>
        simp only [List.getElem?_cons_zero, Option.some.injEq] at hk
        subst hk
        rw [hframe row ((col + 0 : Nat) : Int) (by intro hh; have := hh.2; push_cast at this; omega)]
        exact hproc1 hst
      | succ k =>
        simp only [List.getElem?_cons_succ] at hk
        have := hproc k e hk hst
        have heq : col + 1 + k = col + (k + 1) := by omega
        rw [heq] at this
        exact this
    · rw [hcoords, hcoords1]
      simp only [dynamicInLine]
      split <;> simp

theorem scanLines_facts :
    ∀ (rest : List (List String)) (row : Nat) (wl wl2 : Workload),
      Workload.scanLines rest row wl = .ok wl2 →
      wl2.result.map List.length = wl.result.map List.length ∧
      (∀ r c : Int, r < row → boardGet wl2.ref r c = boardGet wl.ref r c) ∧
      (∀ (k j : Nat) (cells : List String) (e : String), rest[k]? = some cells →
        cells[j]? = some e → isDynamic e = false →
        boardGet wl2.ref ((row + k : Nat) : Int) (j : Int) = .ok PROCESSED) ∧
      wl2.coordinates = wl.coordinates ++ (dynamicFrom rest row).map (fun p => [p]) := by
  intro rest
  induction rest with
  | nil =>
    intro row wl wl2 h
    simp only [Workload.scanLines, Except.ok.injEq] at h
    subst h
    refine ⟨rfl, fun _ _ _ => rfl, ?_, by simp [dynamicFrom]⟩
    intro k j cells e hk
    simp at hk
  | cons line rest ih =>
    intro row wl wl2 h
    simp only [Workload.scanLines] at h
    rw [bind_ok_iff] at h
    obtain ⟨wl1, h1, h⟩ := h
    obtain ⟨hshape1, hframe1, hproc1, hcoords1⟩ := scanLine_facts row line 0 wl wl1 h1
    obtain ⟨hshape, hframe, hproc, hcoords⟩ := ih (row + 1) wl1 wl2 h
    refine ⟨hshape.trans hshape1, ?_, ?_, ?_⟩
    · intro r c hr
      rw [hframe r c (by push_cast; omega)]
      exact hframe1 r c (by intro hh; omega)
    · intro k j cells e hk hj hst
      cases k with
      | zero =>
        simp only [List.getElem?_cons_zero, Option.some.injEq] at hk
        subst hk
        rw [hframe ((row + 0 : Nat) : Int) j (by push_cast; omega)]
        have := hproc1 j e hj hst
        simpa using this
      | succ k =>
        simp only [List.getElem?_cons_succ] at hk
        have := hproc k j cells e hk hj hst
        have heq : row + 1 + k = row + (k + 1) := by omega
        rw [heq] at this
        exact this
    · rw [hcoords, hcoords1]
      simp [dynamicFrom]

theorem assertWithinBounds_of_shape {wl : Workload} {rows cols : Nat} {r c : Int} {v : String}
    (hshape : wl.result.map List.length = List.replicate rows cols)
    (hget : boardGet wl.result r c = .ok v) : wl.assertWithinBounds r c = .ok () := by
  unfold boardGet at hget
  split at hget
  · cases hget
  · rename_i hneg
    push_neg at hneg
    split at hget
    · cases hget
    · rename_i cells hcells
      split at hget
      · cases hget
      · rename_i v2 hv
        have hr : r.toNat < wl.result.length := by
          rcases List.getElem?_eq_some.mp hcells with ⟨hlt, _⟩
          exact hlt
        have hc : c.toNat < cells.length := by
          rcases List.getElem?_eq_some.mp hv with ⟨hlt, _⟩
          exact hlt
        have hlenAt : ∀ (k : Nat) (l : List String), wl.result[k]? = some l → l.length = cols := by
          intro k l hl
          have h1 : (wl.result.map List.length)[k]? = some l.length := by
            rw [List.getElem?_map, hl]
            rfl
          rw [hshape, List.getElem?_replicate] at h1
          split at h1
          · simp only [Option.some.injEq] at h1
            exact h1.symm
          · cases h1
        have hcols := hlenAt r.toNat cells hcells
        unfold Workload.assertWithinBounds
        have hcond : ¬ (r < 0 ∨ c < 0 ∨ r ≥ (wl.result.length : Int)) := by omega
        rw [if_neg hcond]
        cases h0 : wl.result[0]? with
        | none =>
          have : wl.result.length ≤ 0 := List.getElem?_eq_none_iff.mp h0
          omega
        | some line0 =>
          have h0len := hlenAt 0 line0 h0
          simp only
          rw [if_neg (by omega)]

theorem static_getCell {tokens : List (List String)} {scanned : Workload}
    (hscan : Workload.scanLines tokens 0 (emptyWorkload tokens) = .ok scanned)
    {r c : Int} (hst : isStaticAt tokens r c = true) :
    scanned.getCell ⟨r, c⟩ = .ok none := by
  unfold isStaticAt at hst
  cases htok : tokenAt tokens r c with
  | none =>
    rw [htok] at hst
    cases hst
  | some e =>
    rw [htok] at hst
    simp only [Bool.not_eq_true'] at hst
    have hs := scanLines_spec (by rfl) hscan
    obtain ⟨hshape, _, hproc, _⟩ := scanLines_facts tokens 0 _ scanned hscan
    have hres : boardGet scanned.result r c = .ok e := by
      apply hs.statics r c e _ htok hst
      left
      unfold tokenAt at htok
      split at htok
      · cases htok
      · split at htok
        · cases htok
        · rename_i cells hcells
          rcases List.getElem?_eq_some.mp hcells with ⟨hlt, _⟩
          omega
    have href : boardGet scanned.ref r c = .ok PROCESSED := by
      unfold tokenAt at htok
      split at htok
      · cases htok
      · rename_i hneg
        push_neg at hneg
        split at htok
        · cases htok
        · rename_i cells hcells
          have := hproc r.toNat c.toNat cells e hcells htok hst
          have hr : ((0 + r.toNat : Nat) : Int) = r := by omega
          have hc : ((c.toNat : Nat) : Int) = c := by omega
          rw [hr, hc] at this
          exact this
    have hshape2 : scanned.result.map List.length =
        List.replicate (calcBoardDimensions tokens).1 (calcBoardDimensions tokens).2 := by
      rw [hshape]
      simp [emptyWorkload, newResultBoard]
    have hassert := assertWithinBounds_of_shape hshape2 hres
    unfold Workload.getCell
    simp [hassert, href, bind, Except.bind, PROCESSED]

theorem appendPending_none (wl : Workload) :
    ∀ (refs : List CellRef) (result : List Cell),
      (∀ d ∈ refs, wl.getCell d = .ok none) → wl.appendPending refs result = .ok result := by
  intro refs
  induction refs with
  | nil =>
    intro result _
    rfl
  | cons d refs ih =>
    intro result h
    simp only [Workload.appendPending]
    rw [h d (by simp)]
    simp only [bind, Except.bind]
    exact ih result (fun x hx => h x (List.mem_cons_of_mem _ hx))

theorem getDependencyTree_leaf {wl : Workload} {seed : Cell} {fuel : Nat}
    (h : ∀ d ∈ seed.dependencies, wl.getCell d = .ok none) (hfuel : 1 ≤ fuel) :
    wl.getDependencyTree seed fuel = .ok [seed] := by
  unfold Workload.getDependencyTree
  cases fuel with
  | zero => omega
  | succ f =>
    simp only [Workload.treeLoop, List.getElem?_cons_zero]
    rw [appendPending_none wl _ _ h]
    simp only [bind, Except.bind]
    cases f with
    | zero => simp [Workload.treeLoop]
    | succ f => simp [Workload.treeLoop]

theorem set_same {α : Type} (l : List α) (i : Nat) (a : α) (h : l[i]? = some a) :
    l.set i a = l := by
  have := map_set_same id l i a a h rfl
  simpa using this

theorem mergeBucket_leaf {wl : Workload} {seed : Cell} {fuel i : Nat}
    (hb : wl.buckets[i]? = some [seed])
    (h : ∀ d ∈ seed.dependencies, wl.getCell d = .ok none) (hfuel : 1 ≤ fuel) :
    wl.mergeBucket fuel i = .ok wl := by
  unfold Workload.mergeBucket
  rw [hb]
  simp only
  rw [getDependencyTree_leaf h hfuel]
  simp only [bind, Except.bind, collectOldBuckets, Workload.clearOldBuckets]
  rw [set_same _ _ _ hb]

theorem foldlM_fixed {α β : Type} (f : β → α → Except Fault β) (b : β) :
    ∀ l : List α, (∀ a ∈ l, f b a = .ok b) → l.foldlM f b = .ok b := by
  intro l
  induction l with
  | nil =>
    intro _
    rfl
  | cons a l ih =>
    intro h
    rw [List.foldlM_cons, h a (by simp)]
    simp only [bind, Except.bind]
    exact ih (fun x hx => h x (List.mem_cons_of_mem _ hx))

/-- C15, static-only dependencies give singleton buckets: when the first loop
of `createWorkloadBuckets` returns and every dependency of every cell it created
lies on a static token, `newWorkload` returns, for any fuel of at least 1, the
workload of the first loop unchanged, and its buckets list the dynamic
coordinates of the grid in row-major order, one coordinate per bucket. -/
theorem static_dependencies_give_singletons (tokens : List (List String)) (fuel : Nat)
    (scanned : Workload)
    (hscan : Workload.scanLines tokens 0 (emptyWorkload tokens) = .ok scanned)
    (hdeps : ∀ b ∈ scanned.buckets, ∀ c ∈ b, ∀ d ∈ c.dependencies,
      isStaticAt tokens d.row d.col = true)
    (hfuel : 1 ≤ fuel) :
    newWorkload tokens fuel = .ok scanned ∧
    scanned.coordinates = (dynamicCoords tokens).map (fun p => [p]) := by
  obtain ⟨_, _, _, hcoords⟩ := scanLines_facts tokens 0 _ scanned hscan
  have hcoords2 : scanned.coordinates = (dynamicCoords tokens).map (fun p => [p]) := by
    rw [hcoords]
    simp [emptyWorkload, Workload.coordinates, dynamicCoords]
  have hsingle : ∀ (i : Nat) (b : Bucket), scanned.buckets[i]? = some b → ∃ c, b = [c] := by
    intro i b hb
    have h1 : scanned.coordinates[i]? = some (b.map Cell.coord) := by
      unfold Workload.coordinates
      rw [List.getElem?_map, hb]
      rfl
    rw [hcoords2, List.getElem?_map] at h1
    cases hp : (dynamicCoords tokens)[i]? with
    | none =>
      rw [hp] at h1
      cases h1
    | some p =>
      rw [hp] at h1
      simp only [Option.map_some', Option.some.injEq] at h1
      cases b with
      | nil => simp at h1
      | cons c rest =>
        cases rest with
        | nil => exact ⟨c, rfl⟩
        | cons c2 rest2 => simp at h1
  have hsweep : scanned.mergeSweep fuel = .ok scanned := by
    unfold Workload.mergeSweep
    apply foldlM_fixed
    intro i hi
    rw [List.mem_range] at hi
    have hb : scanned.buckets[i]? = some scanned.buckets[i] := List.getElem?_eq_getElem hi
    obtain ⟨c, hc⟩ := hsingle i _ hb
    rw [hc] at hb
    apply mergeBucket_leaf hb _ hfuel
    intro d hd
    exact static_getCell hscan (hdeps [c] (mem_of_getElem? hb) c (by simp) d hd)
  have hinv : scanned.invertBuckets = scanned := by
    unfold Workload.invertBuckets
    have : scanned.buckets.map List.reverse = scanned.buckets := by
      apply List.ext_getElem?
      intro i
      rw [List.getElem?_map]
      cases hb : scanned.buckets[i]? with
      | none => rfl
      | some b =>
        obtain ⟨c, hc⟩ := hsingle i b hb
        subst hc
        rfl
    rw [this]
  refine ⟨?_, hcoords2⟩
  rw [newWorkload_eq]
  unfold Workload.createWorkloadBuckets
  rw [hscan]
  simp only [bind, Except.bind]
  rw [hsweep]
  simp only [pure, Except.pure]
  rw [hinv]

/-- Witness of `static_dependencies_give_singletons`: Scenario A, the grid
`1 | =A1`, whose only bucket holds B1 alone. -/
theorem static_dependencies_give_singletons_witness :
    newWorkload [["1", "=A1"]] 1
      = .ok ⟨[[⟨0, 1, "=A1", [⟨0, 0⟩]⟩]], [["1", ""]], [[-1, 0]]⟩ ∧
    (⟨[[⟨0, 1, "=A1", [⟨0, 0⟩]⟩]], [["1", ""]], [[-1, 0]]⟩ : Workload).coordinates
      = (dynamicCoords [["1", "=A1"]]).map (fun p => [p]) :=
  static_dependencies_give_singletons [["1", "=A1"]] 1
    ⟨[[⟨0, 1, "=A1", [⟨0, 0⟩]⟩]], [["1", ""]], [[-1, 0]]⟩ (by decide) (by decide) (by decide)

/-! ## The traversal of `getDependencyTree` -/

theorem mem_pendingOf {wl : Workload} {refs : List CellRef} {d : Cell} :
    d ∈ wl.pendingOf refs ↔ ∃ ref ∈ refs, wl.getCell ref = .ok (some d) := by
  unfold Workload.pendingOf
  rw [List.mem_filterMap]
  constructor
  · rintro ⟨ref, href, h⟩
    refine ⟨ref, href, ?_⟩
    split at h
    · rename_i d2 heq
      simp only [Option.some.injEq] at h
      subst h
      exact heq
    · cases h
  · rintro ⟨ref, href, h⟩
    exact ⟨ref, href, by rw [h]⟩

theorem appendPending_ok (wl : Workload) :
    ∀ (refs : List CellRef) (result out : List Cell),
      wl.appendPending refs result = .ok out →
      out = result ++ wl.pendingOf refs ∧ ∀ ref ∈ refs, ∃ o, wl.getCell ref = .ok o := by
  intro refs
  induction refs with
  | nil =>
    intro result out h
    simp only [Workload.appendPending, Except.ok.injEq] at h
    subst h
    simp [Workload.pendingOf]
  | cons ref refs ih =>
    intro result out h
    simp only [Workload.appendPending] at h
    rw [bind_ok_iff] at h
    obtain ⟨o, ho, h⟩ := h
    cases o with
    | none =>
      obtain ⟨he, hall⟩ := ih result out h
      refine ⟨?_, ?_⟩
      · rw [he]
        simp [Workload.pendingOf, List.filterMap_cons, ho]
      · intro r hr
        rcases List.mem_cons.mp hr with hr | hr
        · subst hr
          exact ⟨none, ho⟩
        · exact hall r hr
    | some c =>
      obtain ⟨he, hall⟩ := ih (result ++ [c]) out h
      refine ⟨?_, ?_⟩
      · rw [he]
        simp [Workload.pendingOf, List.filterMap_cons, ho]
      · intro r hr
        rcases List.mem_cons.mp hr with hr | hr
        · subst hr
          exact ⟨some c, ho⟩
        · exact hall r hr

theorem appendPending_eq (wl : Workload) :
    ∀ (refs : List CellRef) (result : List Cell),
      (∀ ref ∈ refs, (wl.getCell ref).toBool = true) →
      wl.appendPending refs result = .ok (result ++ wl.pendingOf refs) := by
  intro refs
  induction refs with
  | nil =>
    intro result _
    simp [Workload.appendPending, Workload.pendingOf]
  | cons ref refs ih =>
    intro result h
    have href := h ref (by simp)
    have hrest := fun r hr => h r (List.mem_cons_of_mem _ hr)
    simp only [Workload.appendPending]
    cases ho : wl.getCell ref with
    | error e =>
      rw [ho] at href
      cases href
    | ok o =>
      cases o with
      | none =>
        simp only [bind, Except.bind]
        rw [ih result hrest]
        simp [Workload.pendingOf, List.filterMap_cons, ho]
      | some c =>
        simp only [bind, Except.bind]
        rw [ih (result ++ [c]) hrest]
        simp [Workload.pendingOf, List.filterMap_cons, ho]

theorem treeLoop_closure (wl : Workload) (seed : Cell) :
    ∀ (fuel i : Nat) (result out : List Cell),
      wl.treeLoop fuel i result = .ok out →
      (∀ c ∈ result, wl.Reach seed c) →
      (∀ (j : Nat) (c : Cell), j < i → result[j]? = some c →
        (∀ ref ∈ c.dependencies, ∃ o, wl.getCell ref = .ok o) ∧
        ∀ d, wl.Child c d → d ∈ result) →
      (∀ c ∈ out, wl.Reach seed c) ∧
      ∀ c ∈ out, (∀ ref ∈ c.dependencies, ∃ o, wl.getCell ref = .ok o) ∧
        ∀ d, wl.Child c d → d ∈ out := by
  intro fuel
  induction fuel with
  | zero =>
    intro i result out h hreach hclosed
    simp only [Workload.treeLoop] at h
    split at h
    · cases h
    · rename_i hlt
      simp only [Except.ok.injEq] at h
      subst h
      refine ⟨hreach, ?_⟩
      intro c hc
      obtain ⟨j, hj⟩ := List.getElem?_of_mem hc
      have hjl : j < result.length := by
        rcases List.getElem?_eq_some.mp hj with ⟨hlt2, _⟩
        exact hlt2
      exact hclosed j c (by omega) hj
  | succ fuel ih =>
    intro i result out h hreach hclosed
    simp only [Workload.treeLoop] at h
    split at h
    · rename_i hnone
      simp only [Except.ok.injEq] at h
      subst h
      refine ⟨hreach, ?_⟩
      intro c hc
      obtain ⟨j, hj⟩ := List.getElem?_of_mem hc
      have hjl : j < result.length := by
        rcases List.getElem?_eq_some.mp hj with ⟨hlt2, _⟩
        exact hlt2
      have : result.length ≤ i := List.getElem?_eq_none_iff.mp hnone
      exact hclosed j c (by omega) hj
    · rename_i ci hci
      rw [bind_ok_iff] at h
      obtain ⟨r1, h1, h⟩ := h
      obtain ⟨he, hall⟩ := appendPending_ok wl _ _ _ h1
      subst he
      have hil : i < result.length := by
        rcases List.getElem?_eq_some.mp hci with ⟨hlt2, _⟩
        exact hlt2
      apply ih (i + 1) _ out h
      · intro c hc
        rcases List.mem_append.mp hc with hc | hc
        · exact hreach c hc
        · obtain ⟨ref, href, hget⟩ := mem_pendingOf.mp hc
          exact Relation.ReflTransGen.tail (hreach ci (mem_of_getElem? hci)) ⟨ref, href, hget⟩
      · intro j c hj hjc
        by_cases hji : j < i
        · have hjc2 : result[j]? = some c := by
            rw [List.getElem?_append_left (by omega)] at hjc
            exact hjc
          obtain ⟨h1, h2⟩ := hclosed j c hji hjc2
          exact ⟨h1, fun d hd => List.mem_append_left _ (h2 d hd)⟩
        · have hji2 : j = i := by omega
          subst hji2
          rw [List.getElem?_append_left hil, hci] at hjc
          cases hjc
          refine ⟨hall, ?_⟩
          rintro d ⟨ref, href, hget⟩
          exact List.mem_append_right _ (mem_pendingOf.mpr ⟨ref, href, hget⟩)

theorem getDependencyTree_closure {wl : Workload} {seed : Cell} {fuel : Nat} {tree : List Cell}
    (h : wl.getDependencyTree seed fuel = .ok tree) :
    tree.head? = some seed ∧ (∀ c, c ∈ tree ↔ wl.Reach seed c) ∧
    ∀ c ∈ tree, ∀ ref ∈ c.dependencies, ∃ o, wl.getCell ref = .ok o := by
  obtain ⟨children, hc, _⟩ := getDependencyTree_spec h
  unfold Workload.getDependencyTree at h
  obtain ⟨hreach, hclosed⟩ := treeLoop_closure wl seed fuel 0 [seed] tree h
    (by
      intro c hc
      simp only [List.mem_singleton] at hc
      subst hc
      exact Relation.ReflTransGen.refl)
    (by
      intro j c hj
      omega)
  refine ⟨by rw [hc]; rfl, ?_, fun c hc => (hclosed c hc).1⟩
  intro c
  constructor
  · exact hreach c
  · intro hr
    induction hr with
    | refl =>
      rw [hc]
      simp
    | tail _ hchild ih => exact (hclosed _ ih).2 _ hchild

theorem forestSize_nil_inv {wl : Workload} {n : Nat} (h : wl.ForestSize [] n) : n = 0 := by
  cases h
  rfl

theorem forestSize_cons_inv {wl : Workload} {c : Cell} {cs : List Cell} {k : Nat}
    (h : wl.ForestSize (c :: cs) k) :
    ∃ n m, k = 1 + n + m ∧ wl.ForestSize (wl.pendingOf c.dependencies) n ∧
      wl.ForestSize cs m := by
  cases h with
  | cons _ _ n m h1 h2 => exact ⟨n, m, rfl, h1, h2⟩

theorem forestSize_append {wl : Workload} :
    ∀ (a b : List Cell) (na nb : Nat), wl.ForestSize a na → wl.ForestSize b nb →
      wl.ForestSize (a ++ b) (na + nb) := by
  intro a
  induction a with
  | nil =>
    intro b na nb ha hb
    rw [forestSize_nil_inv ha]
    simpa using hb
  | cons c cs ih =>
    intro b na nb ha hb
    obtain ⟨n, m, hk, h1, h2⟩ := forestSize_cons_inv ha
    have h3 := Workload.ForestSize.cons c (cs ++ b) n (m + nb) h1 (ih b m nb h2 hb)
    have heq : na + nb = 1 + n + (m + nb) := by omega
    rw [heq]
    exact h3

theorem reach_listed {wl : Workload} {seed c : Cell} (h : wl.Reach seed c) :
    c ∈ seed :: wl.buckets.flatten := by
  induction h with
  | refl => simp
  | tail _ hchild _ =>
    obtain ⟨ref, _, hget⟩ := hchild
    obtain ⟨idx, b, _, _, hb, hmem, _, _⟩ := getCell_some hget
    exact List.mem_cons_of_mem _ (List.mem_flatten.mpr ⟨b, mem_of_getElem? hb, hmem⟩)

theorem treeLoop_terminates (wl : Workload) (seed : Cell) (hres : wl.Resolves seed) :
    ∀ (n i : Nat) (result : List Cell),
      wl.ForestSize (result.drop i) n → (∀ c ∈ result, wl.Reach seed c) →
      ∃ out, wl.treeLoop n i result = .ok out := by
  intro n
  induction n with
  | zero =>
    intro i result hsize _
    cases hd : result.drop i with
    | nil =>
      have hlen : result.length ≤ i := List.drop_eq_nil_iff.mp hd
      refine ⟨result, ?_⟩
      simp only [Workload.treeLoop]
      rw [if_neg (by omega)]
    | cons c cs =>
      rw [hd] at hsize
      obtain ⟨n, m, hk, _, _⟩ := forestSize_cons_inv hsize
      omega
  | succ n ih =>
    intro i result hsize hreach
    cases hd : result.drop i with
    | nil =>
      have hlen : result.length ≤ i := List.drop_eq_nil_iff.mp hd
      refine ⟨result, ?_⟩
      simp only [Workload.treeLoop]
      rw [List.getElem?_eq_none hlen]
    | cons c cs =>
      rw [hd] at hsize
      obtain ⟨n1, m1, hk, h1, h2⟩ := forestSize_cons_inv hsize
      have hil : i < result.length := by
        by_contra hcon
        have : result.drop i = [] := List.drop_eq_nil_iff.mpr (by omega)
        rw [this] at hd
        cases hd
      have hci : result[i]? = some c := by
        have h0 : (result.drop i)[0]? = some c := by rw [hd]; simp
        rw [List.getElem?_drop] at h0
        simpa using h0
      have hcs : result.drop (i + 1) = cs := by
        have h0 : (result.drop i).drop 1 = cs := by rw [hd]; rfl
        rw [List.drop_drop] at h0
        exact h0
      have hresc : ∀ ref ∈ c.dependencies, (wl.getCell ref).toBool = true :=
        hres c (reach_listed (hreach c (mem_of_getElem? hci)))
      simp only [Workload.treeLoop, hci]
      rw [appendPending_eq wl _ _ hresc]
      simp only [bind, Except.bind]
      apply ih (i + 1)
      · rw [List.drop_append_of_le_length (by omega), hcs]
        have h3 := forestSize_append cs _ m1 n1 h2 h1
        have heq : n = m1 + n1 := by omega
        rw [heq]
        exact h3
      · intro d hd2
        rcases List.mem_append.mp hd2 with hd2 | hd2
        · exact hreach d hd2
        · obtain ⟨ref, href, hget⟩ := mem_pendingOf.mp hd2
          exact Relation.ReflTransGen.tail (hreach c (mem_of_getElem? hci)) ⟨ref, href, hget⟩

theorem forestSize_of_all (wl : Workload) :
    ∀ l : List Cell, (∀ d ∈ l, ∃ n, wl.ForestSize [d] n) → ∃ n, wl.ForestSize l n := by
  intro l
  induction l with
  | nil =>
    intro _
    exact ⟨0, Workload.ForestSize.nil⟩
  | cons d rest ih =>
    intro h
    obtain ⟨n, hn⟩ := h d (by simp)
    obtain ⟨n1, m1, _, h1, _⟩ := forestSize_cons_inv hn
    obtain ⟨nr, hr⟩ := ih (fun x hx => h x (List.mem_cons_of_mem _ hx))
    exact ⟨1 + n1 + nr, Workload.ForestSize.cons d rest n1 nr h1 hr⟩

theorem forestSize_of_acc (wl : Workload) (c : Cell)
    (h : Acc (fun e d => wl.Child d e) c) : ∃ n, wl.ForestSize [c] n := by
  induction h with
  | intro c _ ih =>
    obtain ⟨n, hn⟩ := forestSize_of_all wl (wl.pendingOf c.dependencies)
      (fun d hd => ih d (mem_pendingOf.mp hd))
    exact ⟨1 + n + 0, Workload.ForestSize.cons c [] n 0 hn Workload.ForestSize.nil⟩

theorem acc_of_simple_path (wl : Workload) (seed : Cell) (hacyclic : ¬ wl.ReachesCycle seed) :
    ∀ (k : Nat) (path : List Cell) (c : Cell), path.Nodup →
      (∀ p ∈ path, p ∈ seed :: wl.buckets.flatten) → (∀ p ∈ path, wl.Reach p c) →
      wl.Reach seed c → (seed :: wl.buckets.flatten).length - path.length ≤ k →
      Acc (fun e d => wl.Child d e) c := by
  intro k
  induction k with
  | zero =>
    intro path c hnd hsub hreach hseed hk
    constructor
    intro d hd
    exfalso
    have hnotin : d ∉ path := by
      intro hin
      apply hacyclic
      exact ⟨d, Relation.ReflTransGen.tail hseed hd, Relation.TransGen.tail' (hreach d hin) hd⟩
    have hnd2 : (d :: path).Nodup := List.nodup_cons.mpr ⟨hnotin, hnd⟩
    have hsub2 : d :: path ⊆ seed :: wl.buckets.flatten := by
      intro x hx
      rcases List.mem_cons.mp hx with hx | hx
      · subst hx
        exact reach_listed (Relation.ReflTransGen.tail hseed hd)
      · exact hsub x hx
    have hlen := (List.Nodup.subperm hnd2 hsub2).length_le
    simp only [List.length_cons] at hlen hk
    omega
  | succ k ih =>
    intro path c hnd hsub hreach hseed hk
    constructor
    intro d hd
    have hnotin : d ∉ path := by
      intro hin
      apply hacyclic
      exact ⟨d, Relation.ReflTransGen.tail hseed hd, Relation.TransGen.tail' (hreach d hin) hd⟩
    have hnd2 : (d :: path).Nodup := List.nodup_cons.mpr ⟨hnotin, hnd⟩
    have hsub2 : ∀ p ∈ d :: path, p ∈ seed :: wl.buckets.flatten := by
      intro x hx
      rcases List.mem_cons.mp hx with hx | hx
      · subst hx
        exact reach_listed (Relation.ReflTransGen.tail hseed hd)
      · exact hsub x hx
    apply ih (d :: path) d hnd2 hsub2
    · intro p hp
      rcases List.mem_cons.mp hp with hp | hp
      · subst hp
        exact Relation.ReflTransGen.refl
      · exact Relation.ReflTransGen.tail (hreach p hp) hd
    · exact Relation.ReflTransGen.tail hseed hd
    · simp only [List.length_cons] at hk ⊢
      omega

theorem terminates_of_acyclic {wl : Workload} {seed : Cell} (hres : wl.Resolves seed)
    (hacyclic : ¬ wl.ReachesCycle seed) :
    ∃ fuel tree, wl.getDependencyTree seed fuel = .ok tree := by
  have hacc : Acc (fun e d => wl.Child d e) seed :=
    acc_of_simple_path wl seed hacyclic _ [seed] seed (by simp) (by simp)
      (by
        intro p hp
        simp only [List.mem_singleton] at hp
        subst hp
        exact Relation.ReflTransGen.refl)
      Relation.ReflTransGen.refl (Nat.le_refl _)
  obtain ⟨n, hn⟩ := forestSize_of_acc wl seed hacc
  obtain ⟨out, hout⟩ := treeLoop_terminates wl seed hres n 0 [seed] (by simpa using hn)
    (by
      intro c hc
      simp only [List.mem_singleton] at hc
      subst hc
      exact Relation.ReflTransGen.refl)
  exact ⟨n, out, hout⟩

theorem reachesCycle_child {wl : Workload} {c : Cell} (h : wl.ReachesCycle c) :
    ∃ e, wl.Child c e ∧ wl.ReachesCycle e := by
  obtain ⟨d, hcd, hdd⟩ := h
  rcases Relation.ReflTransGen.cases_head hcd with heq | ⟨e, hce, hed⟩
  · subst heq
    obtain ⟨e, hce, hec⟩ := Relation.TransGen.head'_iff.mp hdd
    exact ⟨e, hce, c, hec, hdd⟩
  · exact ⟨e, hce, d, hed, hdd⟩

theorem treeLoop_diverges (wl : Workload) (seed : Cell) (hres : wl.Resolves seed) :
    ∀ (fuel i : Nat) (result : List Cell), (∀ c ∈ result, wl.Reach seed c) →
      (∃ (j : Nat) (c : Cell), i ≤ j ∧ result[j]? = some c ∧ wl.ReachesCycle c) →
      wl.treeLoop fuel i result = .error .outOfFuel := by
  intro fuel
  induction fuel with
  | zero =>
    intro i result _ hcyc
    obtain ⟨j, c, hij, hj, _⟩ := hcyc
    have hjl : j < result.length := by
      rcases List.getElem?_eq_some.mp hj with ⟨hlt, _⟩
      exact hlt
    simp only [Workload.treeLoop]
    rw [if_pos (by omega)]
  | succ fuel ih =>
    intro i result hreach hcyc
    obtain ⟨j, c, hij, hj, hc⟩ := hcyc
    have hjl : j < result.length := by
      rcases List.getElem?_eq_some.mp hj with ⟨hlt, _⟩
      exact hlt
    have hil : i < result.length := by omega
    have hci : result[i]? = some result[i] := List.getElem?_eq_getElem hil
    have hresc : ∀ ref ∈ (result[i]).dependencies, (wl.getCell ref).toBool = true :=
      hres _ (reach_listed (hreach _ (mem_of_getElem? hci)))
    simp only [Workload.treeLoop, hci]
    rw [appendPending_eq wl _ _ hresc]
    simp only [bind, Except.bind]
    apply ih (i + 1)
    · intro d hd
      rcases List.mem_append.mp hd with hd | hd
      · exact hreach d hd
      · obtain ⟨ref, href, hget⟩ := mem_pendingOf.mp hd
        exact Relation.ReflTransGen.tail (hreach _ (mem_of_getElem? hci)) ⟨ref, href, hget⟩
    · by_cases hji : j = i
      · subst hji
        rw [hci] at hj
        simp only [Option.some.injEq] at hj
        obtain ⟨e, hce, hecyc⟩ := reachesCycle_child hc
        rw [← hj] at hce
        obtain ⟨ref, href, hget⟩ := hce
        have hmem : e ∈ wl.pendingOf (result[j]).dependencies :=
          mem_pendingOf.mpr ⟨ref, href, hget⟩
        obtain ⟨k, hk⟩ := List.getElem?_of_mem hmem
        refine ⟨result.length + k, e, by omega, ?_, hecyc⟩
        rw [List.getElem?_append_right (by omega)]
        simpa using hk
      · refine ⟨j, c, by omega, ?_, hc⟩
        rw [List.getElem?_append_left hjl]
        exact hj

theorem diverges_of_cycle {wl : Workload} {seed : Cell} (hres : wl.Resolves seed)
    (hcyc : wl.ReachesCycle seed) (fuel : Nat) :
    wl.getDependencyTree seed fuel = .error .outOfFuel := by
  unfold Workload.getDependencyTree
  apply treeLoop_diverges wl seed hres
  · intro c hc
    simp only [List.mem_singleton] at hc
    subst hc
    exact Relation.ReflTransGen.refl
  · exact ⟨0, seed, Nat.le_refl _, rfl, hcyc⟩

/-- C17, termination exactly on acyclic input: in a workload where `getCell`
returns for every dependency coordinate, `getDependencyTree(seed)` returns, for
some fuel, exactly when no dependency cycle through pending cells is reachable
from the seed; when such a cycle is reachable the traversal exhausts every
fuel. -/
theorem traversal_terminates_iff_acyclic (wl : Workload) (seed : Cell)
    (hres : wl.Resolves seed) :
    ((∃ fuel tree, wl.getDependencyTree seed fuel = .ok tree) ↔ ¬ wl.ReachesCycle seed) ∧
    (wl.ReachesCycle seed → ∀ fuel, wl.getDependencyTree seed fuel = .error .outOfFuel) := by
  refine ⟨⟨?_, terminates_of_acyclic hres⟩, fun hcyc fuel => diverges_of_cycle hres hcyc fuel⟩
  rintro ⟨fuel, tree, htree⟩ hcyc
  rw [diverges_of_cycle hres hcyc fuel] at htree
  cases htree

/-- Witness of `traversal_terminates_iff_acyclic`: the cell A1 = `=A1`, pending
in bucket 0, reaches itself, and the traversal from it exhausts the fuel 100. -/
theorem traversal_terminates_iff_acyclic_witness :
    (⟨[[⟨0, 0, "=A1", [⟨0, 0⟩]⟩]], [[""]], [[0]]⟩ : Workload).getDependencyTree
      ⟨0, 0, "=A1", [⟨0, 0⟩]⟩ 100 = .error .outOfFuel :=
  (traversal_terminates_iff_acyclic ⟨[[⟨0, 0, "=A1", [⟨0, 0⟩]⟩]], [[""]], [[0]]⟩
    ⟨0, 0, "=A1", [⟨0, 0⟩]⟩ (by unfold Workload.Resolves; decide)).2
    ⟨⟨0, 0, "=A1", [⟨0, 0⟩]⟩, Relation.ReflTransGen.refl,
      Relation.TransGen.single ⟨⟨0, 0⟩, by decide, by decide⟩⟩ 100

theorem getCell_pending {wl : Workload} {ref : CellRef} {o : Option Cell} {i : Int}
    (hget : wl.getCell ref = .ok o) (hi : boardGet wl.ref ref.row ref.col = .ok i)
    (hpos : 0 ≤ i)
    (hpresent : ∃ b, wl.buckets[i.toNat]? = some b ∧ ∃ d ∈ b, d.row = ref.row ∧ d.col = ref.col) :
    ∃ d, o = some d := by
  unfold Workload.getCell at hget
  rw [bind_ok_iff] at hget
  obtain ⟨_, _, hget⟩ := hget
  rw [bind_ok_iff] at hget
  obtain ⟨idx, hidx, hget⟩ := hget
  rw [hi] at hidx
  simp only [Except.ok.injEq] at hidx
  subst hidx
  rw [if_pos hpos] at hget
  obtain ⟨b, hb, d, hd, hr, hc⟩ := hpresent
  rw [hb] at hget
  simp only [Except.ok.injEq] at hget
  cases o with
  | some d2 => exact ⟨d2, rfl⟩
  | none =>
    exfalso
    rw [List.find?_eq_none] at hget
    have := hget d hd
    simp [hr, hc] at this

/-- C18, closure completeness of the traversal: in a workload where `getCell`
returns for every dependency coordinate, every coordinate with a bucket index
on the Status Board is present in that bucket, and no dependency cycle is
reachable from the seed, `getDependencyTree(seed)` returns for some fuel; the
list it returns begins with the seed, holds exactly the cells reachable from the
seed along dependency edges through pending cells, every member after the seed
is unresolved, and every unresolved dependency coordinate of a member is the
coordinate of a member. -/
theorem closure_completeness (wl : Workload) (seed : Cell)
    (hres : wl.Resolves seed) (hacyclic : ¬ wl.ReachesCycle seed)
    (hpresent : ∀ (r c i : Int), boardGet wl.ref r c = .ok i → 0 ≤ i →
      ∃ b, wl.buckets[i.toNat]? = some b ∧ ∃ d ∈ b, d.row = r ∧ d.col = c) :
    (∃ fuel tree, wl.getDependencyTree seed fuel = .ok tree) ∧
    ∀ fuel tree, wl.getDependencyTree seed fuel = .ok tree →
      tree.head? = some seed ∧ (∀ c, c ∈ tree ↔ wl.Reach seed c) ∧
      (∀ c ∈ tree.tail, ∃ i : Int, 0 ≤ i ∧ boardGet wl.ref c.row c.col = .ok i) ∧
      (∀ c ∈ tree, ∀ ref ∈ c.dependencies, ∀ i : Int,
        boardGet wl.ref ref.row ref.col = .ok i → 0 ≤ i →
        ∃ d ∈ tree, d.row = ref.row ∧ d.col = ref.col) := by
  refine ⟨terminates_of_acyclic hres hacyclic, ?_⟩
  intro fuel tree htree
  obtain ⟨hhead, hmem, hok⟩ := getDependencyTree_closure htree
  obtain ⟨children, hc, hall⟩ := getDependencyTree_spec htree
  refine ⟨hhead, hmem, ?_, ?_⟩
  · intro c hcm
    rw [hc] at hcm
    simp only [List.tail_cons] at hcm
    obtain ⟨ref, hget⟩ := hall c hcm
    obtain ⟨idx, b, hidx, hpos, _, _, hr, hcc⟩ := getCell_some hget
    rw [← hr, ← hcc] at hidx
    exact ⟨idx, hpos, hidx⟩
  · intro c hcm ref href i hi hpos
    obtain ⟨o, hget⟩ := hok c hcm ref href
    obtain ⟨d, hd⟩ := getCell_pending hget hi hpos (hpresent _ _ i hi hpos)
    subst hd
    obtain ⟨_, _, _, _, _, _, hr, hcc⟩ := getCell_some hget
    refine ⟨d, ?_, hr, hcc⟩
    exact (hmem d).mpr (Relation.ReflTransGen.tail ((hmem c).mp hcm) ⟨ref, href, hget⟩)

theorem mergeScanned_present (r c i : Int) (h : boardGet mergeScanned.ref r c = .ok i)
    (_ : 0 ≤ i) :
    ∃ b, mergeScanned.buckets[i.toNat]? = some b ∧ ∃ d ∈ b, d.row = r ∧ d.col = c := by
  unfold boardGet at h
  split at h
  · cases h
  · rename_i hneg
    push_neg at hneg
    obtain ⟨n, hn⟩ := Int.eq_ofNat_of_zero_le hneg.1
    obtain ⟨m, hm⟩ := Int.eq_ofNat_of_zero_le hneg.2
    subst hn
    subst hm
    simp only [Int.toNat_ofNat, mergeScanned] at h
    match n, m with
    | 0, 0 =>
      simp at h
      subst h
      exact ⟨_, rfl, _, List.mem_singleton.mpr rfl, rfl, rfl⟩
    | 0, 1 =>
      simp at h
      subst h
      exact ⟨_, rfl, _, List.mem_singleton.mpr rfl, rfl, rfl⟩
    | 0, 2 =>
      simp at h
      subst h
      exact ⟨_, rfl, _, List.mem_singleton.mpr rfl, rfl, rfl⟩
    | 0, k + 3 => simp at h
    | k + 1, _ => simp at h

/-- Witness of `closure_completeness`: in the workload of `mergeGrid` after the
first loop, the traversal from A1 returns A1 followed by B1, and its first
element is the seed A1. -/
theorem closure_completeness_witness :
    mergeScanned.getDependencyTree ⟨0, 0, "=B1", [⟨0, 1⟩]⟩ 4
      = .ok [⟨0, 0, "=B1", [⟨0, 1⟩]⟩, ⟨0, 1, "=1", []⟩] ∧
    ([⟨0, 0, "=B1", [⟨0, 1⟩]⟩, ⟨0, 1, "=1", []⟩] : List Cell).head?
      = some ⟨0, 0, "=B1", [⟨0, 1⟩]⟩ :=
  have hres : mergeScanned.Resolves ⟨0, 0, "=B1", [⟨0, 1⟩]⟩ := by
    unfold Workload.Resolves
    decide
  have hrun : mergeScanned.getDependencyTree ⟨0, 0, "=B1", [⟨0, 1⟩]⟩ 4
      = .ok [⟨0, 0, "=B1", [⟨0, 1⟩]⟩, ⟨0, 1, "=1", []⟩] := by decide
  have hacyclic : ¬ mergeScanned.ReachesCycle ⟨0, 0, "=B1", [⟨0, 1⟩]⟩ := by
    intro hcyc
    rw [diverges_of_cycle hres hcyc 4] at hrun
    cases hrun
  ⟨hrun, ((closure_completeness mergeScanned ⟨0, 0, "=B1", [⟨0, 1⟩]⟩ hres hacyclic
    mergeScanned_present).2 4 _ hrun).1⟩

/-! ## The propagate-from-above rewrite -/

theorem computeDependencies_eq (cell : Cell) (wl : Workload) :
    computeDependencies cell wl = propagateFromAbove cell wl >>= extractDependencies := rfl

/-- The segment `l[a:b]` of a list. -/
theorem seg_append {α : Type} (l : List α) (a b c : Nat) (hab : a ≤ b) (hbc : b ≤ c) :
    (l.drop a).take (c - a) = (l.drop a).take (b - a) ++ (l.drop b).take (c - b) := by
  have h1 : c - a = (b - a) + (c - b) := by omega
  have h2 : l.drop b = (l.drop a).drop (b - a) := by
    rw [List.drop_drop]
    congr 1
    omega
  rw [h1, h2, List.take_add]

theorem seg_one {α : Type} (l : List α) (pos : Nat) (c : α) (cs : List α)
    (h : l.drop pos = c :: cs) : (l.drop pos).take (pos + 1 - pos) = [c] := by
  rw [h]
  have : pos + 1 - pos = 1 := by omega
  rw [this]
  rfl

theorem drop_succ_of_cons {α : Type} (l : List α) (pos : Nat) (c : α) (cs : List α)
    (h : l.drop pos = c :: cs) : l.drop (pos + 1) = cs := by
  have h0 : (l.drop pos).drop 1 = cs := by rw [h]; rfl
  rw [List.drop_drop] at h0
  exact h0

theorem incExprNumberLoop_spec (p : Pattern) (expr : String)
    (hb : ∀ s g0 g1 n, p.matchAt s = some (g0, g1, n) → g0 ≤ g1 ∧ g1 ≤ n ∧ n ≤ s.length) :
    ∀ (s : List Char) (pos skip i : Nat) (acc : String) (t : List Char),
      expr.toList.drop pos = s → pos ≤ expr.toList.length → i ≤ pos + skip →
      skip ≤ s.length → incrementScan p.matchAt s skip = .ok t →
      ∃ iEnd accEnd, incExprNumberLoop expr (p.scan s pos skip) i acc = .ok (iEnd, accEnd) ∧
        iEnd ≤ expr.toList.length ∧
        accEnd.toList ++ expr.toList.drop iEnd =
          acc.toList ++ (expr.toList.drop i).take (pos + skip - i) ++ t := by
  intro s
  induction s with
  | nil =>
    intro pos skip i acc t hs hpos hi hskip ht
    simp only [List.length_nil, Nat.le_zero_eq] at hskip
    subst hskip
    simp only [incrementScan, Except.ok.injEq] at ht
    subst ht
    have hlen : expr.toList.length ≤ pos := List.drop_eq_nil_iff.mp hs
    refine ⟨i, acc, by simp [Pattern.scan, incExprNumberLoop], by omega, ?_⟩
    rw [List.append_nil, List.take_of_length_le]
    simp only [List.length_drop]
    omega
  | cons c cs ih =>
    intro pos skip i acc t hs hpos hi hskip ht
    have hcs := drop_succ_of_cons _ _ _ _ hs
    have hlen : expr.toList.length = pos + (cs.length + 1) := by
      have := congrArg List.length hs
      simp only [List.length_drop, List.length_cons] at this
      omega
    cases skip with
    | succ skip =>
      simp only [incrementScan] at ht
      simp only [List.length_cons] at hskip
      obtain ⟨iEnd, accEnd, h1, h2, h3⟩ :=
        ih (pos + 1) skip i acc t hcs (by omega) (by omega) (by omega) ht
      refine ⟨iEnd, accEnd, by simpa [Pattern.scan] using h1, h2, ?_⟩
      rw [h3]
      congr 3
      omega
    | zero =>
      have hone : (expr.toList.drop i).take (pos + 1 - i) =
          (expr.toList.drop i).take (pos + 0 - i) ++ [c] := by
        rw [seg_append _ i pos (pos + 1) (by omega) (by omega), seg_one _ pos c cs hs]
        rfl
      cases hm : p.matchAt (c :: cs) with
      | none =>
        simp only [incrementScan, hm] at ht
        cases hrest : incrementScan p.matchAt cs 0 with
        | error e =>
          rw [hrest] at ht
          cases ht
        | ok rest =>
          rw [hrest] at ht
          simp only [Except.ok.injEq] at ht
          subst ht
          obtain ⟨iEnd, accEnd, h1, h2, h3⟩ :=
            ih (pos + 1) 0 i acc rest hcs (by omega) (by omega) (by omega) hrest
          refine ⟨iEnd, accEnd, by simpa [Pattern.scan, hm] using h1, h2, ?_⟩
          rw [h3, Nat.add_zero, hone]
          simp
      | some m =>
        obtain ⟨g0, g1, n⟩ := m
        obtain ⟨hg01, hg1n, hnl⟩ := hb _ _ _ _ hm
        simp only [List.length_cons] at hnl
        cases n with
        | zero =>
          simp only [incrementScan, hm] at ht
          cases hrest : incrementScan p.matchAt cs 0 with
          | error e =>
            rw [hrest] at ht
            cases ht
          | ok rest =>
            rw [hrest] at ht
            simp only [Except.ok.injEq] at ht
            subst ht
            obtain ⟨iEnd, accEnd, h1, h2, h3⟩ :=
              ih (pos + 1) 0 i acc rest hcs (by omega) (by omega) (by omega) hrest
            refine ⟨iEnd, accEnd, by simpa [Pattern.scan, hm] using h1, h2, ?_⟩
            rw [h3, Nat.add_zero, hone]
            simp
        | succ n =>
          simp only [incrementScan, hm] at ht
          have hgrp : ((c :: cs).drop g0).take (g1 - g0) =
              (expr.toList.drop (pos + g0)).take (pos + g1 - (pos + g0)) := by
            rw [← hs, List.drop_drop]
            congr 1
            omega
          cases hbump : bumpRun (((c :: cs).drop g0).take (g1 - g0)) with
          | error e =>
            rw [hbump] at ht
            cases ht
          | ok num =>
            rw [hbump] at ht
            simp only at ht
            cases hrest : incrementScan p.matchAt cs n with
            | error e =>
              rw [hrest] at ht
              cases ht
            | ok rest =>
              rw [hrest] at ht
              simp only [Except.ok.injEq] at ht
              subst ht
              unfold bumpRun at hbump
              split at hbump
              · cases hbump
              · rename_i hnot
                simp only [Except.ok.injEq] at hbump
                obtain ⟨v, hv⟩ : ∃ v : String, v = itoa (wrapInt64
                    ((digitsValue (((c :: cs).drop g0).take (g1 - g0)) : Int) + 1)) := ⟨_, rfl⟩
                rw [← hv] at hbump
                obtain ⟨iEnd, accEnd, h1, h2, h3⟩ :=
                  ih (pos + 1) n (pos + g1)
                    (acc ++ String.mk ((expr.toList.drop i).take (pos + g0 - i)) ++ v)
                    rest hcs (by omega) (by omega) (by omega) hrest
                refine ⟨iEnd, accEnd, ?_, h2, ?_⟩
                · simp only [Pattern.scan, hm, incExprNumberLoop, slice, sliceMatch]
                  have hcond : i ≤ pos + g0 ∧ pos + g0 ≤ expr.length := by
                    constructor
                    · omega
                    · show pos + g0 ≤ expr.toList.length
                      omega
                  rw [if_pos hcond]
                  simp only [String.toList] at hgrp hnot h1 ⊢
                  rw [← hgrp, if_neg hnot, ← hv]
                  exact h1
                · rw [h3]
                  simp only [String.toList, String.data_append] at hbump ⊢
                  rw [hbump]
                  have e1 : (expr.data.drop i).take (pos + g0 - i) =
                      (expr.data.drop i).take (pos + 0 - i) ++ (c :: cs).take g0 := by
                    rw [seg_append _ i pos (pos + g0) (by omega) (by omega)]
                    have hs2 : expr.data.drop pos = c :: cs := hs
                    rw [hs2]
                    congr 2
                    omega
                  have e2 : (expr.data.drop (pos + g1)).take (pos + 1 + n - (pos + g1)) =
                      ((c :: cs).drop g1).take (n + 1 - g1) := by
                    have hs2 : expr.data.drop pos = c :: cs := hs
                    rw [← hs2, List.drop_drop]
                    congr 1
                    omega
                  rw [e1, e2]
                  simp only [List.append_assoc]

theorem stripLit_some : ∀ (lit s r : List Char), stripLit lit s = some r → s = lit ++ r := by
  intro lit
  induction lit with
  | nil =>
    intro s r h
    simp only [stripLit, Option.some.injEq] at h
    simp [h]
  | cons l ls ih =>
    intro s r h
    cases s with
    | nil => simp [stripLit] at h
    | cons c cs =>
      simp only [stripLit] at h
      split at h
      · rename_i hlc
        rw [hlc, ih cs r h]
        rfl
      · cases h

theorem cellRefNum_match {s : List Char} {g0 g1 n : Nat}
    (h : Pattern.cellRefNum.matchAt s = some (g0, g1, n)) :
    g0 = (s.takeWhile isUpperAZ).length ∧
    g1 = g0 + ((s.dropWhile isUpperAZ).takeWhile isDigit09).length ∧ n = g1 ∧
    0 < g0 ∧ g0 < g1 := by
  simp only [Pattern.matchAt] at h
  split at h
  · cases h
  · rename_i hne
    simp only [Option.some.injEq, Prod.mk.injEq] at h
    obtain ⟨h0, h1, h2⟩ := h
    refine ⟨h0.symm, ?_, ?_, ?_, ?_⟩ <;> omega

theorem segments (s : List Char) :
    s = s.takeWhile isUpperAZ ++ (s.dropWhile isUpperAZ).takeWhile isDigit09 ++
      (s.dropWhile isUpperAZ).dropWhile isDigit09 := by
  rw [List.append_assoc, List.takeWhile_append_dropWhile, List.takeWhile_append_dropWhile]

theorem cellRefNum_bounds (s : List Char) (g0 g1 n : Nat)
    (h : Pattern.cellRefNum.matchAt s = some (g0, g1, n)) :
    g0 ≤ g1 ∧ g1 ≤ n ∧ n ≤ s.length := by
  obtain ⟨h0, h1, h2, _, _⟩ := cellRefNum_match h
  have hlen := congrArg List.length (segments s)
  simp only [List.length_append] at hlen
  omega

theorem incFrom_match {s : List Char} {g0 g1 n : Nat}
    (h : Pattern.incFrom.matchAt s = some (g0, g1, n)) :
    ∃ ds r, s = ['i', 'n', 'c', 'F', 'r', 'o', 'm', '('] ++ ds ++ ')' :: r ∧
      (∀ d ∈ ds, isDigit09 d = true) ∧ 0 < ds.length ∧
      g0 = 8 ∧ g1 = 8 + ds.length ∧ n = 8 + ds.length + 1 := by
  simp only [Pattern.matchAt] at h
  split at h
  · cases h
  · rename_i r0 hstrip
    split at h
    · rename_i r hdrop
      split at h
      · cases h
      · simp only [Option.some.injEq, Prod.mk.injEq] at h
        obtain ⟨h0, h1, h2⟩ := h
        refine ⟨r0.takeWhile isDigit09, r, ?_, ?_, by omega, h0.symm, h1.symm, h2.symm⟩
        · rw [stripLit_some _ _ _ hstrip, List.append_assoc, ← hdrop,
            List.takeWhile_append_dropWhile]
        · intro d hd
          exact (List.mem_takeWhile_imp hd)
    · cases h

theorem incFrom_bounds (s : List Char) (g0 g1 n : Nat)
    (h : Pattern.incFrom.matchAt s = some (g0, g1, n)) :
    g0 ≤ g1 ∧ g1 ≤ n ∧ n ≤ s.length := by
  obtain ⟨ds, r, hs, _, _, h0, h1, h2⟩ := incFrom_match h
  have hlen := congrArg List.length hs
  simp only [List.length_append, List.length_cons, List.length_nil] at hlen
  omega

theorem incExprNumber_spec (p : Pattern) (expr : String) (t : List Char)
    (hb : ∀ s g0 g1 n, p.matchAt s = some (g0, g1, n) → g0 ≤ g1 ∧ g1 ≤ n ∧ n ≤ s.length)
    (ht : incrementScan p.matchAt expr.toList 0 = .ok t) :
    incExprNumber expr p = .ok (String.mk t) := by
  obtain ⟨iEnd, accEnd, h1, h2, h3⟩ :=
    incExprNumberLoop_spec p expr hb expr.toList 0 0 0 "" t rfl (Nat.zero_le _)
      (Nat.le_refl _) (Nat.zero_le _) ht
  have h4 : accEnd.toList ++ expr.toList.drop iEnd = t := by
    rw [h3]
    simp
  unfold incExprNumber Pattern.findAllIndex
  cases hscan : p.scan expr.toList 0 0 with
  | nil =>
    rw [hscan] at h1
    simp only [incExprNumberLoop, Except.ok.injEq, Prod.mk.injEq] at h1
    obtain ⟨hi, hacc⟩ := h1
    subst hi
    subst hacc
    simp only [String.toList, List.drop_zero] at h4
    simp only
    congr 1
    rw [← h4]
    rfl
  | cons m ms =>
    rw [hscan] at h1
    simp only [h1, slice]
    have hcond : iEnd ≤ expr.length ∧ expr.length ≤ expr.length := ⟨h2, Nat.le_refl _⟩
    rw [if_pos hcond]
    simp only
    congr 1
    rw [← h4]
    apply String.ext
    simp only [String.data_append, String.toList]
    congr 1
    rw [List.take_of_length_le]
    simp only [List.length_drop]
    exact Nat.le_refl _

theorem incrementScan_skip (m : List Char → Option (Nat × Nat × Nat)) :
    ∀ (s : List Char) (k : Nat), incrementScan m s k = incrementScan m (s.drop k) 0 := by
  intro s
  induction s with
  | nil =>
    intro k
    simp [incrementScan]
  | cons c cs ih =>
    intro k
    cases k with
    | zero => rfl
    | succ k =>
      simp only [incrementScan, List.drop_succ_cons]
      exact ih k

theorem incrementScan_none (m : List Char → Option (Nat × Nat × Nat)) (c : Char)
    (cs : List Char) (h : m (c :: cs) = none) :
    incrementScan m (c :: cs) 0 = (incrementScan m cs 0).map (fun rest => c :: rest) := by
  simp only [incrementScan, h]
  cases incrementScan m cs 0 <;> rfl

theorem incrementScan_some (m : List Char → Option (Nat × Nat × Nat)) (s : List Char)
    (g0 g1 n : Nat) (num : List Char) (h : m s = some (g0, g1, n + 1)) (hs : s ≠ [])
    (hnum : bumpRun ((s.drop g0).take (g1 - g0)) = .ok num) :
    incrementScan m s 0 = (incrementScan m (s.drop (n + 1)) 0).map
      (fun rest => s.take g0 ++ num ++ (s.drop g1).take (n + 1 - g1) ++ rest) := by
  cases s with
  | nil => exact absurd rfl hs
  | cons c cs =>
    simp only [incrementScan, h, hnum, List.drop_succ_cons]
    rw [incrementScan_skip m cs n]
    cases incrementScan m (cs.drop n) 0 <;> rfl

theorem incrementScan_some_inv (m : List Char → Option (Nat × Nat × Nat)) (s : List Char)
    (g0 g1 n : Nat) (out : List Char) (h : m s = some (g0, g1, n + 1)) (hs : s ≠ [])
    (hout : incrementScan m s 0 = .ok out) :
    ∃ num rest, bumpRun ((s.drop g0).take (g1 - g0)) = .ok num ∧
      incrementScan m (s.drop (n + 1)) 0 = .ok rest ∧
      out = s.take g0 ++ num ++ (s.drop g1).take (n + 1 - g1) ++ rest := by
  cases hnum : bumpRun ((s.drop g0).take (g1 - g0)) with
  | error e =>
    cases s with
    | nil => exact absurd rfl hs
    | cons c cs =>
      simp only [incrementScan, h, hnum] at hout
      cases hout
  | ok num =>
    rw [incrementScan_some m s g0 g1 n num h hs hnum] at hout
    cases hrest : incrementScan m (s.drop (n + 1)) 0 with
    | error e =>
      rw [hrest] at hout
      cases hout
    | ok rest =>
      rw [hrest] at hout
      simp only [Except.map, Except.ok.injEq] at hout
      exact ⟨num, rest, rfl, rfl, hout.symm⟩

theorem incrementScan_copy (m : List Char → Option (Nat × Nat × Nat)) (x : List Char) :
    ∀ w : List Char, (∀ j, j < w.length → m (w.drop j ++ x) = none) →
      incrementScan m (w ++ x) 0 = (incrementScan m x 0).map (fun rest => w ++ rest) := by
  intro w
  induction w with
  | nil =>
    intro _
    rw [List.nil_append]
    cases incrementScan m x 0 <;> rfl
  | cons c w ih =>
    intro h
    have h0 : m (c :: (w ++ x)) = none := h 0 (by simp)
    rw [List.cons_append, incrementScan_none m c _ h0, ih]
    · cases incrementScan m x 0 <;> rfl
    · intro j hj
      have := h (j + 1) (by simpa using hj)
      simpa using this

theorem cellRefNum_none {c : Char} (y : List Char) (h : isUpperAZ c = false) :
    Pattern.cellRefNum.matchAt (c :: y) = none := by
  simp [Pattern.matchAt, List.takeWhile, h]

theorem cellRefNum_none_F (y : List Char) :
    Pattern.cellRefNum.matchAt ('F' :: 'r' :: y) = none := by
  have h1 : isUpperAZ 'F' = true := by decide
  have h2 : isUpperAZ 'r' = false := by decide
  have h3 : isDigit09 'r' = false := by decide
  simp [Pattern.matchAt, List.takeWhile, List.dropWhile, h1, h2, h3]

theorem incFrom_none {c : Char} (y : List Char) (h : c ≠ 'i') :
    Pattern.incFrom.matchAt (c :: y) = none := by
  have h2 : ¬ 'i' = c := fun e => h e.symm
  simp [Pattern.matchAt, stripLit, h2]

theorem copy_not_upper (x w : List Char) (h : ∀ c ∈ w, isUpperAZ c = false) :
    incrementScan Pattern.cellRefNum.matchAt (w ++ x) 0 =
      (incrementScan Pattern.cellRefNum.matchAt x 0).map (fun rest => w ++ rest) := by
  apply incrementScan_copy
  intro j hj
  have hmem : w[j] ∈ w := List.getElem_mem hj
  rw [List.drop_eq_getElem_cons hj, List.cons_append]
  exact cellRefNum_none _ (h _ hmem)

theorem copy_not_i (x w : List Char) (h : ∀ c ∈ w, c ≠ 'i') :
    incrementScan Pattern.incFrom.matchAt (w ++ x) 0 =
      (incrementScan Pattern.incFrom.matchAt x 0).map (fun rest => w ++ rest) := by
  apply incrementScan_copy
  intro j hj
  have hmem : w[j] ∈ w := List.getElem_mem hj
  rw [List.drop_eq_getElem_cons hj, List.cons_append]
  exact incFrom_none _ (h _ hmem)

theorem digitChar_digit : ∀ k, k < 10 → isDigit09 (Nat.digitChar k) = true := by
  decide

theorem toDigitsCore_digits : ∀ (fuel n : Nat) (ds : List Char),
    (∀ c ∈ ds, isDigit09 c = true) → ∀ c ∈ Nat.toDigitsCore 10 fuel n ds, isDigit09 c = true := by
  intro fuel
  induction fuel with
  | zero =>
    intro n ds h c hc
    exact h c hc
  | succ fuel ih =>
    intro n ds h c hc
    have hcons : ∀ c ∈ Nat.digitChar (n % 10) :: ds, isDigit09 c = true := by
      intro c hc
      rcases List.mem_cons.mp hc with rfl | hc
      · exact digitChar_digit _ (Nat.mod_lt _ (by decide))
      · exact h c hc
    simp only [Nat.toDigitsCore] at hc
    split at hc
    · exact hcons c hc
    · exact ih _ _ hcons c hc

theorem repr_digits (n : Nat) : ∀ c ∈ (Nat.repr n).toList, isDigit09 c = true := by
  intro c hc
  exact toDigitsCore_digits _ _ [] (fun _ h => absurd h (List.not_mem_nil _)) c hc

theorem digit_not_upper {c : Char} (h : isDigit09 c = true) : isUpperAZ c = false := by
  unfold isDigit09 at h
  unfold isUpperAZ
  simp only [Bool.and_eq_true, decide_eq_true_eq] at h
  simp only [Bool.and_eq_false_iff, decide_eq_false_iff_not]
  omega

theorem itoa_not_upper (x : Int) : ∀ c ∈ (itoa x).toList, isUpperAZ c = false := by
  intro c hc
  cases x with
  | ofNat m => exact digit_not_upper (repr_digits m c hc)
  | negSucc m =>
    have hc2 : c ∈ '-' :: (Nat.repr (m + 1)).toList := hc
    rcases List.mem_cons.mp hc2 with rfl | hc3
    · decide
    · exact digit_not_upper (repr_digits _ c hc3)

theorem bumpRun_not_upper {ds num : List Char} (h : bumpRun ds = .ok num) :
    ∀ c ∈ num, isUpperAZ c = false := by
  unfold bumpRun at h
  split at h
  · cases h
  · simp only [Except.ok.injEq] at h
    rw [← h]
    exact itoa_not_upper _

theorem dropWhile_head (p : Char → Bool) :
    ∀ (l : List Char) (c : Char), (l.dropWhile p).head? = some c → p c = false := by
  intro l
  induction l with
  | nil =>
    intro c h
    cases h
  | cons a l ih =>
    intro c h
    cases hp : p a with
    | true =>
      rw [List.dropWhile_cons_of_pos hp] at h
      exact ih c h
    | false =>
      rw [List.dropWhile_cons_of_neg (by simp [hp])] at h
      simp only [List.head?_cons, Option.some.injEq] at h
      rw [← h]
      exact hp

theorem boundary (p : Char → Bool) (a b : List Char) (ha : ∀ c ∈ a, p c = true)
    (hb : ∀ c, b.head? = some c → p c = false) :
    (a ++ b).takeWhile p = a ∧ (a ++ b).dropWhile p = b := by
  rw [List.takeWhile_append_of_pos ha, List.dropWhile_append_of_pos ha]
  cases b with
  | nil => simp
  | cons c b =>
    have hc := hb c rfl
    rw [List.takeWhile_cons_of_neg (by simp [hc]), List.dropWhile_cons_of_neg (by simp [hc])]
    simp

theorem resegment (s t : List Char)
    (hh : t.head? = ((s.dropWhile isUpperAZ).dropWhile isDigit09).head?) :
    (s.takeWhile isUpperAZ ++ (s.dropWhile isUpperAZ).takeWhile isDigit09 ++ t).takeWhile
        isUpperAZ = s.takeWhile isUpperAZ ∧
    ((s.takeWhile isUpperAZ ++ (s.dropWhile isUpperAZ).takeWhile isDigit09 ++ t).dropWhile
        isUpperAZ).takeWhile isDigit09 = (s.dropWhile isUpperAZ).takeWhile isDigit09 ∧
    ((s.takeWhile isUpperAZ ++ (s.dropWhile isUpperAZ).takeWhile isDigit09 ++ t).dropWhile
        isUpperAZ).dropWhile isDigit09 = t := by
  have hls : ∀ c ∈ s.takeWhile isUpperAZ, isUpperAZ c = true :=
    fun c hc => List.mem_takeWhile_imp hc
  have hds : ∀ c ∈ (s.dropWhile isUpperAZ).takeWhile isDigit09, isDigit09 c = true :=
    fun c hc => List.mem_takeWhile_imp hc
  have ht : ∀ c, t.head? = some c → isDigit09 c = false := by
    intro c hc
    rw [hh] at hc
    exact dropWhile_head _ _ c hc
  have hx : ∀ c, ((s.dropWhile isUpperAZ).takeWhile isDigit09 ++ t).head? = some c →
      isUpperAZ c = false := by
    intro c hc
    cases hds0 : (s.dropWhile isUpperAZ).takeWhile isDigit09 with
    | nil =>
      rw [hds0, List.nil_append, hh] at hc
      have hdrop : (s.dropWhile isUpperAZ).dropWhile isDigit09 = s.dropWhile isUpperAZ := by
        have := List.takeWhile_append_dropWhile isDigit09 (s.dropWhile isUpperAZ)
        rw [hds0, List.nil_append] at this
        exact this
      rw [hdrop] at hc
      exact dropWhile_head _ _ c hc
    | cons d ds =>
      rw [hds0] at hc
      simp only [List.cons_append, List.head?_cons, Option.some.injEq] at hc
      rw [← hc]
      exact digit_not_upper (hds d (by rw [hds0]; exact List.mem_cons_self _ _))
  rw [List.append_assoc]
  obtain ⟨h1, h2⟩ := boundary isUpperAZ _ _ hls hx
  obtain ⟨h3, h4⟩ := boundary isDigit09 _ _ hds ht
  rw [h1, h2, h3, h4]
  exact ⟨rfl, rfl, rfl⟩

theorem incFrom_head (s t : List Char)
    (h : incrementScan Pattern.incFrom.matchAt s 0 = .ok t) : t.head? = s.head? := by
  cases s with
  | nil =>
    simp only [incrementScan, Except.ok.injEq] at h
    rw [← h]
  | cons c cs =>
    cases hm : Pattern.incFrom.matchAt (c :: cs) with
    | none =>
      rw [incrementScan_none _ c cs hm] at h
      cases hrest : incrementScan Pattern.incFrom.matchAt cs 0 with
      | error e =>
        rw [hrest] at h
        cases h
      | ok rest =>
        rw [hrest] at h
        simp only [Except.map, Except.ok.injEq] at h
        rw [← h]
        rfl
    | some m =>
      obtain ⟨g0, g1, n⟩ := m
      obtain ⟨ds, r, hs, _, _, h0, h1, h2⟩ := incFrom_match hm
      subst h0
      subst h2
      obtain ⟨num, rest, _, _, hout⟩ :=
        incrementScan_some_inv _ _ _ _ _ t hm (List.cons_ne_nil _ _) h
      rw [hout, hs]
      rfl

theorem pieces (a b c : List Char) :
    (a ++ b ++ c).take a.length = a ∧
    ((a ++ b ++ c).drop a.length).take (a.length + b.length - a.length) = b ∧
    ((a ++ b ++ c).drop (a.length + b.length)).take
      (a.length + b.length - (a.length + b.length)) = [] ∧
    (a ++ b ++ c).drop (a.length + b.length) = c := by
  refine ⟨?_, ?_, ?_, ?_⟩
  · rw [List.append_assoc, List.take_left]
  · rw [List.append_assoc, List.drop_left, Nat.add_sub_cancel_left, List.take_left]
  · rw [Nat.sub_self, List.take_zero]
  · rw [← List.length_append, List.drop_left]

theorem incFrom_segments (s : List Char) :
    incrementScan Pattern.incFrom.matchAt s 0 =
      (incrementScan Pattern.incFrom.matchAt
        ((s.dropWhile isUpperAZ).dropWhile isDigit09) 0).map
        (fun rest => s.takeWhile isUpperAZ ++ (s.dropWhile isUpperAZ).takeWhile isDigit09 ++
          rest) := by
  have hi : ∀ c ∈ s.takeWhile isUpperAZ ++ (s.dropWhile isUpperAZ).takeWhile isDigit09,
      c ≠ 'i' := by
    intro c hc hci
    subst hci
    rcases List.mem_append.mp hc with h | h
    · exact absurd (List.mem_takeWhile_imp h) (by decide)
    · exact absurd (List.mem_takeWhile_imp h) (by decide)
  have h := copy_not_i ((s.dropWhile isUpperAZ).dropWhile isDigit09) _ hi
  rw [← segments s] at h
  exact h

theorem cellRefNum_after_incFrom (s t : List Char)
    (h : incrementScan Pattern.incFrom.matchAt s 0 = .ok t) :
    ∃ rest, incrementScan Pattern.incFrom.matchAt
        ((s.dropWhile isUpperAZ).dropWhile isDigit09) 0 = .ok rest ∧
      t = s.takeWhile isUpperAZ ++ (s.dropWhile isUpperAZ).takeWhile isDigit09 ++ rest ∧
      Pattern.cellRefNum.matchAt t = Pattern.cellRefNum.matchAt s := by
  rw [incFrom_segments s] at h
  cases hrest : incrementScan Pattern.incFrom.matchAt
      ((s.dropWhile isUpperAZ).dropWhile isDigit09) 0 with
  | error e =>
    rw [hrest] at h
    cases h
  | ok rest =>
    rw [hrest] at h
    simp only [Except.map, Except.ok.injEq] at h
    refine ⟨rest, rfl, h.symm, ?_⟩
    obtain ⟨r1, r2, _⟩ := resegment s rest (incFrom_head _ _ hrest)
    rw [← h]
    simp only [Pattern.matchAt]
    rw [r1, r2]

theorem counter_rewritten (num t rest : List Char)
    (hnum : ∀ c ∈ num, isUpperAZ c = false)
    (hrest : incrementScan Pattern.cellRefNum.matchAt t 0 = .ok rest) :
    incrementScan Pattern.cellRefNum.matchAt
        (['i', 'n', 'c', 'F', 'r', 'o', 'm', '('] ++ num ++ [')'] ++ t) 0 =
      .ok (['i', 'n', 'c', 'F', 'r', 'o', 'm', '('] ++ num ++ [')'] ++ rest) := by
  have h1 : ∀ c ∈ ['i', 'n', 'c'], isUpperAZ c = false := by decide
  have h2 : ∀ c ∈ ['r', 'o', 'm', '('] ++ num ++ [')'], isUpperAZ c = false := by
    intro c hc
    simp only [List.mem_append, List.mem_cons, List.mem_singleton, List.not_mem_nil,
      or_false] at hc
    rcases hc with (hc | hc) | hc
    · rcases hc with rfl | rfl | rfl | rfl <;> decide
    · exact hnum c hc
    · subst hc
      decide
  have e1 : ['i', 'n', 'c', 'F', 'r', 'o', 'm', '('] ++ num ++ [')'] ++ t =
      ['i', 'n', 'c'] ++ 'F' :: 'r' :: (['o', 'm', '('] ++ num ++ [')'] ++ t) := by
    simp
  have e2 : 'r' :: (['o', 'm', '('] ++ num ++ [')'] ++ t) =
      (['r', 'o', 'm', '('] ++ num ++ [')']) ++ t := by
    simp
  rw [e1, copy_not_upper _ _ h1, incrementScan_none _ _ _ (cellRefNum_none_F _), e2,
    copy_not_upper _ _ h2, hrest]
  simp [Except.map]

theorem increment_passes : ∀ (n : Nat) (s out : List Char), s.length ≤ n →
    incrementScan counterOrReference s 0 = .ok out →
    ∃ t, incrementScan Pattern.incFrom.matchAt s 0 = .ok t ∧
      incrementScan Pattern.cellRefNum.matchAt t 0 = .ok out := by
  intro n
  induction n with
  | zero =>
    intro s out hlen hout
    have hs : s = [] := List.length_eq_zero.mp (Nat.le_zero.mp hlen)
    subst hs
    simp only [incrementScan, Except.ok.injEq] at hout
    subst hout
    exact ⟨[], rfl, rfl⟩
  | succ n ih =>
    intro s out hlen hout
    cases s with
    | nil =>
      simp only [incrementScan, Except.ok.injEq] at hout
      subst hout
      exact ⟨[], rfl, rfl⟩
    | cons c cs =>
      simp only [List.length_cons] at hlen
      cases hI : Pattern.incFrom.matchAt (c :: cs) with
      | some m =>
        obtain ⟨g0, g1, k⟩ := m
        have hU : counterOrReference (c :: cs) = some (g0, g1, k) := by
          unfold counterOrReference
          rw [hI]
        obtain ⟨ds, r, hs, _, _, h0, h1, h2⟩ := incFrom_match hI
        subst h0
        subst h1
        subst h2
        obtain ⟨num, rest, hnum, hrest, hout2⟩ :=
          incrementScan_some_inv _ _ _ _ _ out hU (List.cons_ne_nil _ _) hout
        obtain ⟨t, ht1, ht2⟩ := ih _ rest (by
          simp only [List.length_drop, List.length_cons]
          omega) hrest
        have hpre : (c :: cs).take 8 = ['i', 'n', 'c', 'F', 'r', 'o', 'm', '('] := by
          rw [hs]
          rfl
        have hpost : ((c :: cs).drop (8 + ds.length)).take
            (8 + ds.length + 1 - (8 + ds.length)) = [')'] := by
          have hd : (c :: cs).drop (8 + ds.length) = ')' :: r := by
            rw [hs, ← List.drop_drop]
            show (ds ++ ')' :: r).drop ds.length = ')' :: r
            exact List.drop_left _ _
          rw [hd, Nat.add_sub_cancel_left]
          rfl
        refine ⟨(c :: cs).take 8 ++ num ++ ((c :: cs).drop (8 + ds.length)).take
          (8 + ds.length + 1 - (8 + ds.length)) ++ t, ?_, ?_⟩
        · rw [incrementScan_some _ _ _ _ _ num hI (List.cons_ne_nil _ _) hnum, ht1]
          rfl
        · rw [hout2, hpre, hpost]
          exact counter_rewritten num t rest (bumpRun_not_upper hnum) ht2
      | none =>
        cases hR : Pattern.cellRefNum.matchAt (c :: cs) with
        | some m =>
          obtain ⟨g0, g1, k⟩ := m
          have hU : counterOrReference (c :: cs) = some (g0, g1, k) := by
            unfold counterOrReference
            rw [hI, hR]
          obtain ⟨h0, h1, h2, hpos, hlt⟩ := cellRefNum_match hR
          obtain ⟨j, hj⟩ : ∃ j, k = j + 1 := ⟨k - 1, by omega⟩
          subst hj
          subst h2
          obtain ⟨num, rest, hnum, hrest, hout2⟩ :=
            incrementScan_some_inv _ _ _ _ _ out hU (List.cons_ne_nil _ _) hout
          obtain ⟨t, ht1, ht2⟩ := ih _ rest (by
            simp only [List.length_drop, List.length_cons]
            omega) hrest
          obtain ⟨p1, p2, p3, p4⟩ := pieces ((c :: cs).takeWhile isUpperAZ)
            (((c :: cs).dropWhile isUpperAZ).takeWhile isDigit09)
            (((c :: cs).dropWhile isUpperAZ).dropWhile isDigit09)
          rw [← segments (c :: cs), ← h0] at p1 p2 p3 p4
          rw [← h1] at p2 p3 p4
          obtain ⟨q1, q2, q3, q4⟩ := pieces ((c :: cs).takeWhile isUpperAZ)
            (((c :: cs).dropWhile isUpperAZ).takeWhile isDigit09) t
          rw [← h0] at q1 q2 q3 q4
          rw [← h1] at q2 q3 q4
          rw [p4] at ht1
          have hseg := incFrom_segments (c :: cs)
          rw [ht1] at hseg
          simp only [Except.map] at hseg
          obtain ⟨_, _, _, hr3⟩ := cellRefNum_after_incFrom _ _ hseg
          rw [hR] at hr3
          refine ⟨_, hseg, ?_⟩
          have hne : (c :: cs).takeWhile isUpperAZ ++
              ((c :: cs).dropWhile isUpperAZ).takeWhile isDigit09 ++ t ≠ [] := by
            intro hnil
            have := congrArg List.length hnil
            simp only [List.length_append, List.length_nil] at this
            omega
          rw [p2] at hnum
          rw [incrementScan_some _ _ _ _ _ num hr3 hne (by rw [q2]; exact hnum), q4, ht2,
            hout2, q1, p1, p3]
          simp only [Except.map, Nat.sub_self, List.take_zero]
        | none =>
          have hU : counterOrReference (c :: cs) = none := by
            unfold counterOrReference
            rw [hI, hR]
          rw [incrementScan_none _ c cs hU] at hout
          cases hrest : incrementScan counterOrReference cs 0 with
          | error e =>
            rw [hrest] at hout
            cases hout
          | ok rest =>
            rw [hrest] at hout
            simp only [Except.map, Except.ok.injEq] at hout
            obtain ⟨t, ht1, ht2⟩ := ih cs rest (by omega) hrest
            have hI2 : incrementScan Pattern.incFrom.matchAt (c :: cs) 0 = .ok (c :: t) := by
              rw [incrementScan_none _ c cs hI, ht1]
              rfl
            obtain ⟨_, _, _, hr3⟩ := cellRefNum_after_incFrom _ _ hI2
            rw [hR] at hr3
            refine ⟨c :: t, hI2, ?_⟩
            rw [incrementScan_none _ c t hr3, ht2, ← hout]
            rfl

theorem bumpRun_ok {ds : List Char} (h : (digitsValue ds : Int) < maxInt64) :
    bumpRun ds = .ok (renderSucc ds) := by
  unfold maxInt64 at h
  have hnot : ¬ maxInt64 < (digitsValue ds : Int) := by
    unfold maxInt64
    omega
  have hwrap : wrapInt64 ((digitsValue ds : Int) + 1) = ((digitsValue ds + 1 : Nat) : Int) := by
    rw [wrapInt64_id (by omega) (by omega)]
    rfl
  unfold bumpRun
  rw [if_neg hnot, hwrap]
  rfl

theorem incrementScan_of_incrementable : ∀ (s : List Char) (k : Nat),
    runsIncrementable s k = true →
    incrementScan counterOrReference s k = .ok (incrementedScan s k) := by
  intro s
  induction s with
  | nil =>
    intro k _
    simp [incrementScan, incrementedScan]
  | cons c cs ih =>
    intro k h
    cases k with
    | succ k =>
      simp only [runsIncrementable] at h
      simp only [incrementScan, incrementedScan]
      exact ih k h
    | zero =>
      cases hm : counterOrReference (c :: cs) with
      | none =>
        simp only [runsIncrementable, hm] at h
        simp only [incrementScan, incrementedScan, hm, ih 0 h]
      | some m =>
        obtain ⟨g0, g1, n⟩ := m
        cases n with
        | zero =>
          simp only [runsIncrementable, hm] at h
          simp only [incrementScan, incrementedScan, hm, ih 0 h]
        | succ n =>
          simp only [runsIncrementable, hm, Bool.and_eq_true, decide_eq_true_eq] at h
          simp only [incrementScan, incrementedScan, hm, bumpRun_ok h.1, ih n h.2]

theorem propagateFromAbove_spec (wl : Workload) (row col : Int) (deps : List CellRef)
    (e : String) (habove : wl.getCellExpr (row - 1) col = .ok e)
    (hruns : runsIncrementable e.toList 0 = true) :
    propagateFromAbove ⟨row, col, "=^^", deps⟩ wl = .ok ⟨row, col, incrementedCopy e, deps⟩ := by
  obtain ⟨t, ht1, ht2⟩ := increment_passes _ e.toList _ (Nat.le_refl _)
    (incrementScan_of_incrementable _ _ hruns)
  have h1 := incExprNumber_spec .incFrom e t incFrom_bounds ht1
  have h2 := incExprNumber_spec .cellRefNum (String.mk t) _ cellRefNum_bounds ht2
  unfold propagateFromAbove
  rw [if_pos rfl]
  simp only [habove, h1, h2, bind, Except.bind, pure, Except.pure]
  rfl

theorem bumpRun_error {ds : List Char} {e : Fault} (h : bumpRun ds = .error e) :
    e = .exit INVALID_EXPRESSION_ERROR ∧ maxInt64 < (digitsValue ds : Int) := by
  unfold bumpRun at h
  split at h
  · rename_i hlt
    simp only [Except.error.injEq] at h
    exact ⟨h.symm, hlt⟩
  · cases h

theorem incrementScan_error (m : List Char → Option (Nat × Nat × Nat)) :
    ∀ (s : List Char) (k : Nat) (e : Fault), incrementScan m s k = .error e →
      e = .exit INVALID_EXPRESSION_ERROR := by
  intro s
  induction s with
  | nil =>
    intro k e h
    simp only [incrementScan] at h
    cases h
  | cons c cs ih =>
    intro k e h
    cases k with
    | succ k =>
      simp only [incrementScan] at h
      exact ih k e h
    | zero =>
      have hcopy : ∀ e2, (match incrementScan m cs 0 with
          | .error e => (.error e : Except Fault (List Char))
          | .ok rest => .ok (c :: rest)) = .error e2 → e2 = .exit INVALID_EXPRESSION_ERROR := by
        intro e2 h2
        cases hrest : incrementScan m cs 0 with
        | error e3 =>
          rw [hrest] at h2
          simp only [Except.error.injEq] at h2
          rw [← h2]
          exact ih 0 e3 hrest
        | ok rest =>
          rw [hrest] at h2
          cases h2
      cases hm : m (c :: cs) with
      | none =>
        simp only [incrementScan, hm] at h
        exact hcopy e h
      | some v =>
        obtain ⟨g0, g1, n⟩ := v
        cases n with
        | zero =>
          simp only [incrementScan, hm] at h
          exact hcopy e h
        | succ n =>
          simp only [incrementScan, hm] at h
          cases hbump : bumpRun (((c :: cs).drop g0).take (g1 - g0)) with
          | error eb =>
            rw [hbump] at h
            simp only [Except.error.injEq] at h
            rw [← h]
            exact (bumpRun_error hbump).1
          | ok num =>
            rw [hbump] at h
            simp only at h
            cases hrest : incrementScan m cs n with
            | error e3 =>
              rw [hrest] at h
              simp only [Except.error.injEq] at h
              rw [← h]
              exact ih n e3 hrest
            | ok rest =>
              rw [hrest] at h
              cases h

theorem aboveRange_fails : ∀ (s : List Char) (k : Nat), someRunAboveRange s k = true →
    ∃ e, incrementScan counterOrReference s k = .error e := by
  intro s
  induction s with
  | nil =>
    intro k h
    simp [someRunAboveRange] at h
  | cons c cs ih =>
    intro k h
    cases k with
    | succ k =>
      simp only [someRunAboveRange] at h
      simp only [incrementScan]
      exact ih k h
    | zero =>
      cases hm : counterOrReference (c :: cs) with
      | none =>
        simp only [someRunAboveRange, hm] at h
        obtain ⟨e, he⟩ := ih 0 h
        exact ⟨e, by simp only [incrementScan, hm, he]⟩
      | some v =>
        obtain ⟨g0, g1, n⟩ := v
        cases n with
        | zero =>
          simp only [someRunAboveRange, hm] at h
          obtain ⟨e, he⟩ := ih 0 h
          exact ⟨e, by simp only [incrementScan, hm, he]⟩
        | succ n =>
          simp only [someRunAboveRange, hm, Bool.or_eq_true, decide_eq_true_eq] at h
          cases hbump : bumpRun (((c :: cs).drop g0).take (g1 - g0)) with
          | error eb => exact ⟨eb, by simp only [incrementScan, hm, hbump]⟩
          | ok num =>
            rcases h with h | h
            · exfalso
              unfold bumpRun at hbump
              rw [if_pos h] at hbump
              cases hbump
            · obtain ⟨e, he⟩ := ih n h
              exact ⟨e, by simp only [incrementScan, hm, hbump, he]⟩

theorem counter_copied (num t out : List Char) (hnum : ∀ c ∈ num, isUpperAZ c = false)
    (h : incrementScan Pattern.cellRefNum.matchAt
        (['i', 'n', 'c', 'F', 'r', 'o', 'm', '('] ++ num ++ [')'] ++ t) 0 = .ok out) :
    ∃ rest, incrementScan Pattern.cellRefNum.matchAt t 0 = .ok rest := by
  have h1 : ∀ c ∈ ['i', 'n', 'c'], isUpperAZ c = false := by decide
  have h2 : ∀ c ∈ ['r', 'o', 'm', '('] ++ num ++ [')'], isUpperAZ c = false := by
    intro c hc
    simp only [List.mem_append, List.mem_cons, List.mem_singleton, List.not_mem_nil,
      or_false] at hc
    rcases hc with (hc | hc) | hc
    · rcases hc with rfl | rfl | rfl | rfl <;> decide
    · exact hnum c hc
    · subst hc
      decide
  have e1 : ['i', 'n', 'c', 'F', 'r', 'o', 'm', '('] ++ num ++ [')'] ++ t =
      ['i', 'n', 'c'] ++ 'F' :: 'r' :: (['o', 'm', '('] ++ num ++ [')'] ++ t) := by
    simp
  have e2 : 'r' :: (['o', 'm', '('] ++ num ++ [')'] ++ t) =
      (['r', 'o', 'm', '('] ++ num ++ [')']) ++ t := by
    simp
  cases hrest : incrementScan Pattern.cellRefNum.matchAt t 0 with
  | ok rest => exact ⟨rest, rfl⟩
  | error e =>
    rw [e1, copy_not_upper _ _ h1, incrementScan_none _ _ _ (cellRefNum_none_F _), e2,
      copy_not_upper _ _ h2, hrest] at h
    simp [Except.map] at h

theorem passes_succeed : ∀ (n : Nat) (s t out : List Char), s.length ≤ n →
    incrementScan Pattern.incFrom.matchAt s 0 = .ok t →
    incrementScan Pattern.cellRefNum.matchAt t 0 = .ok out →
    ∃ out2, incrementScan counterOrReference s 0 = .ok out2 := by
  intro n
  induction n with
  | zero =>
    intro s t out hlen _ _
    have hs : s = [] := List.length_eq_zero.mp (Nat.le_zero.mp hlen)
    subst hs
    exact ⟨[], rfl⟩
  | succ n ih =>
    intro s t out hlen ht hout
    cases s with
    | nil => exact ⟨[], rfl⟩
    | cons c cs =>
      simp only [List.length_cons] at hlen
      cases hI : Pattern.incFrom.matchAt (c :: cs) with
      | some m =>
        obtain ⟨g0, g1, k⟩ := m
        have hU : counterOrReference (c :: cs) = some (g0, g1, k) := by
          unfold counterOrReference
          rw [hI]
        obtain ⟨ds, r, hs, _, _, h0, h1, h2⟩ := incFrom_match hI
        subst h0
        subst h1
        subst h2
        obtain ⟨num, t2, hnum, ht2, hteq⟩ :=
          incrementScan_some_inv _ _ _ _ _ t hI (List.cons_ne_nil _ _) ht
        have hpre : (c :: cs).take 8 = ['i', 'n', 'c', 'F', 'r', 'o', 'm', '('] := by
          rw [hs]
          rfl
        have hpost : ((c :: cs).drop (8 + ds.length)).take
            (8 + ds.length + 1 - (8 + ds.length)) = [')'] := by
          have hd : (c :: cs).drop (8 + ds.length) = ')' :: r := by
            rw [hs, ← List.drop_drop]
            show (ds ++ ')' :: r).drop ds.length = ')' :: r
            exact List.drop_left _ _
          rw [hd, Nat.add_sub_cancel_left]
          rfl
        rw [hteq, hpre, hpost] at hout
        obtain ⟨rest, hrest⟩ := counter_copied num t2 out (bumpRun_not_upper hnum) hout
        obtain ⟨out3, hU3⟩ := ih _ t2 rest (by
          simp only [List.length_drop, List.length_cons]
          omega) ht2 hrest
        rw [incrementScan_some _ _ _ _ _ num hU (List.cons_ne_nil _ _) hnum, hU3]
        exact ⟨_, rfl⟩
      | none =>
        obtain ⟨rest0, hrest0, hteq, hRt⟩ := cellRefNum_after_incFrom _ _ ht
        cases hR : Pattern.cellRefNum.matchAt (c :: cs) with
        | some m =>
          obtain ⟨g0, g1, k⟩ := m
          have hU : counterOrReference (c :: cs) = some (g0, g1, k) := by
            unfold counterOrReference
            rw [hI, hR]
          obtain ⟨h0, h1, h2, hpos, hlt⟩ := cellRefNum_match hR
          obtain ⟨j, hj⟩ : ∃ j, k = j + 1 := ⟨k - 1, by omega⟩
          subst hj
          subst h2
          obtain ⟨p1, p2, p3, p4⟩ := pieces ((c :: cs).takeWhile isUpperAZ)
            (((c :: cs).dropWhile isUpperAZ).takeWhile isDigit09)
            (((c :: cs).dropWhile isUpperAZ).dropWhile isDigit09)
          rw [← segments (c :: cs), ← h0] at p1 p2 p3 p4
          rw [← h1] at p2 p3 p4
          obtain ⟨q1, q2, q3, q4⟩ := pieces ((c :: cs).takeWhile isUpperAZ)
            (((c :: cs).dropWhile isUpperAZ).takeWhile isDigit09) rest0
          rw [← h0] at q1 q2 q3 q4
          rw [← h1] at q2 q3 q4
          rw [← hteq] at q1 q2 q3 q4
          rw [hR] at hRt
          have hne : t ≠ [] := by
            intro hnil
            rw [hnil] at hteq
            have := congrArg List.length hteq
            simp only [List.length_append, List.length_nil] at this
            omega
          obtain ⟨num, rest2, hnum, hrest2, _⟩ :=
            incrementScan_some_inv _ _ _ _ _ out hRt hne hout
          rw [q2] at hnum
          rw [q4] at hrest2
          rw [← p4] at hrest0
          obtain ⟨out3, hU3⟩ := ih _ rest0 rest2 (by
            simp only [List.length_drop, List.length_cons]
            omega) hrest0 hrest2
          rw [incrementScan_some _ _ _ _ _ num hU (List.cons_ne_nil _ _)
            (by rw [p2]; exact hnum), hU3]
          exact ⟨_, rfl⟩
        | none =>
          have hU : counterOrReference (c :: cs) = none := by
            unfold counterOrReference
            rw [hI, hR]
          rw [hR] at hRt
          rw [incrementScan_none _ c cs hI] at ht
          cases ht2 : incrementScan Pattern.incFrom.matchAt cs 0 with
          | error e =>
            rw [ht2] at ht
            cases ht
          | ok t2 =>
            rw [ht2] at ht
            simp only [Except.map, Except.ok.injEq] at ht
            subst ht
            rw [incrementScan_none _ c t2 hRt] at hout
            cases hrest : incrementScan Pattern.cellRefNum.matchAt t2 0 with
            | error e =>
              rw [hrest] at hout
              cases hout
            | ok rest =>
              obtain ⟨out3, hU3⟩ := ih cs t2 rest (by omega) ht2 hrest
              rw [incrementScan_none _ c cs hU, hU3]
              exact ⟨_, rfl⟩

theorem incExprNumberLoop_error (p : Pattern) (expr : String)
    (hb : ∀ s g0 g1 n, p.matchAt s = some (g0, g1, n) → g0 ≤ g1 ∧ g1 ≤ n ∧ n ≤ s.length) :
    ∀ (s : List Char) (pos skip i : Nat) (acc : String) (e : Fault),
      expr.toList.drop pos = s → pos ≤ expr.toList.length → i ≤ pos + skip →
      skip ≤ s.length → incrementScan p.matchAt s skip = .error e →
      incExprNumberLoop expr (p.scan s pos skip) i acc = .error e := by
  intro s
  induction s with
  | nil =>
    intro pos skip i acc e _ _ _ _ ht
    simp only [incrementScan] at ht
    cases ht
  | cons c cs ih =>
    intro pos skip i acc e hs hpos hi hskip ht
    have hcs := drop_succ_of_cons _ _ _ _ hs
    have hlen : expr.toList.length = pos + (cs.length + 1) := by
      have := congrArg List.length hs
      simp only [List.length_drop, List.length_cons] at this
      omega
    cases skip with
    | succ skip =>
      simp only [incrementScan] at ht
      simp only [List.length_cons] at hskip
      have h1 := ih (pos + 1) skip i acc e hcs (by omega) (by omega) (by omega) ht
      simpa [Pattern.scan] using h1
    | zero =>
      have hcopy : (match incrementScan p.matchAt cs 0 with
          | .error e => (.error e : Except Fault (List Char))
          | .ok rest => .ok (c :: rest)) = .error e →
          incExprNumberLoop expr (p.scan cs (pos + 1) 0) i acc = .error e := by
        intro h2
        cases hrest : incrementScan p.matchAt cs 0 with
        | error e3 =>
          rw [hrest] at h2
          simp only [Except.error.injEq] at h2
          subst h2
          exact ih (pos + 1) 0 i acc e3 hcs (by omega) (by omega) (by omega) hrest
        | ok rest =>
          rw [hrest] at h2
          cases h2
      cases hm : p.matchAt (c :: cs) with
      | none =>
        simp only [incrementScan, hm] at ht
        simpa [Pattern.scan, hm] using hcopy ht
      | some m =>
        obtain ⟨g0, g1, n⟩ := m
        obtain ⟨hg01, hg1n, hnl⟩ := hb _ _ _ _ hm
        simp only [List.length_cons] at hnl
        cases n with
        | zero =>
          simp only [incrementScan, hm] at ht
          simpa [Pattern.scan, hm] using hcopy ht
        | succ n =>
          simp only [incrementScan, hm] at ht
          have hgrp : ((c :: cs).drop g0).take (g1 - g0) =
              (expr.toList.drop (pos + g0)).take (pos + g1 - (pos + g0)) := by
            rw [← hs, List.drop_drop]
            congr 1
            omega
          have hcond : i ≤ pos + g0 ∧ pos + g0 ≤ expr.length := by
            constructor
            · omega
            · show pos + g0 ≤ expr.toList.length
              omega
          simp only [Pattern.scan, hm, incExprNumberLoop, slice, sliceMatch]
          rw [if_pos hcond]
          simp only [String.toList] at hgrp ⊢
          rw [← hgrp]
          cases hbump : bumpRun (((c :: cs).drop g0).take (g1 - g0)) with
          | error eb =>
            rw [hbump] at ht
            simp only [Except.error.injEq] at ht
            subst ht
            obtain ⟨heb, hlt⟩ := bumpRun_error hbump
            rw [if_pos hlt, heb]
          | ok num =>
            rw [hbump] at ht
            simp only at ht
            have hnot : ¬ maxInt64 < (digitsValue (((c :: cs).drop g0).take (g1 - g0)) : Int) := by
              intro hlt
              unfold bumpRun at hbump
              rw [if_pos hlt] at hbump
              cases hbump
            rw [if_neg hnot]
            cases hrest : incrementScan p.matchAt cs n with
            | error e3 =>
              rw [hrest] at ht
              simp only [Except.error.injEq] at ht
              subst ht
              exact ih (pos + 1) n (pos + g1) _ e3 hcs (by omega) (by omega) (by omega) hrest
            | ok rest =>
              rw [hrest] at ht
              cases ht

theorem incExprNumber_error (p : Pattern) (expr : String) (e : Fault)
    (hb : ∀ s g0 g1 n, p.matchAt s = some (g0, g1, n) → g0 ≤ g1 ∧ g1 ≤ n ∧ n ≤ s.length)
    (ht : incrementScan p.matchAt expr.toList 0 = .error e) :
    incExprNumber expr p = .error e := by
  have h1 := incExprNumberLoop_error p expr hb expr.toList 0 0 0 "" e rfl (Nat.zero_le _)
    (Nat.le_refl _) (Nat.zero_le _) ht
  unfold incExprNumber Pattern.findAllIndex
  cases hscan : p.scan expr.toList 0 0 with
  | nil =>
    rw [hscan] at h1
    simp only [incExprNumberLoop] at h1
    cases h1
  | cons m ms =>
    rw [hscan] at h1
    simp only [h1]

theorem propagateFromAbove_abort (wl : Workload) (row col : Int) (deps : List CellRef)
    (e : String) (habove : wl.getCellExpr (row - 1) col = .ok e)
    (habv : someRunAboveRange e.toList 0 = true) :
    propagateFromAbove ⟨row, col, "=^^", deps⟩ wl = .error (.exit INVALID_EXPRESSION_ERROR) := by
  obtain ⟨e0, hU⟩ := aboveRange_fails _ _ habv
  unfold propagateFromAbove
  rw [if_pos rfl]
  cases h1 : incrementScan Pattern.incFrom.matchAt e.toList 0 with
  | error e1 =>
    have he1 := incrementScan_error _ _ _ _ h1
    subst he1
    simp only [habove, incExprNumber_error .incFrom e _ incFrom_bounds h1, bind, Except.bind]
  | ok t =>
    have hp1 := incExprNumber_spec .incFrom e t incFrom_bounds h1
    cases h2 : incrementScan Pattern.cellRefNum.matchAt t 0 with
    | error e2 =>
      have he2 := incrementScan_error _ _ _ _ h2
      subst he2
      have hp2 := incExprNumber_error .cellRefNum (String.mk t) _ cellRefNum_bounds h2
      simp only [habove, hp1, hp2, bind, Except.bind]
    | ok out =>
      obtain ⟨out2, hok⟩ := passes_succeed _ e.toList t out (Nat.le_refl _) h1 h2
      rw [hok] at hU
      cases hU

/-- C14 as stated fails at the edge of the 64-bit range.  Below the static text
`A9223372036854775807` the cell `=^^` ends the partition with the expression
`A-9223372036854775808`, not with the decimal rendering of the successor; below
`incFrom(9223372036854775808)` the run is aborted with
`INVALID_EXPRESSION_ERROR`.  Below `=B9` the rewrite gives `=B10`. -/
theorem increment_leaves_int64_range :
    (newWorkload [["A9223372036854775807"], ["=^^"]] 4).map Workload.buckets
      = .ok [[⟨1, 0, "A-9223372036854775808", []⟩]] ∧
    incrementedCopy "A9223372036854775807" = "A9223372036854775808" ∧
    newWorkload [["incFrom(9223372036854775808)"], ["=^^"]] 4
      = .error (.exit INVALID_EXPRESSION_ERROR) ∧
    incrementedCopy "incFrom(9223372036854775808)" = "incFrom(9223372036854775809)" ∧
    computeDependencies ⟨1, 1, "=^^", []⟩ ⟨[], [["", "=B9"], ["", ""]], [[-1, -1], [-1, -1]]⟩
      = .ok ⟨1, 1, "=B10", [⟨9, 1⟩]⟩ := by
  decide

/-- C14, propagate-from-above rewrite within the 64-bit range: when the
directly-above cell currently has expression `e`, `computeDependencies` on a
cell whose expression is exactly `=^^` behaves as follows.  If every digit run
of an `incFrom(n)` or of an uppercase-letters-then-digits reference in `e` has
a value below 2^63 - 1, it returns what the dependency extraction returns on the
cell with `e` rewritten, each such digit run replaced by the decimal rendering
of its successor and every other character kept in place.  If some such digit
run has a value above 2^63 - 1, it ends the run with
`INVALID_EXPRESSION_ERROR`.  A cell whose expression is not exactly `=^^` is
not rewritten. -/
theorem propagate_from_above (wl : Workload) (row col : Int) (deps : List CellRef)
    (e : String) (habove : wl.getCellExpr (row - 1) col = .ok e) :
    (runsIncrementable e.toList 0 = true →
      computeDependencies ⟨row, col, "=^^", deps⟩ wl =
        extractDependencies ⟨row, col, incrementedCopy e, deps⟩) ∧
    (someRunAboveRange e.toList 0 = true →
      computeDependencies ⟨row, col, "=^^", deps⟩ wl =
        .error (.exit INVALID_EXPRESSION_ERROR)) ∧
    ∀ cell : Cell, cell.expr ≠ "=^^" → computeDependencies cell wl = extractDependencies cell := by
  refine ⟨?_, ?_, ?_⟩
  · intro hruns
    rw [computeDependencies_eq, propagateFromAbove_spec wl row col deps e habove hruns]
    rfl
  · intro habv
    rw [computeDependencies_eq, propagateFromAbove_abort wl row col deps e habove habv]
    rfl
  · intro cell hcell
    rw [computeDependencies_eq]
    unfold propagateFromAbove
    rw [if_neg hcell]
    rfl

/-- Witness of `propagate_from_above`: below `=A1+incFrom(3)` the cell `=^^` of
row 1 becomes `=A2+incFrom(4)` with the single dependency A2, and the cell
`=1+^^` keeps its text; below the static text `A9223372036854775808`, whose
reference run is above 2^63 - 1, the cell `=^^` ends the run with
`INVALID_EXPRESSION_ERROR`, and so does `newWorkload` on that grid. -/
theorem propagate_from_above_witness :
    (⟨[[⟨0, 0, "=A1+incFrom(3)", [⟨0, 0⟩]⟩]], [[""], [""]], [[0], [-2]]⟩ : Workload).getCellExpr
      (1 - 1) 0 = .ok "=A1+incFrom(3)" ∧
    runsIncrementable "=A1+incFrom(3)".toList 0 = true ∧
    incrementedCopy "=A1+incFrom(3)" = "=A2+incFrom(4)" ∧
    computeDependencies ⟨1, 0, "=^^", []⟩
      ⟨[[⟨0, 0, "=A1+incFrom(3)", [⟨0, 0⟩]⟩]], [[""], [""]], [[0], [-2]]⟩
      = .ok ⟨1, 0, "=A2+incFrom(4)", [⟨1, 0⟩]⟩ ∧
    computeDependencies ⟨1, 0, "=1+^^", []⟩
      ⟨[[⟨0, 0, "=A1+incFrom(3)", [⟨0, 0⟩]⟩]], [[""], [""]], [[0], [-2]]⟩
      = .ok ⟨1, 0, "=1+^^", []⟩ ∧
    (⟨[], [["A9223372036854775808"], [""]], [[-1], [-2]]⟩ : Workload).getCellExpr (1 - 1) 0
      = .ok "A9223372036854775808" ∧
    someRunAboveRange "A9223372036854775808".toList 0 = true ∧
    computeDependencies ⟨1, 0, "=^^", []⟩ ⟨[], [["A9223372036854775808"], [""]], [[-1], [-2]]⟩
      = .error (.exit INVALID_EXPRESSION_ERROR) ∧
    newWorkload [["A9223372036854775808"], ["=^^"]] 4
      = .error (.exit INVALID_EXPRESSION_ERROR) := by
  have h := propagate_from_above
    ⟨[[⟨0, 0, "=A1+incFrom(3)", [⟨0, 0⟩]⟩]], [[""], [""]], [[0], [-2]]⟩ 1 0 []
    "=A1+incFrom(3)" (by decide)
  have h2 := propagate_from_above ⟨[], [["A9223372036854775808"], [""]], [[-1], [-2]]⟩ 1 0 []
    "A9223372036854775808" (by decide)
  refine ⟨by decide, by decide, by decide, ?_, ?_, by decide, by decide, h2.2.1 (by decide),
    by decide⟩
  · rw [h.1 (by decide)]
    decide
  · rw [h.2.2 ⟨1, 0, "=1+^^", []⟩ (by decide)]
    decide

/-! ## The order inside a bucket -/

theorem treeLoop_order (wl : Workload) :
    ∀ (fuel i : Nat) (result out : List Cell),
      wl.treeLoop fuel i result = .ok out →
      (∀ (p : Nat) (c : Cell), p < i → result[p]? = some c → ∀ d ∈ c.dependencies,
        ∀ d2, wl.getCell d = .ok (some d2) → ∃ q, p < q ∧ result[q]? = some d2) →
      ∀ (p : Nat) (c : Cell), out[p]? = some c → ∀ d ∈ c.dependencies,
        ∀ d2, wl.getCell d = .ok (some d2) → ∃ q, p < q ∧ out[q]? = some d2 := by
  intro fuel
  induction fuel with
  | zero =>
    intro i result out h hinv p c hp
    simp only [Workload.treeLoop] at h
    split at h
    · cases h
    · rename_i hlt
      simp only [Except.ok.injEq] at h
      subst h
      have hpl : p < result.length := (List.getElem?_eq_some.mp hp).1
      exact hinv p c (by omega) hp
  | succ fuel ih =>
    intro i result out h hinv
    simp only [Workload.treeLoop] at h
    split at h
    · rename_i hnone
      simp only [Except.ok.injEq] at h
      subst h
      intro p c hp
      have hpl : p < result.length := (List.getElem?_eq_some.mp hp).1
      have hil : result.length ≤ i := List.getElem?_eq_none_iff.mp hnone
      exact hinv p c (by omega) hp
    · rename_i c0 hc0
      rw [bind_ok_iff] at h
      obtain ⟨result2, happ, h⟩ := h
      obtain ⟨hres2, _⟩ := appendPending_ok wl _ _ _ happ
      subst hres2
      have hil : i < result.length := (List.getElem?_eq_some.mp hc0).1
      apply ih (i + 1) _ out h
      intro p c hp hpc d hd d2 hd2
      have hpl : p < result.length := by omega
      rw [List.getElem?_append_left hpl] at hpc
      by_cases hpi : p < i
      · obtain ⟨q, hq, hqe⟩ := hinv p c hpi hpc d hd d2 hd2
        have hql : q < result.length := (List.getElem?_eq_some.mp hqe).1
        exact ⟨q, hq, by rw [List.getElem?_append_left hql]; exact hqe⟩
      · have hpe : p = i := by omega
        subst hpe
        rw [hc0] at hpc
        have hcc : c0 = c := Option.some.inj hpc
        subst hcc
        have hmem : d2 ∈ wl.pendingOf c0.dependencies := mem_pendingOf.mpr ⟨d, hd, hd2⟩
        obtain ⟨m, hm⟩ := List.getElem?_of_mem hmem
        refine ⟨result.length + m, by omega, ?_⟩
        rw [List.getElem?_append_right (by omega)]
        simpa using hm

theorem getDependencyTree_order {wl : Workload} {seed : Cell} {fuel : Nat} {tree : List Cell}
    (h : wl.getDependencyTree seed fuel = .ok tree)
    (hseed : ∃ i : Int, boardGet wl.ref seed.row seed.col = .ok i ∧ 0 ≤ i ∧
      ∃ b, wl.buckets[i.toNat]? = some b ∧ ∃ d ∈ b, d.row = seed.row ∧ d.col = seed.col) :
    listedAfter tree := by
  have hord := treeLoop_order wl fuel 0 [seed] tree h (by
    intro p c hp
    omega)
  obtain ⟨children, htc, hall⟩ := getDependencyTree_spec h
  obtain ⟨_, _, hok⟩ := getDependencyTree_closure h
  intro p c hp d hd hlisted
  obtain ⟨c2, hc2, hr, hcc⟩ := hlisted
  have hget : ∃ d2, wl.getCell d = .ok (some d2) := by
    rw [htc] at hc2
    rcases List.mem_cons.mp hc2 with hc2 | hc2
    · subst hc2
      obtain ⟨o, ho⟩ := hok c (mem_of_getElem? hp) d hd
      obtain ⟨i, hi, hpos, b, hb, e, he, her, hec⟩ := hseed
      rw [hr, hcc] at hi
      obtain ⟨d2, hd2⟩ := getCell_pending ho hi hpos
        ⟨b, hb, e, he, by rw [her, hr], by rw [hec, hcc]⟩
      exact ⟨d2, by rw [ho, hd2]⟩
    · obtain ⟨ref, href⟩ := hall c2 hc2
      obtain ⟨_, _, _, _, _, _, hrr, hrc⟩ := getCell_some href
      have hrd : ref = d := by
        cases ref
        cases d
        simp only [CellRef.mk.injEq]
        simp only at hrr hrc hr hcc
        exact ⟨by rw [← hrr, hr], by rw [← hrc, hcc]⟩
      rw [hrd] at href
      exact ⟨c2, href⟩
  obtain ⟨d2, hd2⟩ := hget
  obtain ⟨q, hq, hqe⟩ := hord p c hp d hd d2 hd2
  obtain ⟨_, _, _, _, _, _, hrr, hrc⟩ := getCell_some hd2
  exact ⟨q, d2, hq, hqe, hrr, hrc⟩

theorem weakOrder_reverse (tree : List Cell) (hfwd : listedAfter tree) :
    weakOrder tree.reverse := by
  intro k hk c hc d hd hlisted
  rw [List.length_reverse] at hk
  have hc1 : tree.reverse[k]? = some c := hc
  rw [List.getElem?_reverse hk] at hc1
  obtain ⟨c2, hc2, hcoord⟩ := hlisted
  obtain ⟨q, c3, hq, hqe, hr, hcc⟩ := hfwd _ c hc1 d hd ⟨c2, List.mem_reverse.mp hc2, hcoord⟩
  have hql : q < tree.length := (List.getElem?_eq_some.mp hqe).1
  refine ⟨c3, ?_, hr, hcc⟩
  apply mem_of_getElem? (i := tree.length - 1 - q)
  rw [List.getElem?_take_of_lt (by omega), List.getElem?_reverse (by omega)]
  rw [← hqe]
  congr 1
  omega

theorem foldlM_range {β : Type} (P : Nat → β → Prop) (f : β → Nat → Except Fault β) :
    ∀ (n : Nat) (b b2 : β), P 0 b →
      (∀ i b b2, i < n → P i b → f b i = .ok b2 → P (i + 1) b2) →
      (List.range n).foldlM f b = .ok b2 → P n b2 := by
  intro n
  induction n with
  | zero =>
    intro b b2 h0 _ h
    simp only [List.range_zero, List.foldlM_nil, pure, Except.pure, Except.ok.injEq] at h
    subst h
    exact h0
  | succ n ih =>
    intro b b2 h0 hstep h
    rw [List.range_succ, List.foldlM_append, bind_ok_iff] at h
    obtain ⟨b1, h1, h2⟩ := h
    have hn := ih b b1 h0 (fun i b b2 hi => hstep i b b2 (by omega)) h1
    simp only [List.foldlM_cons, List.foldlM_nil, bind_pure] at h2
    exact hstep n b1 b2 (by omega) hn h2

theorem listedAfter_nil : listedAfter [] := by
  intro p c hp
  simp at hp

theorem mergeBucket_cases {wl wl2 : Workload} {fuel i : Nat}
    (h : wl.mergeBucket fuel i = .ok wl2) :
    (wl.buckets[i]? = some [] ∧ wl2 = wl) ∨
    ∃ seed rest children old, wl.buckets[i]? = some (seed :: rest) ∧
      wl.getDependencyTree seed fuel = .ok (seed :: children) ∧
      collectOldBuckets wl.ref children [] = .ok old ∧
      Workload.clearOldBuckets i old
        { wl with buckets := wl.buckets.set i (seed :: children) } = .ok wl2 := by
  unfold Workload.mergeBucket at h
  split at h
  · cases h
  · rename_i hB
    cases h
    exact Or.inl ⟨hB, rfl⟩
  · rename_i seed rest hB
    rw [bind_ok_iff] at h
    obtain ⟨tree, htree, h⟩ := h
    obtain ⟨children, htc, _⟩ := getDependencyTree_spec htree
    subst htc
    simp only at h
    rw [bind_ok_iff] at h
    obtain ⟨old, hold, h⟩ := h
    exact Or.inr ⟨seed, rest, children, old, hB, htree, hold, h⟩

theorem markMoved_shape (i : Int) :
    ∀ (cells : List Cell) (ref ref2 : RefBoard), markMoved i cells ref = .ok ref2 →
      ref2.map List.length = ref.map List.length := by
  intro cells
  induction cells with
  | nil =>
    intro ref ref2 h
    simp only [markMoved, Except.ok.injEq] at h
    rw [h]
  | cons c cells ih =>
    intro ref ref2 h
    simp only [markMoved] at h
    rw [bind_ok_iff] at h
    obtain ⟨ref1, h1, h2⟩ := h
    rw [ih ref1 ref2 h2, boardSet_shape h1]

theorem clearOldBuckets_length (i : Nat) :
    ∀ (old : List Int) (wl1 wl2 : Workload), Workload.clearOldBuckets i old wl1 = .ok wl2 →
      wl2.buckets.length = wl1.buckets.length ∧
      wl2.ref.map List.length = wl1.ref.map List.length := by
  intro old
  induction old with
  | nil =>
    intro wl1 wl2 h
    simp only [Workload.clearOldBuckets, Except.ok.injEq] at h
    rw [h]
    exact ⟨rfl, rfl⟩
  | cons j js ih =>
    intro wl1 wl2 h
    simp only [Workload.clearOldBuckets] at h
    split at h
    · cases h
    · split at h
      · cases h
      · rename_i bucket hb
        rw [bind_ok_iff] at h
        obtain ⟨ref, href, h⟩ := h
        obtain ⟨h1, h2⟩ := ih _ wl2 h
        simp only [List.length_set] at h1
        exact ⟨h1, by rw [h2]; exact markMoved_shape _ _ _ _ href⟩

theorem mergeBucket_length {wl wl2 : Workload} {fuel i : Nat}
    (h : wl.mergeBucket fuel i = .ok wl2) : wl2.buckets.length = wl.buckets.length := by
  rcases mergeBucket_cases h with ⟨_, h2⟩ | ⟨seed, rest, children, old, _, _, _, hclear⟩
  · rw [h2]
  · rw [(clearOldBuckets_length i old _ wl2 hclear).1]
    simp only [List.length_set]

theorem mergeBucket_order {wl wl2 : Workload} {fuel i : Nat}
    (hagrees : wl.Agrees) (h : wl.mergeBucket fuel i = .ok wl2)
    (hprev : ∀ (j : Nat) (b : Bucket), wl.buckets[j]? = some b → j < i → listedAfter b) :
    ∀ (j : Nat) (b : Bucket), wl2.buckets[j]? = some b → j < i + 1 → listedAfter b := by
  rcases mergeBucket_cases h with ⟨hB, h2⟩ | ⟨seed, rest, children, old, hB, htree, _, hclear⟩
  · subst h2
    intro j b hb hj
    by_cases hji : j = i
    · subst hji
      rw [hB] at hb
      cases hb
      exact listedAfter_nil
    · exact hprev j b hb (by omega)
  · obtain ⟨_, hkeep, hempty, _, _, _⟩ := clearOldBuckets_spec i old _ wl2 hclear
    simp only at hkeep
    have hilt : i < wl.buckets.length := (List.getElem?_eq_some.mp hB).1
    intro j b hb hj
    by_cases hjold : (j : Int) ∈ old
    · rw [hempty j hjold b hb]
      exact listedAfter_nil
    · rw [hkeep j hjold, List.getElem?_set] at hb
      by_cases hji : i = j
      · subst hji
        simp only [hilt, if_true] at hb
        cases hb
        apply getDependencyTree_order htree
        exact ⟨i, hagrees i _ hB seed (List.mem_cons_self _ _), Int.ofNat_nonneg _,
          seed :: rest, by simpa using hB, seed, List.mem_cons_self _ _, rfl, rfl⟩
      · rw [if_neg hji] at hb
        exact hprev j b hb (by omega)

theorem mergeSweep_order {tokens : List (List String)} {wl0 wl wl2 : Workload} {fuel : Nat}
    (hinv : SweepInv tokens wl0 wl) (h : wl.mergeSweep fuel = .ok wl2) :
    ∀ b ∈ wl2.buckets, listedAfter b := by
  unfold Workload.mergeSweep at h
  have hfinal := foldlM_range
    (fun i w => SweepInv tokens wl0 w ∧ w.buckets.length = wl.buckets.length ∧
      ∀ (j : Nat) (b : Bucket), w.buckets[j]? = some b → j < i → listedAfter b)
    (Workload.mergeBucket fuel) wl.buckets.length wl wl2
    ⟨hinv, rfl, fun j b _ hj => absurd hj (Nat.not_lt_zero _)⟩
    (fun i w w2 _ hw hstep =>
      ⟨mergeBucket_inv hw.1 hstep, by rw [mergeBucket_length hstep]; exact hw.2.1,
        mergeBucket_order hw.1.agrees hstep hw.2.2⟩) h
  intro b hb
  obtain ⟨j, hj⟩ := List.getElem?_of_mem hb
  have hjl : j < wl2.buckets.length := (List.getElem?_eq_some.mp hj).1
  exact hfinal.2.2 j b hj (by rw [← hfinal.2.1]; exact hjl)

theorem newWorkload_order {tokens : List (List String)} {fuel : Nat} {wl : Workload}
    (h : newWorkload tokens fuel = .ok wl) : ∀ b ∈ wl.buckets, weakOrder b := by
  rw [newWorkload_eq] at h
  unfold Workload.createWorkloadBuckets at h
  rw [bind_ok_iff] at h
  obtain ⟨scanned, hscan, h⟩ := h
  rw [bind_ok_iff] at h
  obtain ⟨swept, hsweep, h⟩ := h
  simp only [pure, Except.pure, Except.ok.injEq] at h
  subst h
  intro b hb
  simp only [Workload.invertBuckets, List.mem_map] at hb
  obtain ⟨t, ht, htb⟩ := hb
  rw [← htb]
  exact weakOrder_reverse t (mergeSweep_order (scanned_sweepInv hscan) hsweep t ht)

theorem scanLine_preserves (P : Workload → Prop)
    (hstep : ∀ (wl wl2 : Workload) (row col : Nat) (expr : String), P wl →
      wl.scanToken row col expr = .ok wl2 → P wl2) (row : Nat) :
    ∀ (rest : List String) (col : Nat) (wl wl2 : Workload), P wl →
      Workload.scanLine row rest col wl = .ok wl2 → P wl2 := by
  intro rest
  induction rest with
  | nil =>
    intro col wl wl2 hp h
    simp only [Workload.scanLine, Except.ok.injEq] at h
    rw [← h]
    exact hp
  | cons e rest ih =>
    intro col wl wl2 hp h
    simp only [Workload.scanLine] at h
    rw [bind_ok_iff] at h
    obtain ⟨wl1, h1, h2⟩ := h
    exact ih _ wl1 wl2 (hstep wl wl1 row col e hp h1) h2

theorem scanLines_preserves (P : Workload → Prop)
    (hstep : ∀ (wl wl2 : Workload) (row col : Nat) (expr : String), P wl →
      wl.scanToken row col expr = .ok wl2 → P wl2) :
    ∀ (rest : List (List String)) (row : Nat) (wl wl2 : Workload), P wl →
      Workload.scanLines rest row wl = .ok wl2 → P wl2 := by
  intro rest
  induction rest with
  | nil =>
    intro row wl wl2 hp h
    simp only [Workload.scanLines, Except.ok.injEq] at h
    rw [← h]
    exact hp
  | cons cells rest ih =>
    intro row wl wl2 hp h
    simp only [Workload.scanLines] at h
    rw [bind_ok_iff] at h
    obtain ⟨wl1, h1, h2⟩ := h
    exact ih _ wl1 wl2 (scanLine_preserves P hstep row cells 0 wl wl1 hp h1) h2

theorem boardGet_replicate_cases {α : Type} (rows cols : Nat) (v w : α) (r c : Int)
    (h : boardGet (List.replicate rows (List.replicate cols v)) r c = .ok w) : w = v := by
  unfold boardGet at h
  split at h
  · cases h
  · split at h
    · cases h
    · rename_i cells hcells
      split at h
      · cases h
      · rename_i x hx
        simp only [Except.ok.injEq] at h
        subst h
        have h1 : cells ∈ List.replicate rows (List.replicate cols v) := mem_of_getElem? hcells
        rw [List.eq_of_mem_replicate h1] at hx
        exact List.eq_of_mem_replicate (mem_of_getElem? hx)

theorem scanned_range {tokens : List (List String)} {scanned : Workload}
    (hscan : Workload.scanLines tokens 0 (emptyWorkload tokens) = .ok scanned) :
    ∀ (r c i : Int), boardGet scanned.ref r c = .ok i → i < (scanned.buckets.length : Int) := by
  apply scanLines_preserves
    (fun wl => ∀ (r c i : Int), boardGet wl.ref r c = .ok i → i < (wl.buckets.length : Int))
    ?_ tokens 0 (emptyWorkload tokens) scanned ?_ hscan
  · intro wl wl2 row col expr hp h r c i hi
    rcases scanToken_cases h with ⟨_, cell, _, _, hb, _, href⟩ | ⟨_, hb, _, href⟩
    · rw [hb, List.length_append]
      simp only [List.length_singleton, Nat.cast_add, Nat.cast_one]
      by_cases hrc : r = row ∧ c = col
      · rw [hrc.1, hrc.2, boardSet_get_same href] at hi
        simp only [Except.ok.injEq] at hi
        omega
      · rw [boardSet_get_other href r c hrc] at hi
        have := hp r c i hi
        omega
    · rw [hb]
      by_cases hrc : r = row ∧ c = col
      · rw [hrc.1, hrc.2, boardSet_get_same href] at hi
        simp only [Except.ok.injEq] at hi
        rw [← hi]
        unfold PROCESSED
        omega
      · rw [boardSet_get_other href r c hrc] at hi
        exact hp r c i hi
  · intro r c i hi
    have := boardGet_replicate_cases _ _ _ _ r c hi
    rw [this]
    unfold MISSING
    simp only [emptyWorkload, List.length_nil, Nat.cast_zero]
    omega

theorem scanned_singletons {tokens : List (List String)} {scanned : Workload}
    (hscan : Workload.scanLines tokens 0 (emptyWorkload tokens) = .ok scanned) :
    ∀ b ∈ scanned.buckets, ∃ c, b = [c] := by
  obtain ⟨_, _, _, hcoord⟩ := scanLines_facts tokens 0 (emptyWorkload tokens) scanned hscan
  intro b hb
  have hmem : b.map Cell.coord ∈ scanned.coordinates := List.mem_map_of_mem _ hb
  rw [hcoord] at hmem
  simp only [Workload.coordinates, emptyWorkload, List.map_nil, List.nil_append,
    List.mem_map] at hmem
  obtain ⟨p, _, hp⟩ := hmem
  have hlen := congrArg List.length hp
  simp only [List.length_singleton, List.length_map] at hlen
  match b, hlen with
  | [c], _ => exact ⟨c, rfl⟩

theorem getCell_bounds {wl : Workload} {ref : CellRef} {o : Option Cell}
    (h : wl.getCell ref = .ok o) : wl.assertWithinBounds ref.row ref.col = .ok () := by
  unfold Workload.getCell at h
  rw [bind_ok_iff] at h
  obtain ⟨u, hu, _⟩ := h
  exact hu

theorem assertWithinBounds_result {wl wl2 : Workload} (h : wl2.result = wl.result)
    (r c : Int) : wl2.assertWithinBounds r c = wl.assertWithinBounds r c := by
  unfold Workload.assertWithinBounds
  rw [h]

theorem getCell_original {tokens : List (List String)} {scanned wl : Workload}
    (hinv : SweepInv tokens scanned wl) (hst : SweepState scanned wl)
    (hagree0 : scanned.Agrees) (hsingle : ∀ b ∈ scanned.buckets, ∃ c, b = [c])
    {ref : CellRef} {d : Cell} (h : wl.getCell ref = .ok (some d)) :
    scanned.getCell ref = .ok (some d) := by
  obtain ⟨idx, b, hidx, hpos, hb, hmem, hr, hc⟩ := getCell_some h
  have hbounds := getCell_bounds h
  rw [assertWithinBounds_result hinv.result_eq] at hbounds
  have horig := hst.original b (mem_of_getElem? hb) d hmem
  rw [List.mem_flatten] at horig
  obtain ⟨b0, hb0, hd0⟩ := horig
  obtain ⟨c0, hc0⟩ := hsingle b0 hb0
  subst hc0
  have hdc : d = c0 := List.mem_singleton.mp hd0
  subst hdc
  obtain ⟨k, hk⟩ := List.getElem?_of_mem hb0
  have hk0 := hagree0 k _ hk d (List.mem_singleton.mpr rfl)
  rw [hr, hc] at hk0
  unfold Workload.getCell
  rw [hbounds]
  simp only [bind, Except.bind, hk0]
  rw [if_pos (Int.ofNat_nonneg k)]
  simp only [Int.toNat_ofNat, hk]
  simp [List.find?, hr, hc]

theorem getCell_of_status {wl : Workload} {ref : CellRef} {i : Int}
    (hbounds : wl.assertWithinBounds ref.row ref.col = .ok ())
    (hi : boardGet wl.ref ref.row ref.col = .ok i) (hpos : 0 ≤ i)
    (hlt : i < (wl.buckets.length : Int)) : ∃ o, wl.getCell ref = .ok o := by
  have hlt2 : i.toNat < wl.buckets.length := by omega
  unfold Workload.getCell
  rw [hbounds]
  simp only [bind, Except.bind, hi]
  rw [if_pos hpos, List.getElem?_eq_getElem hlt2]
  exact ⟨_, rfl⟩

theorem getCell_progress {tokens : List (List String)} {scanned wl : Workload}
    (hinv : SweepInv tokens scanned wl) (hst : SweepState scanned wl)
    {ref : CellRef} {o : Option Cell} (h : scanned.getCell ref = .ok o) :
    ∃ o2, wl.getCell ref = .ok o2 := by
  have hbounds := getCell_bounds h
  rw [← assertWithinBounds_result hinv.result_eq] at hbounds
  unfold Workload.getCell at h
  rw [bind_ok_iff] at h
  obtain ⟨u, _, h⟩ := h
  rw [bind_ok_iff] at h
  obtain ⟨idx, hidx, h⟩ := h
  rcases hst.status ref.row ref.col with heq | ⟨i, j, hi, _, hwi, _⟩
  · rw [hidx] at heq
    by_cases hpos : 0 ≤ idx
    · exact getCell_of_status hbounds heq hpos (hst.range _ _ _ heq)
    · rw [if_neg hpos] at h
      split at h
      · rename_i hproc
        unfold Workload.getCell
        rw [hbounds]
        simp only [bind, Except.bind, heq]
        rw [if_neg hpos, if_pos hproc]
        exact ⟨_, rfl⟩
      · cases h
  · exact getCell_of_status hbounds hwi hi (hst.range _ _ _ hwi)

theorem treeLoop_mono (wl : Workload) :
    ∀ (fuel i : Nat) (result out : List Cell), wl.treeLoop fuel i result = .ok out →
      ∀ fuel2, fuel ≤ fuel2 → wl.treeLoop fuel2 i result = .ok out := by
  intro fuel
  induction fuel with
  | zero =>
    intro i result out h fuel2 _
    simp only [Workload.treeLoop] at h
    split at h
    · cases h
    · rename_i hlt
      have hnone : result[i]? = none := List.getElem?_eq_none_iff.mpr (by omega)
      cases fuel2 with
      | zero =>
        simp only [Workload.treeLoop]
        rw [if_neg hlt]
        exact h
      | succ fuel2 =>
        simp only [Workload.treeLoop, hnone]
        exact h
  | succ fuel ih =>
    intro i result out h fuel2 hle
    obtain ⟨fuel3, hf⟩ : ∃ fuel3, fuel2 = fuel3 + 1 := ⟨fuel2 - 1, by omega⟩
    subst hf
    simp only [Workload.treeLoop] at h ⊢
    cases hc : result[i]? with
    | none =>
      rw [hc] at h
      exact h
    | some c =>
      rw [hc] at h
      simp only at h ⊢
      rw [bind_ok_iff] at h ⊢
      obtain ⟨result2, h1, h2⟩ := h
      exact ⟨result2, h1, ih _ _ _ h2 fuel3 (by omega)⟩

theorem boardSet_progress {α : Type} {board : List (List α)} {row col : Int} {v : α} (w : α)
    (h : boardGet board row col = .ok v) : ∃ board2, boardSet board row col w = .ok board2 := by
  unfold boardGet at h
  unfold boardSet
  by_cases hneg : row < 0 ∨ col < 0
  · rw [if_pos hneg] at h
    cases h
  · rw [if_neg hneg] at h ⊢
    cases hcells : board[row.toNat]? with
    | none =>
      rw [hcells] at h
      cases h
    | some cells =>
      rw [hcells] at h
      simp only at h ⊢
      cases hx : cells[col.toNat]? with
      | none =>
        rw [hx] at h
        cases h
      | some x =>
        have hlt : col.toNat < cells.length := (List.getElem?_eq_some.mp hx).1
        rw [if_pos hlt]
        exact ⟨_, rfl⟩

theorem markMoved_progress (i : Int) :
    ∀ (cells : List Cell) (ref : RefBoard),
      (∀ c ∈ cells, ∃ v, boardGet ref c.row c.col = .ok v) →
      ∃ ref2, markMoved i cells ref = .ok ref2 := by
  intro cells
  induction cells with
  | nil =>
    intro ref _
    exact ⟨ref, rfl⟩
  | cons c cells ih =>
    intro ref h
    obtain ⟨v, hv⟩ := h c (List.mem_cons_self _ _)
    obtain ⟨ref1, h1⟩ := boardSet_progress i hv
    have hrest : ∀ d ∈ cells, ∃ v, boardGet ref1 d.row d.col = .ok v := by
      intro d hd
      by_cases hdc : d.row = c.row ∧ d.col = c.col
      · rw [hdc.1, hdc.2, boardSet_get_same h1]
        exact ⟨_, rfl⟩
      · rw [boardSet_get_other h1 d.row d.col hdc]
        exact h d (List.mem_cons_of_mem _ hd)
    obtain ⟨ref2, h2⟩ := ih ref1 hrest
    refine ⟨ref2, ?_⟩
    simp only [markMoved]
    rw [bind_ok_iff]
    exact ⟨ref1, h1, h2⟩

theorem collectOldBuckets_progress (ref : RefBoard) (Q : Int → Prop) :
    ∀ (cells : List Cell) (acc : List Int),
      (∀ c ∈ cells, ∃ j, boardGet ref c.row c.col = .ok j ∧ Q j) → (∀ j ∈ acc, Q j) →
      ∃ out, collectOldBuckets ref cells acc = .ok out ∧ ∀ j ∈ out, Q j := by
  intro cells
  induction cells with
  | nil =>
    intro acc _ hacc
    exact ⟨acc, rfl, hacc⟩
  | cons c cells ih =>
    intro acc h hacc
    obtain ⟨j, hj, hq⟩ := h c (List.mem_cons_self _ _)
    have hrest : ∀ d ∈ cells, ∃ j, boardGet ref d.row d.col = .ok j ∧ Q j :=
      fun d hd => h d (List.mem_cons_of_mem _ hd)
    simp only [collectOldBuckets, hj, bind, Except.bind]
    split
    · exact ih acc hrest hacc
    · apply ih (acc ++ [j]) hrest
      intro k hk
      rcases List.mem_append.mp hk with hk | hk
      · exact hacc k hk
      · rw [List.mem_singleton.mp hk]
        exact hq

theorem clearOldBuckets_progress (i : Nat) :
    ∀ (old : List Int) (wl1 : Workload),
      (∀ j ∈ old, 0 ≤ j ∧ j < (wl1.buckets.length : Int)) →
      (∀ b ∈ wl1.buckets, ∀ c ∈ b, ∃ v, boardGet wl1.ref c.row c.col = .ok v) →
      ∃ wl2, Workload.clearOldBuckets i old wl1 = .ok wl2 := by
  intro old
  induction old with
  | nil =>
    intro wl1 _ _
    exact ⟨wl1, rfl⟩
  | cons j js ih =>
    intro wl1 hold hcells
    obtain ⟨hj0, hjl⟩ := hold j (List.mem_cons_self _ _)
    have hlt : j.toNat < wl1.buckets.length := by omega
    have hb : wl1.buckets[j.toNat]? = some wl1.buckets[j.toNat] := List.getElem?_eq_getElem hlt
    obtain ⟨ref2, href2⟩ := markMoved_progress i wl1.buckets[j.toNat] wl1.ref
      (hcells _ (List.getElem_mem hlt))
    obtain ⟨_, hframe⟩ := markMoved_spec i _ _ _ href2
    obtain ⟨wl2, h2⟩ := ih { wl1 with ref := ref2, buckets := wl1.buckets.set j.toNat [] }
      (by
        intro k hk
        simp only [List.length_set]
        exact hold k (List.mem_cons_of_mem _ hk))
      (by
        intro b hbm c hc
        simp only at hbm ⊢
        have hin : ∃ b0 ∈ wl1.buckets, c ∈ b0 := by
          rcases List.mem_or_eq_of_mem_set hbm with hb1 | hb1
          · exact ⟨b, hb1, hc⟩
          · rw [hb1] at hc
            cases hc
        obtain ⟨b0, hb0, hc0⟩ := hin
        rcases hframe c.row c.col with hf | ⟨hf, _⟩
        · rw [hf]
          exact hcells b0 hb0 c hc0
        · exact ⟨_, hf⟩)
    refine ⟨wl2, ?_⟩
    simp only [Workload.clearOldBuckets]
    rw [if_neg (by omega)]
    simp only [hb]
    rw [bind_ok_iff]
    exact ⟨ref2, href2, h2⟩

theorem mergeBucket_of_tree {wl : Workload} {fuel i : Nat} {seed : Cell} {rest tree : List Cell}
    (hB : wl.buckets[i]? = some (seed :: rest))
    (htree : wl.getDependencyTree seed fuel = .ok (seed :: tree)) :
    wl.mergeBucket fuel i =
      (collectOldBuckets wl.ref tree [] >>= fun old =>
        Workload.clearOldBuckets i old { wl with buckets := wl.buckets.set i (seed :: tree) }) := by
  unfold Workload.mergeBucket
  simp only [hB, htree]
  rfl

theorem mergeBucket_mono {wl wl2 : Workload} {fuel fuel2 i : Nat}
    (h : wl.mergeBucket fuel i = .ok wl2) (hle : fuel ≤ fuel2) :
    wl.mergeBucket fuel2 i = .ok wl2 := by
  rcases mergeBucket_cases h with ⟨hB, h2⟩ | ⟨seed, rest, children, old, hB, htree, hold, hclear⟩
  · unfold Workload.mergeBucket
    simp only [hB, h2]
  · have htree2 : wl.getDependencyTree seed fuel2 = .ok (seed :: children) :=
      treeLoop_mono wl fuel 0 [seed] _ htree fuel2 hle
    rw [mergeBucket_of_tree hB htree2, bind_ok_iff]
    exact ⟨old, hold, hclear⟩

theorem tree_home {wl : Workload} {seed : Cell} {rest children : List Cell} {fuel i : Nat}
    (hagrees : wl.Agrees) (hB : wl.buckets[i]? = some (seed :: rest))
    (htree : wl.getDependencyTree seed fuel = .ok (seed :: children)) :
    ∀ c ∈ seed :: children, ∃ (idx : Int) (b0 : Bucket), 0 ≤ idx ∧
      boardGet wl.ref c.row c.col = .ok idx ∧ wl.buckets[idx.toNat]? = some b0 ∧ c ∈ b0 := by
  obtain ⟨children2, htc, hall⟩ := getDependencyTree_spec htree
  simp only [List.cons.injEq, true_and] at htc
  subst htc
  intro c hc
  rcases List.mem_cons.mp hc with hc | hc
  · rw [hc]
    exact ⟨i, seed :: rest, Int.ofNat_nonneg _, hagrees i _ hB _ (List.mem_cons_self _ _),
      by simpa using hB, List.mem_cons_self _ _⟩
  · obtain ⟨ref, href⟩ := hall c hc
    obtain ⟨idx, b0, hidx, hpos, hb0, hmem, hr, hcc⟩ := getCell_some href
    rw [← hr, ← hcc] at hidx
    exact ⟨idx, b0, hpos, hidx, hb0, hmem⟩

theorem set_listed {wl : Workload} {seed : Cell} {rest children : List Cell} {fuel i : Nat}
    (hagrees : wl.Agrees) (hB : wl.buckets[i]? = some (seed :: rest))
    (htree : wl.getDependencyTree seed fuel = .ok (seed :: children)) :
    ∀ b ∈ wl.buckets.set i (seed :: children), ∀ d ∈ b, ∃ (idx : Int) (b0 : Bucket), 0 ≤ idx ∧
      boardGet wl.ref d.row d.col = .ok idx ∧ wl.buckets[idx.toNat]? = some b0 ∧ d ∈ b0 := by
  intro b hb d hd
  rcases List.mem_or_eq_of_mem_set hb with hb1 | hb1
  · obtain ⟨k, hk⟩ := List.getElem?_of_mem hb1
    exact ⟨k, b, Int.ofNat_nonneg _, hagrees k b hk d hd, by simpa using hk, hd⟩
  · rw [hb1] at hd
    exact tree_home hagrees hB htree d hd

theorem mergeBucket_state {tokens : List (List String)} {scanned wl wl2 : Workload}
    {fuel i : Nat} (hinv : SweepInv tokens scanned wl) (hst : SweepState scanned wl)
    (h : wl.mergeBucket fuel i = .ok wl2) : SweepState scanned wl2 := by
  rcases mergeBucket_cases h with ⟨_, h2⟩ | ⟨seed, rest, children, old, hB, htree, _, hclear⟩
  · rw [h2]
    exact hst
  · obtain ⟨_, hkeep, hempty, hframe, _, _⟩ := clearOldBuckets_spec i old _ wl2 hclear
    have hlen := mergeBucket_length h
    have hilt : i < wl.buckets.length := (List.getElem?_eq_some.mp hB).1
    have hlisted := set_listed hinv.agrees hB htree
    simp only at hkeep hframe
    refine ⟨?_, ?_, ?_, ?_⟩
    · intro b2 hb2 c hc
      obtain ⟨k, hk⟩ := List.getElem?_of_mem hb2
      by_cases hkold : (k : Int) ∈ old
      · rw [hempty k hkold b2 hk] at hc
        cases hc
      · rw [hkeep k hkold] at hk
        obtain ⟨_, b0, _, _, hb0, hmem⟩ := hlisted b2 (mem_of_getElem? hk) c hc
        exact hst.original b0 (mem_of_getElem? hb0) c hmem
    · rw [hlen]
      exact hst.length_eq
    · intro r c
      rcases hframe r c with hf | ⟨hf, j, _, b, hb, d, hd, hdr, hdc⟩
      · rw [hf]
        exact hst.status r c
      · obtain ⟨idx, _, hpos, hidx, _, _⟩ := hlisted b (mem_of_getElem? hb) d hd
        rw [hdr, hdc] at hidx
        rcases hst.status r c with heq | ⟨_, j2, _, hj2, _, hs2⟩
        · rw [hidx] at heq
          exact Or.inr ⟨i, idx, Int.ofNat_nonneg _, hpos, hf, heq.symm⟩
        · exact Or.inr ⟨i, j2, Int.ofNat_nonneg _, hj2, hf, hs2⟩
    · intro r c v hv
      rw [hlen]
      rcases hframe r c with hf | ⟨hf, _⟩
      · rw [hf] at hv
        exact hst.range r c v hv
      · rw [hf] at hv
        simp only [Except.ok.injEq] at hv
        omega

theorem child_original {tokens : List (List String)} {scanned wl : Workload}
    (hinv : SweepInv tokens scanned wl) (hst : SweepState scanned wl)
    (hagree0 : scanned.Agrees) (hsingle : ∀ b ∈ scanned.buckets, ∃ c, b = [c])
    (a b : Cell) (h : wl.Child a b) : scanned.Child a b := by
  obtain ⟨ref, href, hget⟩ := h
  exact ⟨ref, href, getCell_original hinv hst hagree0 hsingle hget⟩

theorem mergeBucket_progress {tokens : List (List String)} {scanned wl : Workload} {i : Nat}
    (hinv : SweepInv tokens scanned wl) (hst : SweepState scanned wl)
    (hagree0 : scanned.Agrees) (hsingle : ∀ b ∈ scanned.buckets, ∃ c, b = [c])
    (hbounds : ∀ b ∈ scanned.buckets, ∀ c ∈ b, ∀ ref ∈ c.dependencies,
      (scanned.getCell ref).toBool = true)
    (hacyclic : ∀ b ∈ scanned.buckets, ∀ c ∈ b, ¬ scanned.ReachesCycle c)
    (hi : i < wl.buckets.length) :
    ∃ fuel wl2, wl.mergeBucket fuel i = .ok wl2 := by
  cases hB : wl.buckets[i]? with
  | none =>
    rw [List.getElem?_eq_none_iff] at hB
    omega
  | some bucket =>
    cases bucket with
    | nil =>
      refine ⟨0, wl, ?_⟩
      unfold Workload.mergeBucket
      simp only [hB]
    | cons seed rest =>
      have horig : ∀ c ∈ seed :: wl.buckets.flatten, ∃ b0 ∈ scanned.buckets, c ∈ b0 := by
        intro c hc
        have hlisted : ∃ b ∈ wl.buckets, c ∈ b := by
          rcases List.mem_cons.mp hc with hc | hc
          · rw [hc]
            exact ⟨_, mem_of_getElem? hB, List.mem_cons_self _ _⟩
          · exact List.mem_flatten.mp hc
        obtain ⟨b, hb, hcb⟩ := hlisted
        exact List.mem_flatten.mp (hst.original b hb c hcb)
      have hres : wl.Resolves seed := by
        intro c hc ref href
        obtain ⟨b0, hb0, hc0⟩ := horig c hc
        have hb := hbounds b0 hb0 c hc0 ref href
        cases hg : scanned.getCell ref with
        | error e =>
          rw [hg] at hb
          cases hb
        | ok o =>
          obtain ⟨o2, ho2⟩ := getCell_progress hinv hst hg
          rw [ho2]
          rfl
      have hacyc : ¬ wl.ReachesCycle seed := by
        rintro ⟨d, hreach, hcyc⟩
        obtain ⟨b0, hb0, hc0⟩ := horig seed (List.mem_cons_self _ _)
        apply hacyclic b0 hb0 seed hc0
        exact ⟨d, Relation.ReflTransGen.mono (child_original hinv hst hagree0 hsingle) hreach,
          Relation.TransGen.mono (child_original hinv hst hagree0 hsingle) hcyc⟩
      obtain ⟨fuel, tree, htree⟩ := terminates_of_acyclic hres hacyc
      obtain ⟨children, htc, _⟩ := getDependencyTree_spec htree
      subst htc
      have hhome := tree_home hinv.agrees hB htree
      obtain ⟨old, hold, hq⟩ := collectOldBuckets_progress wl.ref
        (fun j => 0 ≤ j ∧ j < (wl.buckets.length : Int)) children []
        (by
          intro c hc
          obtain ⟨idx, b0, hpos, hidx, hb0, _⟩ := hhome c (List.mem_cons_of_mem _ hc)
          have hlt : idx.toNat < wl.buckets.length := (List.getElem?_eq_some.mp hb0).1
          exact ⟨idx, hidx, hpos, by omega⟩)
        (by
          intro j hj
          cases hj)
      obtain ⟨wl2, hclear⟩ := clearOldBuckets_progress i old
        { wl with buckets := wl.buckets.set i (seed :: children) }
        (by
          intro j hj
          simp only [List.length_set]
          exact hq j hj)
        (by
          intro b hb c hc
          obtain ⟨idx, _, _, hidx, _, _⟩ := set_listed hinv.agrees hB htree b hb c hc
          exact ⟨idx, hidx⟩)
      refine ⟨fuel, wl2, ?_⟩
      rw [mergeBucket_of_tree hB htree, bind_ok_iff]
      exact ⟨old, hold, hclear⟩

theorem foldlM_fuel {β : Type} (P : β → Prop) (f : Nat → β → Nat → Except Fault β)
    (hmono : ∀ fuel fuel2 b i b2, fuel ≤ fuel2 → f fuel b i = .ok b2 → f fuel2 b i = .ok b2) :
    ∀ (l : List Nat) (b : β), P b →
      (∀ b i, i ∈ l → P b → ∃ fuel b2, f fuel b i = .ok b2 ∧ P b2) →
      ∃ fuel b2, ∀ fuel2, fuel ≤ fuel2 → l.foldlM (f fuel2) b = .ok b2 := by
  intro l
  induction l with
  | nil =>
    intro b _ _
    exact ⟨0, b, fun _ _ => rfl⟩
  | cons i l ih =>
    intro b hb hstep
    obtain ⟨fuel1, b1, h1, hb1⟩ := hstep b i (List.mem_cons_self _ _) hb
    obtain ⟨fuel2, b2, h2⟩ := ih b1 hb1 (fun b j hj => hstep b j (List.mem_cons_of_mem _ hj))
    refine ⟨max fuel1 fuel2, b2, ?_⟩
    intro fuel hfuel
    rw [List.foldlM_cons, bind_ok_iff]
    exact ⟨b1, hmono fuel1 fuel b i b1 (by omega) h1, h2 fuel (by omega)⟩

theorem acyclic_of_run {wl : Workload} {seed : Cell} {fuel : Nat} (hres : wl.Resolves seed)
    (hrun : (wl.getDependencyTree seed fuel).toBool = true) : ¬ wl.ReachesCycle seed := by
  intro hcyc
  rw [diverges_of_cycle hres hcyc fuel] at hrun
  cases hrun

theorem mergeSweep_returns {tokens : List (List String)} {scanned : Workload}
    (hscan : Workload.scanLines tokens 0 (emptyWorkload tokens) = .ok scanned)
    (hbounds : ∀ b ∈ scanned.buckets, ∀ c ∈ b, ∀ ref ∈ c.dependencies,
      (scanned.getCell ref).toBool = true)
    (hacyclic : ∀ b ∈ scanned.buckets, ∀ c ∈ b, ¬ scanned.ReachesCycle c) :
    ∃ fuel0 swept, ∀ fuel, fuel0 ≤ fuel → scanned.mergeSweep fuel = .ok swept := by
  have hinv0 := scanned_sweepInv hscan
  have hst0 : SweepState scanned scanned :=
    ⟨fun b hb c hc => List.mem_flatten.mpr ⟨b, hb, hc⟩, rfl, fun _ _ => Or.inl rfl,
      scanned_range hscan⟩
  exact foldlM_fuel (fun w => SweepInv tokens scanned w ∧ SweepState scanned w)
    (fun fuel w i => Workload.mergeBucket fuel w i)
    (fun _ _ _ _ _ hle h => mergeBucket_mono h hle)
    (List.range scanned.buckets.length) scanned ⟨hinv0, hst0⟩
    (by
      intro w i hi hw
      obtain ⟨hinv, hst⟩ := hw
      obtain ⟨fuel, w2, h⟩ := mergeBucket_progress hinv hst hinv0.agrees
        (scanned_singletons hscan) hbounds hacyclic
        (by rw [hst.length_eq]; exact List.mem_range.mp hi)
      exact ⟨fuel, w2, h, mergeBucket_inv hinv h, mergeBucket_state hinv hst h⟩)

/-- C21, weak order validity: when the first loop of `createWorkloadBuckets`
returns on the grid, every dependency coordinate of the cells it created is in
bounds and not `MISSING`, and no created cell reaches a dependency cycle, then
`newWorkload` returns, the same workload for every fuel from some bound on, and
in every bucket of a workload it returns each dependency coordinate of the cell
at position `k` that is listed in that bucket is listed at a position strictly
before `k`. -/
theorem weak_order_validity (tokens : List (List String)) (scanned : Workload)
    (hscan : Workload.scanLines tokens 0 (emptyWorkload tokens) = .ok scanned)
    (hbounds : ∀ b ∈ scanned.buckets, ∀ c ∈ b, ∀ ref ∈ c.dependencies,
      (scanned.getCell ref).toBool = true)
    (hacyclic : ∀ b ∈ scanned.buckets, ∀ c ∈ b, ¬ scanned.ReachesCycle c) :
    (∃ fuel0 wl, ∀ fuel, fuel0 ≤ fuel → newWorkload tokens fuel = .ok wl) ∧
    ∀ fuel wl, newWorkload tokens fuel = .ok wl → ∀ b ∈ wl.buckets, weakOrder b := by
  refine ⟨?_, fun fuel wl h => newWorkload_order h⟩
  obtain ⟨fuel0, swept, hsweep⟩ := mergeSweep_returns hscan hbounds hacyclic
  refine ⟨fuel0, swept.invertBuckets, fun fuel hfuel => ?_⟩
  rw [newWorkload_eq]
  unfold Workload.createWorkloadBuckets
  rw [hscan]
  simp only [bind, Except.bind]
  rw [hsweep fuel hfuel]
  rfl

/-- Witness of `weak_order_validity`: on `diamondGrid` the first loop returns
`diamondScanned`, whose dependencies resolve and reach no cycle; `newWorkload`
returns `diamondWorkload`, where D1 is listed twice, before C1, B1 and A1.
Before the reversal the order does not hold: in `mergeSwept` A1 is listed
before B1, which it needs. -/
theorem weak_order_validity_witness :
    Workload.scanLines diamondGrid 0 (emptyWorkload diamondGrid) = .ok diamondScanned ∧
    newWorkload diamondGrid 5 = .ok diamondWorkload ∧
    diamondWorkload.coordinates = [[(0, 3), (0, 3), (0, 2), (0, 1), (0, 0)], [], [], []] ∧
    (¬ ∀ b ∈ mergeSwept.buckets, weakOrder b) ∧
    ∀ b ∈ diamondWorkload.buckets, weakOrder b :=
  have hscan : Workload.scanLines diamondGrid 0 (emptyWorkload diamondGrid)
      = .ok diamondScanned := by decide
  have hrun : newWorkload diamondGrid 5 = .ok diamondWorkload := by decide
  have hbounds : ∀ b ∈ diamondScanned.buckets, ∀ c ∈ b, ∀ ref ∈ c.dependencies,
      (diamondScanned.getCell ref).toBool = true := by decide
  have hcheck : ∀ b ∈ diamondScanned.buckets, ∀ c ∈ b, diamondScanned.Resolves c ∧
      (diamondScanned.getDependencyTree c 5).toBool = true := by
    unfold Workload.Resolves
    decide
  have hacyclic : ∀ b ∈ diamondScanned.buckets, ∀ c ∈ b, ¬ diamondScanned.ReachesCycle c :=
    fun b hb c hc => acyclic_of_run (hcheck b hb c hc).1 (hcheck b hb c hc).2
  ⟨hscan, hrun, by decide, by decide,
    (weak_order_validity diamondGrid diamondScanned hscan hbounds hacyclic).2 5 _ hrun⟩

end Journey
